import Mathlib

/-!
# Binary packing engine of 3DGSviewer (`src/packing.cpp`, `src/packing.h`)

A shallow embedding of the packing engine and theorems about it.

Modelling decisions

* C++ `int` values (offsets, sizes, alignments, counts) are mathematical integers (`Int`).
  Signed overflow is undefined behaviour in C++ and lies outside this model, with one
  exception: the conversion of the `float` result of `roundUp` back to `int`, which is
  checked against the 32-bit range.  A function of the model therefore gives the result
  of the C++ function wherever the sums and products that the C++ function computes are
  values of `int` (`fitsInt`); beyond that the C++ function has undefined behaviour and the
  model describes nothing.  The theorems on the sizes that the constructors compute carry
  `fitsInt` as a hypothesis; in the theorems on `pack` and `unpack` the offsets lie inside
  the buffer.
* A `float` held in a `NestedData` is identified with its binary32 bit pattern (a natural
  number below `2^32`): the engine only ever moves such values with `memcpy`.
* `roundUp` computes in binary32 floating point.  Its three operations (conversion of an
  `int`, division, multiplication), all correctly rounded to nearest, ties to even, are
  modelled exactly in integer arithmetic (`roundNearestEven`).
* The byte buffer is a list of bytes (naturals below 256), the host is little-endian.
* `std::unordered_map<std::string, NestedData>` is an association list whose keys are
  pairwise distinct; the iteration order carries no meaning.
* A thrown `PackingError` is the outcome `throws`; undefined behaviour of the C++ program
  (a buffer access out of range, a remainder by zero, a float to int conversion out of
  range) is the outcome `undefined` (`none` where nothing can be thrown).
  `pack` mutates the buffer in place, so the model returns the buffer together with the
  outcome, also when an exception is thrown.
* A descriptor object stores the fields the C++ object stores (`size`, `alignment`, ...);
  the C++ constructors are the functions `mkVectorType`, `mkStruct`, `mkStaticArray`,
  `mkMatrixType` (and `vec2`, `vec3`, `vec4`, `mat4x4`).

The point-cloud parser (`src/ply.cpp`) is embedded in the namespace `Ply`, after the
definitions of the packing engine.
-/

namespace Packing

/-! ## Binary32 arithmetic used by `roundUp` -/

/-- Auxiliary loop of `floorLog2`; the first argument bounds the number of halvings. -/
def log2Fuel : Nat → Nat → Nat
  | 0, _ => 0
  | fuel + 1, n => if n < 2 then 0 else log2Fuel fuel (n / 2) + 1

/-- The position of the leading binary digit of `n` (`0` for `n = 0`). -/
def floorLog2 (n : Nat) : Nat := log2Fuel n n

/-- The exponent `e` of the unit in the last place of the binary32 number nearest to the
positive rational `a / b`: `2^(23+e) ≤ a / b < 2^(24+e)`. -/
def ulpExponent (a b : Nat) : Int :=
  let t : Int := (floorLog2 a : Int) - (floorLog2 b : Int)
  (if b * 2 ^ t.toNat ≤ a * 2 ^ (-t).toNat then t else t - 1) - 23

/-- Round the positive rational `a / b` to 24 significant binary digits, to nearest,
ties to even.  The result `(m, e)` stands for the number `m * 2^e`. -/
def roundNearestEven (a b : Nat) : Nat × Int :=
  let e := ulpExponent a b
  let num := a * 2 ^ (-e).toNat
  let den := b * 2 ^ e.toNat
  let q := num / den
  let r := num % den
  (if den < 2 * r ∨ (2 * r = den ∧ q % 2 = 1) then q + 1 else q, e)

/-- The least integer not below `m * 2^e`. -/
def ceilMag (f : Nat × Int) : Nat :=
  if 0 ≤ f.2 then f.1 * 2 ^ f.2.toNat else (f.1 + 2 ^ (-f.2).toNat - 1) / 2 ^ (-f.2).toNat

/-- The greatest integer not above `m * 2^e`. -/
def floorMag (f : Nat × Int) : Nat :=
  if 0 ≤ f.2 then f.1 * 2 ^ f.2.toNat else f.1 / 2 ^ (-f.2).toNat

/-- The value of `static_cast<float>(n)`; it is again an integer.  The same function gives
the binary32 product of two integer-valued floats `c`, `y` as `toFloat (c * y)`. -/
def toFloat (n : Int) : Int :=
  if n = 0 then 0 else n.sign * (floorMag (roundNearestEven n.natAbs 1) : Int)

/-- The value of `std::ceil(x / y)` for integer-valued floats `x` and `y ≠ 0`. -/
def ceilDivF (x y : Int) : Int :=
  if x = 0 then 0
  else if (0 < x) = (0 < y) then (ceilMag (roundNearestEven x.natAbs y.natAbs) : Int)
  else -(floorMag (roundNearestEven x.natAbs y.natAbs) : Int)

/-- Embeds `roundUp`: `return std::ceil(static_cast<float>(n) / multiple) * multiple;`.
With `multiple == 0` the float expression is NaN, and converting NaN or a value outside
the `int` range to `int` is undefined behaviour (`none`). -/
def roundUp (n multiple : Int) : Option Int :=
  if multiple = 0 then none
  else
    let p := toFloat (ceilDivF (toFloat n) (toFloat multiple) * toFloat multiple)
    if -2147483648 ≤ p ∧ p < 2147483648 then some p else none

/-- Loop `while (offset % alignment != 0) offset++;` with a bound on the iterations. -/
def alignLoop : Nat → Int → Int → Int
  | 0, offset, _ => offset
  | fuel + 1, offset, alignment =>
    if offset.tmod alignment ≠ 0 then alignLoop fuel (offset + 1) alignment else offset

/-- The alignment loop of the constructors, of `pack` and of `unpack`.  A zero alignment
makes `offset % alignment` undefined behaviour; otherwise the loop exits within
`|alignment|` iterations (`alignOffset_tmod`). -/
def alignOffset (offset alignment : Int) : Option Int :=
  if alignment = 0 then none else some (alignLoop alignment.natAbs offset alignment)

/-! ## Value model, errors, buffers -/

/-- Embeds `NestedData`, the variant of `int32_t`, `uint32_t`, `float`,
`std::vector<NestedData>` and `std::unordered_map<std::string, NestedData>`. -/
inductive NestedData where
  | int32 (val : Int)
  | uint32 (val : Nat)
  | float (bits : Nat)
  | vector (values : List NestedData)
  | map (values : List (String × NestedData))

/-- A scalar that the C++ type can hold: an `int32_t`, a `uint32_t` or the bit pattern of
a `float`. -/
def NestedData.validScalar : NestedData → Bool
  | .int32 v => decide (-2147483648 ≤ v ∧ v < 2147483648)
  | .uint32 v => decide (v < 4294967296)
  | .float b => decide (b < 4294967296)
  | _ => false

/-- The 32-bit pattern that `memcpy` copies out of a scalar (two's complement for
`int32_t`). -/
def NestedData.pattern : NestedData → Nat
  | .int32 v => (v % 4294967296).toNat
  | .uint32 v => v % 4294967296
  | .float b => b % 4294967296
  | _ => 0

/-- The kinds named in the "Expected ..." messages. -/
inductive Kind where
  | int32_t
  | uint32_t
  | float
  | array
  | object
  deriving DecidableEq

/-- Embeds the messages of `PackingError`.
* `expected k`: "Expected k, got " followed by `typeid(value).name()`;
* `expectedCount n noun m`: "Expected n values, got m" ("columns" for a matrix);
* `missingKey key`: "Missing value for key key";
* `atIndex i e`, `atKey key e`, `atCell i j e`: "Error packing value i: e",
  "Error packing value key: e", "Error packing value i,j: e". -/
inductive PackingError where
  | expected (kind : Kind)
  | expectedCount (expected : Int) (noun : String) (actual : Nat)
  | missingKey (key : String)
  | atIndex (i : Nat) (inner : PackingError)
  | atKey (key : String) (inner : PackingError)
  | atCell (i j : Nat) (inner : PackingError)
  deriving DecidableEq

/-- How a call ends: it returns, it throws a `PackingError`, or its behaviour is
undefined. -/
inductive Outcome (α : Type) where
  | ok (val : α)
  | throws (err : PackingError)
  | undefined
  deriving DecidableEq

/-- The byte buffer `std::vector<uint8_t>`. -/
abbrev Buffer := List Nat

/-- The four bytes of a 32-bit pattern, least significant first. -/
def le32 (pattern : Nat) : List Nat :=
  [pattern % 256, pattern / 256 % 256, pattern / 65536 % 256, pattern / 16777216 % 256]

/-- Overwrites the bytes of `buffer` from index `i` on with `bytes`. -/
def storeBytes : Buffer → Nat → List Nat → Buffer
  | buffer, _, [] => buffer
  | buffer, i, b :: rest => storeBytes (buffer.set i b) (i + 1) rest

/-- The 32-bit pattern held little-endian in the four bytes at `i`; `none` when they are
not all inside the buffer. -/
def load32 (buffer : Buffer) (i : Nat) : Option Nat :=
  match buffer[i]?, buffer[i + 1]?, buffer[i + 2]?, buffer[i + 3]? with
  | some b0, some b1, some b2, some b3 => some (b0 + 256 * b1 + 65536 * b2 + 16777216 * b3)
  | _, _, _, _ => none

/-- Embeds `std::memcpy(&buffer[offset], &val, 4); return offset + size;`. -/
def packScalar (size offset : Int) (pattern : Nat) (buffer : Buffer) : Outcome Int × Buffer :=
  if 0 ≤ offset ∧ offset + 4 ≤ (buffer.length : Int) then
    (.ok (offset + size), storeBytes buffer offset.toNat (le32 pattern))
  else (.undefined, buffer)

/-- Embeds `std::memcpy(&content, &buffer[offset], 4); return (offset + size, content);`,
where `decode` reinterprets the pattern. -/
def unpackScalar (size offset : Int) (decode : Nat → NestedData) (buffer : Buffer) :
    Option (Int × NestedData) :=
  if 0 ≤ offset then
    match load32 buffer offset.toNat with
    | some p => some (offset + size, decode p)
    | none => none
  else none

/-- The `int32_t` whose two's complement pattern is `p`. -/
def int32OfPattern (p : Nat) : Int :=
  if p < 2147483648 then (p : Int) else (p : Int) - 4294967296

/-- Embeds `values.find(key)` / `values.at(key)` on the unordered map. -/
def mapFind : List (String × NestedData) → String → Option NestedData
  | [], _ => none
  | (k, v) :: rest, key => if k = key then some v else mapFind rest key

/-- Embeds `values[key] = value` on the unordered map. -/
def mapAssign : List (String × NestedData) → String → NestedData → List (String × NestedData)
  | [], key, value => [(key, value)]
  | (k, v) :: rest, key, value =>
    if k = key then (k, value) :: rest else (k, v) :: mapAssign rest key value

/-! ## Type descriptors -/

/-- Embeds the class `PackingType` and its subclasses: one constructor per class, holding
the data members of the object (`size` and `alignment` first).  `vec2`, `vec3`, `vec4` and
`mat4x4` add no member and override nothing, so they are `VectorType` and `MatrixType`
objects. -/
inductive PackingType where
  | i32Type (size alignment : Int)
  | u32Type (size alignment : Int)
  | f32Type (size alignment : Int)
  | VectorType (size alignment : Int) (baseType : PackingType) (nValues : Int)
  | Struct (size alignment : Int) (members : List (String × PackingType))
  | StaticArray (size alignment : Int) (type : PackingType) (nElements : Int) (stride : Int)
  | MatrixType (size alignment : Int) (baseType : PackingType) (nRows nColumns : Int)

/-- Member `size` of a descriptor. -/
def PackingType.size : PackingType → Int
  | .i32Type s _ => s
  | .u32Type s _ => s
  | .f32Type s _ => s
  | .VectorType s _ _ _ => s
  | .Struct s _ _ => s
  | .StaticArray s _ _ _ _ => s
  | .MatrixType s _ _ _ _ => s

/-- Member `alignment` of a descriptor. -/
def PackingType.alignment : PackingType → Int
  | .i32Type _ a => a
  | .u32Type _ a => a
  | .f32Type _ a => a
  | .VectorType _ a _ _ => a
  | .Struct _ a _ => a
  | .StaticArray _ a _ _ _ => a
  | .MatrixType _ a _ _ _ => a

/-- Embeds `const i32Type i32;` (`i32Type::i32Type() : PackingType(4, 4)`). -/
def i32 : PackingType := .i32Type 4 4

/-- Embeds `const u32Type u32;`. -/
def u32 : PackingType := .u32Type 4 4

/-- Embeds `const f32Type f32;`. -/
def f32 : PackingType := .f32Type 4 4

/-- The values of the C++ type `int` (32 bits).  An `int` sum or product whose
mathematical value is not one of them is a signed overflow: undefined behaviour. -/
def fitsInt (x : Int) : Bool := decide (-2147483648 ≤ x ∧ x ≤ 2147483647)

/-- Embeds `VectorType::VectorType`: `PackingType(baseType.size * nValues, alignment)`.
The product is the mathematical one: this is the object that the constructor builds when
`fitsInt (baseType.size * nValues)`, and otherwise the constructor has undefined
behaviour. -/
def mkVectorType (baseType : PackingType) (nValues alignment : Int) : PackingType :=
  .VectorType (baseType.size * nValues) alignment baseType nValues

/-- Embeds `vec2::vec2`: `VectorType(baseType, 2, 8)`. -/
def vec2 (baseType : PackingType) : PackingType := mkVectorType baseType 2 8

/-- Embeds `vec3::vec3`: `VectorType(baseType, 3, 16)`. -/
def vec3 (baseType : PackingType) : PackingType := mkVectorType baseType 3 16

/-- Embeds `vec4::vec4`: `VectorType(baseType, 4, 16)`. -/
def vec4 (baseType : PackingType) : PackingType := mkVectorType baseType 4 16

/-- The loop of `Struct::Struct` over the members, from the running `alignment` and
`offset`; `none` when a member alignment is zero.  The sums are the mathematical ones:
for members of non-negative size this is what the loop computes when `fitsInt` holds of
the offset it ends at. -/
def structLayout : List (String × PackingType) → Int → Int → Option (Int × Int)
  | [], alignment, offset => some (alignment, offset)
  | member :: rest, alignment, offset =>
    match alignOffset offset member.2.alignment with
    | none => none
    | some aligned =>
      structLayout rest (max alignment member.2.alignment) (aligned + member.2.size)

/-- Embeds `Struct::Struct`: `size = roundUp(offset, alignment)` after the loop. -/
def mkStruct (members : List (String × PackingType)) : Option PackingType :=
  match structLayout members 0 0 with
  | none => none
  | some (alignment, offset) =>
    match roundUp offset alignment with
    | none => none
    | some size => some (.Struct size alignment members)

/-- Embeds `StaticArray::StaticArray`:
`PackingType(nElements * roundUp(type.size, type.alignment), type.alignment)` and
`stride(roundUp(type.size, type.alignment))`; `none` when `roundUp` has no defined result.
The product is the mathematical one: this is the object that the constructor builds when
`fitsInt (nElements * stride)`, and otherwise the constructor has undefined behaviour. -/
def mkStaticArray (type : PackingType) (nElements : Int) : Option PackingType :=
  match roundUp type.size type.alignment with
  | none => none
  | some stride => some (.StaticArray (nElements * stride) type.alignment type nElements stride)

/-- How a constructor that may throw `std::invalid_argument` ends. -/
inductive Construction where
  | built (type : PackingType)
  | invalidArgument (nRows : Int)
  | undefined

/-- Embeds `MatrixType::MatrixType`.  The products of the two constructors it calls are
the mathematical ones: this is how the constructor ends when `fitsInt` holds of
`baseType.size * nRows` and of `nColumns * stride`, and otherwise the constructor has
undefined behaviour. -/
def mkMatrixType (baseType : PackingType) (nRows nColumns : Int) : Construction :=
  let build (vecType : PackingType) : Construction :=
    match mkStaticArray vecType nColumns with
    | none => .undefined
    | some arrayType => .built (.MatrixType arrayType.size vecType.alignment baseType nRows nColumns)
  if nRows = 2 then build (vec2 baseType)
  else if nRows = 3 then build (vec3 baseType)
  else if nRows = 4 then build (vec4 baseType)
  else .invalidArgument nRows

/-- Embeds `mat4x4::mat4x4`: `MatrixType(baseType, 4, 4)`. -/
def mat4x4 (baseType : PackingType) : Construction := mkMatrixType baseType 4 4

/-! ## pack -/

/-- The element loop of `VectorType::pack` (`skip = 0`) and of `StaticArray::pack`
(`skip = stride - type.size`, added after each element); `i` is the loop index. -/
def packElements (packOne : Int → NestedData → Buffer → Outcome Int × Buffer) (skip : Int) :
    Nat → List NestedData → Int → Buffer → Outcome Int × Buffer
  | _, [], offset, buffer => (.ok offset, buffer)
  | i, value :: rest, offset, buffer =>
    match packOne offset value buffer with
    | (.ok next, buffer1) => packElements packOne skip (i + 1) rest (next + skip) buffer1
    | (.throws e, buffer1) => (.throws (.atIndex i e), buffer1)
    | (.undefined, buffer1) => (.undefined, buffer1)

/-- The inner loop of `MatrixType::pack` over the entries of column `i`. -/
def packCells (packOne : Int → NestedData → Buffer → Outcome Int × Buffer) (i : Nat) :
    Nat → List NestedData → Int → Buffer → Outcome Int × Buffer
  | _, [], offset, buffer => (.ok offset, buffer)
  | j, value :: rest, offset, buffer =>
    match packOne offset value buffer with
    | (.ok next, buffer1) => packCells packOne i (j + 1) rest next buffer1
    | (.throws e, buffer1) => (.throws (.atCell i j e), buffer1)
    | (.undefined, buffer1) => (.undefined, buffer1)

/-- The outer loop of `MatrixType::pack` over the columns. -/
def packColumns (packOne : Int → NestedData → Buffer → Outcome Int × Buffer) :
    Nat → List NestedData → Int → Buffer → Outcome Int × Buffer
  | _, [], offset, buffer => (.ok offset, buffer)
  | i, .vector innerValues :: rest, offset, buffer =>
    match packCells packOne i 0 innerValues offset buffer with
    | (.ok next, buffer1) => packColumns packOne (i + 1) rest next buffer1
    | other => other
  | _, _ :: _, _, buffer => (.throws (.expected .array), buffer)

mutual
/-- Embeds the virtual `pack(offset, value, buffer)` of every descriptor class. -/
def pack : PackingType → Int → NestedData → Buffer → Outcome Int × Buffer
  | .i32Type size _, offset, value, buffer =>
    match value with
    | .int32 v => packScalar size offset (NestedData.int32 v).pattern buffer
    | _ => (.throws (.expected .int32_t), buffer)
  | .u32Type size _, offset, value, buffer =>
    match value with
    | .uint32 v => packScalar size offset (NestedData.uint32 v).pattern buffer
    | _ => (.throws (.expected .uint32_t), buffer)
  | .f32Type size _, offset, value, buffer =>
    match value with
    | .float b => packScalar size offset (NestedData.float b).pattern buffer
    | _ => (.throws (.expected .float), buffer)
  | .VectorType _ alignment baseType nValues, offset, value, buffer =>
    match value with
    | .vector values =>
      if (values.length : Int) ≠ nValues then
        (.throws (.expectedCount nValues "values" values.length), buffer)
      else
        match alignOffset offset alignment with
        | none => (.undefined, buffer)
        | some aligned =>
          packElements (fun o v b => pack baseType o v b) 0 0 values aligned buffer
    | _ => (.throws (.expected .array), buffer)
  | .Struct size alignment members, offset, value, buffer =>
    match value with
    | .map values =>
      if values.length ≠ members.length then
        (.throws (.expectedCount members.length "values" values.length), buffer)
      else
        match alignOffset offset alignment with
        | none => (.undefined, buffer)
        | some aligned =>
          match packMembers members values aligned buffer with
          | (.ok last, buffer1) => (.ok (last + (size - (last - offset))), buffer1)
          | other => other
    | _ => (.throws (.expected .object), buffer)
  | .StaticArray _ alignment type nElements stride, offset, value, buffer =>
    match value with
    | .vector values =>
      if (values.length : Int) ≠ nElements then
        (.throws (.expectedCount nElements "values" values.length), buffer)
      else
        match alignOffset offset alignment with
        | none => (.undefined, buffer)
        | some aligned =>
          packElements (fun o v b => pack type o v b) (stride - type.size) 0 values aligned buffer
    | _ => (.throws (.expected .array), buffer)
  | .MatrixType size alignment baseType _ nColumns, offset, value, buffer =>
    match value with
    | .vector values =>
      if (values.length : Int) ≠ nColumns then
        (.throws (.expectedCount nColumns "columns" values.length), buffer)
      else
        match alignOffset offset alignment with
        | none => (.undefined, buffer)
        | some startOffset =>
          match packColumns (fun o v b => pack baseType o v b) 0 values startOffset buffer with
          | (.ok _, buffer1) => (.ok (startOffset + size), buffer1)
          | other => other
    | _ => (.throws (.expected .array), buffer)
/-- The member loop of `Struct::pack`. -/
def packMembers : List (String × PackingType) → List (String × NestedData) → Int → Buffer →
    Outcome Int × Buffer
  | [], _, offset, buffer => (.ok offset, buffer)
  | (key, type) :: rest, values, offset, buffer =>
    match mapFind values key with
    | none => (.throws (.missingKey key), buffer)
    | some memberValue =>
      match pack type offset memberValue buffer with
      | (.ok next, buffer1) => packMembers rest values next buffer1
      | (.throws e, buffer1) => (.throws (.atKey key e), buffer1)
      | (.undefined, buffer1) => (.undefined, buffer1)
end

/-! ## unpack -/

/-- The element loop of `VectorType::unpack` (`skip = 0`) and `StaticArray::unpack`
(`skip = stride - type.size`): `count` iterations, appending to `values`. -/
def unpackElements (unpackOne : Int → Buffer → Option (Int × NestedData)) (skip : Int)
    (buffer : Buffer) : Nat → Int → List NestedData → Option (Int × List NestedData)
  | 0, offset, values => some (offset, values)
  | count + 1, offset, values =>
    match unpackOne offset buffer with
    | none => none
    | some (next, value) => unpackElements unpackOne skip buffer count (next + skip) (values ++ [value])

/-- The outer loop of `MatrixType::unpack`: `count` columns of `nRows` entries each. -/
def unpackColumns (unpackOne : Int → Buffer → Option (Int × NestedData)) (nRows : Nat)
    (buffer : Buffer) : Nat → Int → List NestedData → Option (Int × List NestedData)
  | 0, offset, outerValues => some (offset, outerValues)
  | count + 1, offset, outerValues =>
    match unpackElements unpackOne 0 buffer nRows offset [] with
    | none => none
    | some (next, innerValues) =>
      unpackColumns unpackOne nRows buffer count next (outerValues ++ [.vector innerValues])

mutual
/-- Embeds the virtual `unpack(offset, buffer)` of every descriptor class; `none` is
undefined behaviour. -/
def unpack : PackingType → Int → Buffer → Option (Int × NestedData)
  | .i32Type size _, offset, buffer =>
    unpackScalar size offset (fun p => .int32 (int32OfPattern p)) buffer
  | .u32Type size _, offset, buffer => unpackScalar size offset (fun p => .uint32 p) buffer
  | .f32Type size _, offset, buffer => unpackScalar size offset (fun p => .float p) buffer
  | .VectorType _ alignment baseType nValues, offset, buffer =>
    match alignOffset offset alignment with
    | none => none
    | some aligned =>
      match unpackElements (fun o b => unpack baseType o b) 0 buffer nValues.toNat aligned [] with
      | none => none
      | some (last, values) => some (last, .vector values)
  | .Struct size alignment members, offset, buffer =>
    match alignOffset offset alignment with
    | none => none
    | some aligned =>
      match unpackMembers members aligned buffer [] with
      | none => none
      | some (last, values) => some (last + (size - (last - offset)), .map values)
  | .StaticArray _ alignment type nElements stride, offset, buffer =>
    match alignOffset offset alignment with
    | none => none
    | some aligned =>
      match unpackElements (fun o b => unpack type o b) (stride - type.size) buffer
          nElements.toNat aligned [] with
      | none => none
      | some (last, values) => some (last, .vector values)
  | .MatrixType size alignment baseType nRows nColumns, offset, buffer =>
    match alignOffset offset alignment with
    | none => none
    | some startOffset =>
      match unpackColumns (fun o b => unpack baseType o b) nRows.toNat buffer
          nColumns.toNat startOffset [] with
      | none => none
      | some (last, outerValues) =>
        some (last + (size - (last - startOffset)), .vector outerValues)
/-- The member loop of `Struct::unpack`. -/
def unpackMembers : List (String × PackingType) → Int → Buffer → List (String × NestedData) →
    Option (Int × List (String × NestedData))
  | [], offset, _, values => some (offset, values)
  | (key, type) :: rest, offset, buffer, values =>
    match unpack type offset buffer with
    | none => none
    | some (next, value) => unpackMembers rest next buffer (mapAssign values key value)
end


/-! ## Vocabulary of the statements -/

/-- The alternative that a scalar `NestedData` holds (`std::holds_alternative`). -/
def NestedData.scalarKind : NestedData → Option Kind
  | .int32 _ => some .int32_t
  | .uint32 _ => some .uint32_t
  | .float _ => some .float
  | _ => none

/-- The three primitive descriptors `i32`, `u32`, `f32`, each with the scalar kind its
`pack` accepts. -/
def primitives : List (PackingType × Kind) :=
  [(i32, .int32_t), (u32, .uint32_t), (f32, .float)]

/-- The bytes that `pack` writes for a run of scalars: their 32-bit patterns,
little-endian, one after the other. -/
def encodeAll : List NestedData → List Nat
  | [] => []
  | v :: rest => le32 v.pattern ++ encodeAll rest

mutual
/-- The values a descriptor is meant for ("matching its shape"): a scalar of the kind of
the primitive; a sequence of the declared length whose entries match the base or element
type; a mapping with as many entries as the struct declares fields, holding a matching
value under every declared name; for a matrix a sequence of `nColumns` sequences of
`nRows` entries matching the base. -/
def matchesShape : PackingType → NestedData → Bool
  | .i32Type _ _, value => decide (value.scalarKind = some .int32_t)
  | .u32Type _ _, value => decide (value.scalarKind = some .uint32_t)
  | .f32Type _ _, value => decide (value.scalarKind = some .float)
  | .VectorType _ _ baseType nValues, value =>
    match value with
    | .vector values =>
      decide ((values.length : Int) = nValues) && values.all (fun v => matchesShape baseType v)
    | _ => false
  | .Struct _ _ members, value =>
    match value with
    | .map values => decide (values.length = members.length) && matchesMembers members values
    | _ => false
  | .StaticArray _ _ type nElements _, value =>
    match value with
    | .vector values =>
      decide ((values.length : Int) = nElements) && values.all (fun v => matchesShape type v)
    | _ => false
  | .MatrixType _ _ baseType nRows nColumns, value =>
    match value with
    | .vector columns =>
      decide ((columns.length : Int) = nColumns) &&
        columns.all (fun column =>
          match column with
          | .vector cells =>
            decide ((cells.length : Int) = nRows) && cells.all (fun v => matchesShape baseType v)
          | _ => false)
    | _ => false
/-- Every declared field has a matching value in the mapping. -/
def matchesMembers : List (String × PackingType) → List (String × NestedData) → Bool
  | [], _ => true
  | (key, type) :: rest, values =>
    (match mapFind values key with
      | some value => matchesShape type value
      | none => false) && matchesMembers rest values
end

/-- The offset of the first byte that `pack` and `unpack` touch when entered at `offset`:
the primitives use `offset` itself, every other descriptor first runs the alignment loop
(for a non-zero alignment it ends at `offset + (-offset) % alignment`). -/
def PackingType.startOf : PackingType → Int → Int
  | .i32Type _ _, offset => offset
  | .u32Type _ _, offset => offset
  | .f32Type _ _, offset => offset
  | .VectorType _ alignment _ _, offset => offset + (-offset) % alignment
  | .Struct _ alignment _, offset => offset + (-offset) % alignment
  | .StaticArray _ alignment _ _ _, offset => offset + (-offset) % alignment
  | .MatrixType _ alignment _ _ _, offset => offset + (-offset) % alignment

/-- The offset that `pack` and `unpack` return when entered at `offset`, for the
descriptors of `Regular`: a struct adds its size to the offset it was entered at, every
other descriptor to the offset of its first byte. -/
def PackingType.endOf : PackingType → Int → Int
  | .Struct size _ _, offset => offset + size
  | t, offset => t.startOf offset + t.size

/-- The descriptors that the constructors build along the lines of the GPU layout rule:
vectors and matrices have a primitive base, counts are not negative, the alignment of
a vector is positive, the alignment of every field of a struct divides the alignment of
the struct, and sizes stay where the float arithmetic of `roundUp` is exact
(`size + alignment ≤ 2^24`). -/
inductive Regular : PackingType → Prop where
  | primitive (p : PackingType) (k : Kind) : (p, k) ∈ primitives → Regular p
  | vector (p : PackingType) (k : Kind) (n alignment : Int) : (p, k) ∈ primitives →
      0 ≤ n → 0 < alignment → Regular (mkVectorType p n alignment)
  | array (type t : PackingType) (n : Int) : Regular type → 0 ≤ n →
      type.size + type.alignment ≤ 16777216 → mkStaticArray type n = some t → Regular t
  | struct (members : List (String × PackingType)) (t : PackingType) (alignment offset : Int) :
      (∀ m ∈ members, Regular m.2) → (∀ m ∈ members, m.2.alignment ∣ alignment) →
      structLayout members 0 0 = some (alignment, offset) →
      offset + alignment ≤ 16777216 → mkStruct members = some t → Regular t
  | matrix (p : PackingType) (k : Kind) (nRows nColumns : Int) (t : PackingType) :
      (p, k) ∈ primitives → 0 ≤ nColumns → mkMatrixType p nRows nColumns = .built t →
      Regular t

/-- What `pack` does for a matching value when the buffer holds `size` bytes from the
first byte on: it returns `endOf`, keeps the length of the buffer and changes no byte
outside `[startOf, startOf + size)`. -/
def PacksWell (t : PackingType) : Prop :=
  ∀ (o : Int) (v : NestedData) (buffer : Buffer), matchesShape t v = true → 0 ≤ o →
    t.startOf o + t.size ≤ (buffer.length : Int) →
    ∃ buffer1, pack t o v buffer = (.ok (t.endOf o), buffer1) ∧
      buffer1.length = buffer.length ∧
      ∀ i : Nat, ((i : Int) < t.startOf o ∨ t.startOf o + t.size ≤ (i : Int)) →
        buffer1[i]? = buffer[i]?

/-- What `unpack` does when the buffer holds `size` bytes from the first byte on: it
returns `endOf` and a value. -/
def UnpacksWell (t : PackingType) : Prop :=
  ∀ (o : Int) (buffer : Buffer), 0 ≤ o → t.startOf o + t.size ≤ (buffer.length : Int) →
    ∃ v, unpack t o buffer = some (t.endOf o, v)

/-- The entries of the columns of a matrix value, column after column. -/
def columnCells : List NestedData → List NestedData
  | [] => []
  | .vector cells :: rest => cells ++ columnCells rest
  | _ :: rest => columnCells rest

/-- A struct descriptor. -/
def PackingType.isStruct : PackingType → Bool
  | .Struct _ _ _ => true
  | _ => false

mutual
/-- The descriptor trees in which no struct is a direct field of a struct and the field
names of every struct are pairwise distinct. -/
def structsApart : PackingType → Bool
  | .i32Type _ _ => true
  | .u32Type _ _ => true
  | .f32Type _ _ => true
  | .VectorType _ _ baseType _ => structsApart baseType
  | .Struct _ _ members => fieldsApart members
  | .StaticArray _ _ type _ _ => structsApart type
  | .MatrixType _ _ baseType _ _ => structsApart baseType
/-- No field is a struct, no field name occurs twice, and every field type is in
`structsApart`. -/
def fieldsApart : List (String × PackingType) → Bool
  | [] => true
  | (key, type) :: rest =>
    !type.isStruct && rest.all (fun m => decide (m.1 ≠ key)) && structsApart type &&
      fieldsApart rest
end

mutual
/-- A value that a C++ `NestedData` can be: every scalar fits its type and the keys of
every map are pairwise distinct. -/
def NestedData.wellFormed : NestedData → Bool
  | .vector values => wellFormedList values
  | .map values => wellFormedEntries values
  | scalar => scalar.validScalar
/-- Every entry of a sequence is well formed. -/
def wellFormedList : List NestedData → Bool
  | [] => true
  | value :: rest => value.wellFormed && wellFormedList rest
/-- Every entry of a map is well formed and no key occurs twice. -/
def wellFormedEntries : List (String × NestedData) → Bool
  | [] => true
  | (key, value) :: rest =>
    rest.all (fun e => decide (e.1 ≠ key)) && value.wellFormed && wellFormedEntries rest
end

mutual
/-- Equality of two `NestedData`: the same alternative holding the same scalar (floats
are compared by bit pattern), sequences equal entry by entry, maps of the same size in
which every key of the first is a key of the second with an equal value, whatever the
order of the entries. -/
def sameData : NestedData → NestedData → Bool
  | .int32 a, .int32 b => decide (a = b)
  | .uint32 a, .uint32 b => decide (a = b)
  | .float a, .float b => decide (a = b)
  | .vector xs, .vector ys => sameList xs ys
  | .map xs, .map ys => decide (xs.length = ys.length) && sameEntries xs ys
  | _, _ => false
/-- Two sequences are equal entry by entry. -/
def sameList : List NestedData → List NestedData → Bool
  | [], [] => true
  | x :: xs, y :: ys => sameData x y && sameList xs ys
  | _, _ => false
/-- Every entry of the first map has an equal value under the same key in the second. -/
def sameEntries : List (String × NestedData) → List (String × NestedData) → Bool
  | [], _ => true
  | (key, x) :: rest, ys =>
    (match mapFind ys key with
      | some y => sameData x y
      | none => false) && sameEntries rest ys
end

/-- What `unpack` does with what `pack` wrote: when `pack` of a matching, well-formed value
has returned, `unpack` at the same offset, on any buffer that agrees with the packed one
on `[startOf, startOf + size)`, returns `endOf` and a value equal to the packed one. -/
def ReadsBack (t : PackingType) : Prop :=
  ∀ (o : Int) (v : NestedData) (buffer buffer1 buffer2 : Buffer) (e : Int),
    matchesShape t v = true → v.wellFormed = true → 0 ≤ o →
    t.startOf o + t.size ≤ (buffer.length : Int) →
    pack t o v buffer = (.ok e, buffer1) →
    (∀ i : Nat, t.startOf o ≤ (i : Int) → (i : Int) < t.startOf o + t.size →
      buffer2[i]? = buffer1[i]?) →
    ∃ w, unpack t o buffer2 = some (t.endOf o, w) ∧ sameData w v = true

end Packing

/-!
# Point-cloud parser of 3DGSviewer (`src/ply.cpp`, `src/ply.h`)

A shallow embedding of `PackedGaussians::nShCoeffs` and `PackedGaussians::arrangeVertex`.

* The member `sphericalHarmonicsDegree` that both functions read is an argument.
* A `float` is identified with its binary32 bit pattern: `arrangeVertex` only copies
  floats.
* `std::map<std::string, T>` is an association list with pairwise distinct keys; the
  order of its entries carries no meaning.
* `std::vector::operator[]` with an index out of range is undefined behaviour,
  `std::map::at` with a missing key throws `std::out_of_range`.
-/

namespace Ply

/-- The exceptions that the embedded functions throw. -/
inductive Exception where
  | invalid_argument (what : String)
  | out_of_range
  deriving DecidableEq

/-- How a call ends: it returns, it throws, or its behaviour is undefined. -/
inductive Outcome (α : Type) where
  | ok (val : α)
  | throws (e : Exception)
  | undefined
  deriving DecidableEq

/-- Sequencing of two steps: the second runs when the first has returned. -/
def Outcome.bind {α β : Type} : Outcome α → (α → Outcome β) → Outcome β
  | .ok val, next => next val
  | .throws e, _ => .throws e
  | .undefined, _ => .undefined

/-- Embeds the lookup of `std::map::at` and of `std::map::operator[]`. -/
def mapAt {α : Type} : List (String × α) → String → Option α
  | [], _ => none
  | (k, v) :: rest, key => if k = key then some v else mapAt rest key

/-- Embeds `m[key] = value` on a `std::map`. -/
def mapAssign {α : Type} : List (String × α) → String → α → List (String × α)
  | [], key, value => [(key, value)]
  | (k, v) :: rest, key, value =>
    if k = key then (k, value) :: rest else (k, v) :: mapAssign rest key value

/-- Embeds `PackedGaussians::nShCoeffs`. -/
def nShCoeffs (sphericalHarmonicsDegree : Int) : Outcome Int :=
  if sphericalHarmonicsDegree = 0 then .ok 1
  else if sphericalHarmonicsDegree = 1 then .ok 4
  else if sphericalHarmonicsDegree = 2 then .ok 9
  else if sphericalHarmonicsDegree = 3 then .ok 16
  else .throws (.invalid_argument "Unsupported SH degree")

/-- The inner loop of `arrangeVertex`,
`for (j ...; j < 3; ++j) coeff.push_back(rawVertex.at(shFeatureOrder[i * 3 + j]))`, with
`remaining` iterations to go. -/
def readCoeff (rawVertex : List (String × Nat)) (shFeatureOrder : List String) (i : Nat) :
    Nat → Nat → List Nat → Outcome (List Nat)
  | 0, _, coeff => .ok coeff
  | remaining + 1, j, coeff =>
    match shFeatureOrder[i * 3 + j]? with
    | none => .undefined
    | some name =>
      match mapAt rawVertex name with
      | none => .throws .out_of_range
      | some value => readCoeff rawVertex shFeatureOrder i remaining (j + 1) (coeff ++ [value])

/-- The outer loop of `arrangeVertex` over `i < nShCoeffs()`, with `remaining` iterations
to go. -/
def readCoeffs (rawVertex : List (String × Nat)) (shFeatureOrder : List String) :
    Nat → Nat → List (List Nat) → Outcome (List (List Nat))
  | 0, _, shCoeffs => .ok shCoeffs
  | remaining + 1, i, shCoeffs =>
    match readCoeff rawVertex shFeatureOrder i 3 0 [] with
    | .ok coeff => readCoeffs rawVertex shFeatureOrder remaining (i + 1) (shCoeffs ++ [coeff])
    | .throws e => .throws e
    | .undefined => .undefined

/-- Embeds a braced list `{ rawVertex.at(name), ... }`, evaluated from left to right. -/
def atAll (rawVertex : List (String × Nat)) : List String → Outcome (List Nat)
  | [] => .ok []
  | name :: rest =>
    match mapAt rawVertex name with
    | none => .throws .out_of_range
    | some value => (atAll rawVertex rest).bind (fun values => .ok (value :: values))

/-- The last loop of `arrangeVertex`:
`arrangedVertex["shCoeffs"].insert(arrangedVertex["shCoeffs"].end(), coeff.begin(), coeff.end())`
for every `coeff`. -/
def appendCoeffs : List (List Nat) → List (String × List Nat) → List (String × List Nat)
  | [], arrangedVertex => arrangedVertex
  | coeff :: rest, arrangedVertex =>
    appendCoeffs rest
      (mapAssign arrangedVertex "shCoeffs"
        ((mapAt arrangedVertex "shCoeffs").getD [] ++ coeff))

/-- Embeds `PackedGaussians::arrangeVertex`.  The loop condition `i < nShCoeffs()` is
evaluated before the first iteration, so an unsupported degree throws before anything is
read. -/
def arrangeVertex (sphericalHarmonicsDegree : Int) (rawVertex : List (String × Nat))
    (shFeatureOrder : List String) : Outcome (List (String × List Nat)) :=
  (nShCoeffs sphericalHarmonicsDegree).bind fun n =>
  (readCoeffs rawVertex shFeatureOrder n.toNat 0 []).bind fun shCoeffs =>
  (atAll rawVertex ["x", "y", "z"]).bind fun position =>
  (atAll rawVertex ["scale_0", "scale_1", "scale_2"]).bind fun logScale =>
  (atAll rawVertex ["rot_0", "rot_1", "rot_2", "rot_3"]).bind fun rotQuat =>
  (atAll rawVertex ["opacity"]).bind fun opacityLogit =>
  .ok (appendCoeffs shCoeffs
    (mapAssign (mapAssign (mapAssign (mapAssign (mapAssign [] "position" position)
      "logScale" logScale) "rotQuat" rotQuat) "opacityLogit" opacityLogit) "shCoeffs" []))

end Ply

namespace Packing

/-! ## Lemmas on the binary32 arithmetic of `roundUp` -/

/-- With enough fuel `log2Fuel` brackets a positive `n` between two powers of two. -/
theorem log2Fuel_spec (fuel : Nat) : ∀ n : Nat, n ≤ fuel → 0 < n →
    2 ^ log2Fuel fuel n ≤ n ∧ n < 2 ^ (log2Fuel fuel n + 1) := by
  induction fuel with
  | zero => intro n h1 h2; omega
  | succ k ih =>
    intro n h1 h2
    unfold log2Fuel
    by_cases h : n < 2
    · simp only [h, if_true]
      omega
    · simp only [h, if_false]
      have := ih (n / 2) (by omega) (by omega)
      rw [pow_succ, pow_succ]
      omega

/-- For positive `n`, `2^(floorLog2 n) ≤ n < 2^(floorLog2 n + 1)`. -/
theorem floorLog2_spec (n : Nat) (h : 0 < n) :
    2 ^ floorLog2 n ≤ n ∧ n < 2 ^ (floorLog2 n + 1) :=
  log2Fuel_spec n n (le_refl n) h

/-- Comparing `x * 2^p` with `y * 2^q` only depends on the difference of the exponents. -/
theorem scaled_le_shift (x y p q p2 q2 : Nat) (h : p + q2 = q + p2)
    (hle : x * 2 ^ p ≤ y * 2 ^ q) : x * 2 ^ p2 ≤ y * 2 ^ q2 := by
  have h1 : x * 2 ^ p * 2 ^ q2 ≤ y * 2 ^ q * 2 ^ q2 := Nat.mul_le_mul_right _ hle
  have h2 : x * 2 ^ p * 2 ^ q2 = x * 2 ^ p2 * 2 ^ q := by
    rw [mul_assoc, ← pow_add, h, pow_add]; ring
  have h3 : y * 2 ^ q * 2 ^ q2 = y * 2 ^ q2 * 2 ^ q := by ring
  rw [h2, h3] at h1
  exact Nat.le_of_mul_le_mul_right h1 (by positivity)

/-- Normalisation: scaled by the unit in the last place, `a / b` is at least `2^23`. -/
theorem ulpExponent_lower (a b : Nat) (ha : 0 < a) (hb : 0 < b) :
    8388608 * (b * 2 ^ (ulpExponent a b).toNat) ≤ a * 2 ^ (-(ulpExponent a b)).toNat := by
  obtain ⟨ha1, ha2⟩ := floorLog2_spec a ha
  obtain ⟨hb1, hb2⟩ := floorLog2_spec b hb
  have key : ∀ L : Int, L = ulpExponent a b + 23 → b * 2 ^ L.toNat ≤ a * 2 ^ (-L).toNat →
      8388608 * (b * 2 ^ (ulpExponent a b).toNat) ≤ a * 2 ^ (-(ulpExponent a b)).toNat := by
    intro L hL hle
    have h2 := scaled_le_shift b a (L.toNat) ((-L).toNat) (23 + (ulpExponent a b).toNat)
      ((-(ulpExponent a b)).toNat) (by omega) hle
    calc 8388608 * (b * 2 ^ (ulpExponent a b).toNat)
        = b * 2 ^ (23 + (ulpExponent a b).toNat) := by rw [pow_add]; ring
      _ ≤ _ := h2
  by_cases hc : b * 2 ^ ((floorLog2 a : Int) - (floorLog2 b : Int)).toNat
      ≤ a * 2 ^ (-((floorLog2 a : Int) - (floorLog2 b : Int))).toNat
  · apply key ((floorLog2 a : Int) - (floorLog2 b : Int))
    · simp only [ulpExponent, hc, if_true]; omega
    · exact hc
  · apply key ((floorLog2 a : Int) - (floorLog2 b : Int) - 1)
    · simp only [ulpExponent, hc, if_false]; omega
    · -- b < 2^(lb+1), 2^la ≤ a
      have e1 : b * 2 ^ ((floorLog2 a : Int) - (floorLog2 b : Int) - 1).toNat
          ≤ 2 ^ (floorLog2 b + 1) * 2 ^ ((floorLog2 a : Int) - (floorLog2 b : Int) - 1).toNat :=
        Nat.mul_le_mul_right _ (le_of_lt hb2)
      have e2 : 2 ^ floorLog2 a * 2 ^ (-((floorLog2 a : Int) - (floorLog2 b : Int) - 1)).toNat
          ≤ a * 2 ^ (-((floorLog2 a : Int) - (floorLog2 b : Int) - 1)).toNat :=
        Nat.mul_le_mul_right _ ha1
      have e3 : 2 ^ (floorLog2 b + 1) * 2 ^ ((floorLog2 a : Int) - (floorLog2 b : Int) - 1).toNat
          = 2 ^ floorLog2 a * 2 ^ (-((floorLog2 a : Int) - (floorLog2 b : Int) - 1)).toNat := by
        rw [← pow_add, ← pow_add]
        congr 1
        omega
      omega


/-- Below `2^24` the unit in the last place is at most 1. -/
theorem ulpExponent_nonpos (a b : Nat) (ha : 0 < a) (ha2 : a < 16777216) :
    ulpExponent a b ≤ 0 := by
  obtain ⟨ha1, -⟩ := floorLog2_spec a ha
  have hla : floorLog2 a < 24 := by
    by_contra hcon
    have : 2 ^ 24 ≤ 2 ^ floorLog2 a := Nat.pow_le_pow_right (by norm_num) (by omega)
    omega
  unfold ulpExponent
  simp only
  split <;> omega

/-- The exponent of the unit in the last place of an integer `a`. -/
theorem ulpExponent_one (a : Nat) (ha : 0 < a) : ulpExponent a 1 = (floorLog2 a : Int) - 23 := by
  obtain ⟨ha1, -⟩ := floorLog2_spec a ha
  have h1 : floorLog2 1 = 0 := by decide
  unfold ulpExponent
  simp only [h1]
  have h2 : ((floorLog2 a : Int) - ((0 : Nat) : Int)).toNat = floorLog2 a := by omega
  have h3 : (-((floorLog2 a : Int) - ((0 : Nat) : Int))).toNat = 0 := by omega
  rw [h2, h3]
  simp only [pow_zero, mul_one, one_mul, ha1, if_true]
  omega

/-- A positive integer below `2^24` is a binary32 number. -/
theorem floorMag_integer (a : Nat) (ha : 0 < a) (ha2 : a < 16777216) :
    floorMag (roundNearestEven a 1) = a := by
  have he := ulpExponent_one a ha
  have hle := ulpExponent_nonpos a 1 ha ha2
  have hz : (ulpExponent a 1).toNat = 0 := by omega
  unfold roundNearestEven floorMag
  simp only [hz, pow_zero, mul_one, Nat.mod_one, Nat.div_one]
  have hpos : 0 < 2 ^ (-(ulpExponent a 1)).toNat := by positivity
  by_cases h0 : 0 ≤ ulpExponent a 1
  · have hs : (-(ulpExponent a 1)).toNat = 0 := by omega
    simp [h0, hs]
  · simp only [h0, if_false]
    have : ¬ (1 < 2 * 0 ∨ 2 * 0 = 1 ∧ a * 2 ^ (-(ulpExponent a 1)).toNat % 2 = 1) := by omega
    simp only [this, if_false]
    exact Nat.mul_div_cancel _ hpos

/-- Converting an `int` in `[0, 2^24)` to `float` is exact. -/
theorem toFloat_exact (n : Int) (h0 : 0 ≤ n) (h1 : n < 16777216) : toFloat n = n := by
  unfold toFloat
  by_cases hn : n = 0
  · simp [hn]
  · simp only [hn, if_false]
    have hpos : 0 < n := by omega
    rw [floorMag_integer n.natAbs (by omega) (by omega), Int.sign_eq_one_of_pos hpos]
    omega


/-- Characterisation of the rounded-up quotient. -/
theorem ceilDiv_bounds (a b : Nat) (ha : 0 < a) (hb : 0 < b) :
    ((a + b - 1) / b - 1) * b < a ∧ a ≤ (a + b - 1) / b * b ∧ 1 ≤ (a + b - 1) / b := by
  have h1 := Nat.div_add_mod (a + b - 1) b
  have h2 := Nat.mod_lt (a + b - 1) hb
  have h3 : 1 ≤ (a + b - 1) / b := by
    rw [Nat.one_le_div_iff hb]; omega
  obtain ⟨d, hd⟩ : ∃ d, (a + b - 1) / b = d + 1 := ⟨(a + b - 1) / b - 1, by omega⟩
  rw [hd] at h1 ⊢
  simp only [Nat.add_sub_cancel]
  have h4 : b * (d + 1) = d * b + b := by ring
  have h5 : (d + 1) * b = d * b + b := by ring
  refine ⟨?_, ?_, by omega⟩ <;> omega

/-- For `0 < a < 2^24` the ceiling of the binary32 quotient `a / b` is the ceiling of the exact quotient. -/
theorem ceilMag_exact (a b : Nat) (ha : 0 < a) (ha2 : a < 16777216) (hb : 0 < b) :
    ceilMag (roundNearestEven a b) = (a + b - 1) / b := by
  have hle := ulpExponent_nonpos a b ha ha2
  have hlow := ulpExponent_lower a b ha hb
  have hz : (ulpExponent a b).toNat = 0 := by omega
  obtain ⟨hc1, hc2, hc3⟩ := ceilDiv_bounds a b ha hb
  obtain ⟨d, hd⟩ : ∃ d, (a + b - 1) / b = d + 1 := ⟨(a + b - 1) / b - 1, by omega⟩
  rw [hd] at hc1 hc2 ⊢
  simp only [Nat.add_sub_cancel] at hc1
  rw [hz, pow_zero, mul_one] at hlow
  generalize hK : 2 ^ (-(ulpExponent a b)).toNat = K at hlow
  have hKpos : 0 < K := by rw [← hK]; positivity
  have hdm := Nat.div_add_mod (a * K) b
  have hr := Nat.mod_lt (a * K) hb
  generalize hq : a * K / b = q at hdm
  generalize hrr : a * K % b = r at hdm hr
  -- products
  have u1 : a * K ≤ (d + 1) * b * K := Nat.mul_le_mul_right K hc2
  have u2 : (d * b + 1) * K ≤ a * K := Nat.mul_le_mul_right K hc1
  have u3 : a * K < 16777216 * K := Nat.mul_lt_mul_of_pos_right ha2 hKpos
  have hmant : d * K < (if b < 2 * r ∨ (2 * r = b ∧ q % 2 = 1) then q + 1 else q) ∧
      (if b < 2 * r ∨ (2 * r = b ∧ q % 2 = 1) then q + 1 else q) ≤ (d + 1) * K := by
    have hqle : q ≤ (d + 1) * K := by
      have hexp : (d + 1) * b * K = b * ((d + 1) * K) := by ring
      have : b * q ≤ b * ((d + 1) * K) := by omega
      exact Nat.le_of_mul_le_mul_left this hb
    have hdq : d * K ≤ q := by
      by_contra hcon
      have h1 : q + 1 ≤ d * K := by omega
      have h2 : b * (q + 1) ≤ b * (d * K) := Nat.mul_le_mul_left b h1
      have hexp : (d * b + 1) * K = b * (d * K) + K := by ring
      have hexp2 : b * (q + 1) = b * q + b := by ring
      omega
    split
    next hup =>
      have hrpos : 0 < r := by omega
      constructor
      · omega
      · have : q < (d + 1) * K := by
          by_contra hcon
          have h1 : (d + 1) * K ≤ q := by omega
          have h2 : b * ((d + 1) * K) ≤ b * q := Nat.mul_le_mul_left b h1
          have hexp : (d + 1) * b * K = b * ((d + 1) * K) := by ring
          omega
        omega
    next hdown =>
      refine ⟨?_, hqle⟩
      by_contra hcon
      have hqeq : q = d * K := by omega
      subst hqeq
      have hexp : (d * b + 1) * K = b * (d * K) + K := by ring
      have hrK : K ≤ r := by omega
      have hb2 : b < 2 * K := by omega
      exact hdown (Or.inl (by omega))
  unfold roundNearestEven ceilMag
  simp only [hz, pow_zero, mul_one, hK, hq, hrr]
  generalize (if b < 2 * r ∨ (2 * r = b ∧ q % 2 = 1) then q + 1 else q) = mant at hmant
  obtain ⟨hm1, hm2⟩ := hmant
  by_cases h0 : 0 ≤ ulpExponent a b
  · have hs : (-(ulpExponent a b)).toNat = 0 := by omega
    rw [hs, pow_zero] at hK
    subst hK
    simp only [h0, if_true]
    omega
  · simp only [h0, if_false]
    apply Nat.div_eq_of_lt_le
    · have : (d + 1) * K = d * K + K := by ring
      omega
    · have : (d + 1 + 1) * K = d * K + K + K := by ring
      have : (d + 1) * K = d * K + K := by ring
      omega


/-- The call `roundUp(0, m)` returns 0 for every non-zero `m`. -/
theorem roundUp_zero (m : Int) (hm : m ≠ 0) : roundUp 0 m = some 0 := by
  unfold roundUp
  simp only [hm, if_false]
  have h1 : toFloat 0 = 0 := by decide
  have h2 : ∀ y, ceilDivF 0 y = 0 := by intro y; simp [ceilDivF]
  rw [h1, h2, zero_mul, h1]
  decide

/-- Below `2^24` the float arithmetic of `roundUp` is exact: the result is the least
multiple of `m` that is not below `n`. -/
theorem roundUp_exact (n m : Int) (hn : 0 ≤ n) (hm : 0 < m) (h : n + m ≤ 16777216) :
    roundUp n m = some ((n + m - 1) / m * m) := by
  by_cases hn0 : n = 0
  · subst hn0
    rw [roundUp_zero m (by omega)]
    have : (0 + m - 1) / m = 0 := Int.ediv_eq_zero_of_lt (by omega) (by omega)
    rw [this, zero_mul]
  · obtain ⟨a, rfl⟩ := Int.eq_ofNat_of_zero_le hn
    obtain ⟨b, rfl⟩ := Int.eq_ofNat_of_zero_le (le_of_lt hm)
    have ha : 0 < a := by omega
    have hb : 0 < b := by omega
    obtain ⟨hc1, hc2, hc3⟩ := ceilDiv_bounds a b ha hb
    have hcast : (((a + b - 1) / b : Nat) : Int) = ((a : Int) + (b : Int) - 1) / (b : Int) := by
      rw [Int.natCast_div]
      congr 1
      omega
    have hprod : (a + b - 1) / b * b < a + b := by
      have : (a + b - 1) / b * b = ((a + b - 1) / b - 1) * b + b := by
        obtain ⟨d, hd⟩ : ∃ d, (a + b - 1) / b = d + 1 := ⟨(a + b - 1) / b - 1, by omega⟩
        rw [hd]; simp only [Nat.add_sub_cancel]; ring
      omega
    unfold roundUp
    have hb0 : ((b : Nat) : Int) ≠ 0 := by omega
    simp only [hb0, if_false]
    rw [toFloat_exact a (by omega) (by omega), toFloat_exact b (by omega) (by omega)]
    have hcd : ceilDivF (a : Int) (b : Int) = (((a + b - 1) / b : Nat) : Int) := by
      unfold ceilDivF
      have h1 : ((a : Nat) : Int) ≠ 0 := by omega
      have h2 : (0 < (a : Int)) = (0 < (b : Int)) := by
        apply propext; constructor <;> intro _ <;> omega
      simp only [h1, if_false, h2, if_true, Int.natAbs_ofNat]
      rw [ceilMag_exact a b ha (by omega) hb]
    rw [hcd]
    have hp : ((((a + b - 1) / b : Nat) : Int) * (b : Int)) = (((a + b - 1) / b * b : Nat) : Int) := by
      push_cast; rfl
    rw [hp, toFloat_exact _ (by omega) (by omega)]
    have hr : -2147483648 ≤ (((a + b - 1) / b * b : Nat) : Int) ∧
        (((a + b - 1) / b * b : Nat) : Int) < 2147483648 := by omega
    simp only [hr, and_self, if_true]
    rw [← hcast]
    push_cast
    rfl

/-- The significand produced by `roundNearestEven` is normalised. -/
theorem mantissa_lower (a b : Nat) (ha : 0 < a) (hb : 0 < b) :
    8388608 ≤ (roundNearestEven a b).1 := by
  have hlow := ulpExponent_lower a b ha hb
  have hD : 0 < b * 2 ^ (ulpExponent a b).toNat := by positivity
  have hq : 8388608 ≤ a * 2 ^ (-(ulpExponent a b)).toNat / (b * 2 ^ (ulpExponent a b).toNat) :=
    (Nat.le_div_iff_mul_le hD).mpr hlow
  unfold roundNearestEven
  simp only
  split <;> omega

/-- The ceiling of the binary32 quotient of two positive integers is positive. -/
theorem ceilMag_pos (a b : Nat) (ha : 0 < a) (hb : 0 < b) :
    0 < ceilMag (roundNearestEven a b) := by
  have hm := mantissa_lower a b ha hb
  unfold ceilMag
  split
  · positivity
  · have hK : 0 < 2 ^ (-(roundNearestEven a b).2).toNat := by positivity
    apply Nat.div_pos _ hK
    omega

/-- A positive `int` converts to a positive `float`. -/
theorem toFloat_pos (n : Int) (hn : 0 < n) : 0 < toFloat n := by
  have ha : 0 < n.natAbs := by omega
  have hm := mantissa_lower n.natAbs 1 ha (by norm_num)
  have he := ulpExponent_one n.natAbs ha
  unfold toFloat
  have hn0 : n ≠ 0 := by omega
  simp only [hn0, if_false, Int.sign_eq_one_of_pos hn, one_mul]
  have : 0 < floorMag (roundNearestEven n.natAbs 1) := by
    have he2 : (roundNearestEven n.natAbs 1).2 = (floorLog2 n.natAbs : Int) - 23 := he
    unfold floorMag
    split
    · positivity
    · apply Nat.div_pos _ (by positivity)
      have : 2 ^ (-(roundNearestEven n.natAbs 1).2).toNat ≤ 2 ^ 23 :=
        Nat.pow_le_pow_right (by norm_num) (by omega)
      omega
  exact_mod_cast this

/-- The value `ceil(x / y)` is positive for positive `x` and `y`. -/
theorem ceilDivF_pos (x y : Int) (hx : 0 < x) (hy : 0 < y) : 0 < ceilDivF x y := by
  unfold ceilDivF
  have h1 : x ≠ 0 := by omega
  have h2 : (0 < x) = (0 < y) := by
    apply propext; constructor <;> intro _ <;> assumption
  simp only [h1, if_false, h2, if_true]
  have := ceilMag_pos x.natAbs y.natAbs (by omega) (by omega)
  exact_mod_cast this

/-- For positive arguments a defined result of `roundUp` is positive. -/
theorem roundUp_pos (n m r : Int) (hn : 0 < n) (hm : 0 < m) (h : roundUp n m = some r) :
    0 < r := by
  unfold roundUp at h
  have hm0 : m ≠ 0 := by omega
  simp only [hm0, if_false] at h
  split at h
  · have hy := toFloat_pos m hm
    have hx := toFloat_pos n hn
    have hc := ceilDivF_pos _ _ hx hy
    have := toFloat_pos _ (Int.mul_pos hc hy)
    simp only [Option.some.injEq] at h
    omega
  · exact absurd h (by simp)

/-! ## Lemmas on the alignment loop and on buffers -/

/-- The alignment loop never decreases the offset. -/
theorem alignLoop_ge (fuel : Nat) : ∀ offset alignment : Int,
    offset ≤ alignLoop fuel offset alignment := by
  induction fuel with
  | zero => intro offset alignment; simp [alignLoop]
  | succ k ih =>
    intro offset alignment
    unfold alignLoop
    split
    · have := ih (offset + 1) alignment
      omega
    · exact le_refl _

/-- An aligned offset is not below the offset it was computed from. -/
theorem alignOffset_ge (offset alignment aligned : Int)
    (h : alignOffset offset alignment = some aligned) : offset ≤ aligned := by
  unfold alignOffset at h
  split at h
  · exact absurd h (by simp)
  · simp only [Option.some.injEq] at h
    rw [← h]
    exact alignLoop_ge _ _ _

/-- With a non-zero alignment the alignment loop is defined. -/
theorem alignOffset_isSome (offset alignment : Int) (h : alignment ≠ 0) :
    ∃ aligned, alignOffset offset alignment = some aligned := by
  unfold alignOffset
  simp [h]

/-- If a multiple of `alignment` lies `k` steps ahead and the fuel is at least `k`, the loop stops at a multiple of `alignment` no further than `k` steps ahead. -/
theorem alignLoop_spec (fuel : Nat) : ∀ (offset alignment : Int) (k : Nat), k ≤ fuel →
    alignment ∣ offset + k →
    alignment ∣ alignLoop fuel offset alignment ∧ alignLoop fuel offset alignment ≤ offset + k := by
  induction fuel with
  | zero =>
    intro offset alignment k hk hdvd
    have : k = 0 := by omega
    subst this
    simpa [alignLoop] using hdvd
  | succ f ih =>
    intro offset alignment k hk hdvd
    unfold alignLoop
    by_cases h : offset.tmod alignment = 0
    · simp only [h, ne_eq, not_true_eq_false, if_false]
      exact ⟨Int.dvd_of_tmod_eq_zero h, by omega⟩
    · simp only [h, ne_eq, not_false_eq_true, if_true]
      cases k with
      | zero =>
        exfalso
        apply h
        apply Int.tmod_eq_zero_of_dvd
        simpa using hdvd
      | succ j =>
        have hd : alignment ∣ offset + 1 + (j : Int) := by
          have e : offset + 1 + (j : Int) = offset + ((j + 1 : Nat) : Int) := by push_cast; ring
          rw [e]; exact hdvd
        have := ih (offset + 1) alignment j (by omega) hd
        refine ⟨this.1, ?_⟩
        have h2 := this.2
        push_cast
        omega

/-- The alignment loop stops, within its iteration bound, at the first multiple of a
non-zero `alignment` that is not below `offset`. -/
theorem alignOffset_eq (offset alignment : Int) (h : alignment ≠ 0) :
    alignOffset offset alignment = some (offset + (-offset) % alignment) := by
  unfold alignOffset
  simp only [h, if_false, Option.some.injEq]
  have hk0 : 0 ≤ (-offset) % alignment := Int.emod_nonneg _ h
  have hk1 : (-offset) % alignment < |alignment| := Int.emod_lt _ h
  have hdvd : alignment ∣ offset + (((-offset) % alignment).toNat : Int) := by
    rw [Int.toNat_of_nonneg hk0]
    have e : offset + (-offset) % alignment = -(alignment * ((-offset) / alignment)) := by
      have := Int.emod_add_ediv (-offset) alignment
      omega
    rw [e]
    exact (Int.dvd_neg).mpr (Dvd.intro _ rfl)
  have habs : |alignment| = (alignment.natAbs : Int) := Int.abs_eq_natAbs alignment
  obtain ⟨hd, hle⟩ := alignLoop_spec alignment.natAbs offset alignment
    ((-offset) % alignment).toNat (by omega) hdvd
  rw [Int.toNat_of_nonneg hk0] at hle hdvd
  have hge := alignLoop_ge alignment.natAbs offset alignment
  generalize alignLoop alignment.natAbs offset alignment = r at hd hle hge
  -- `alignment` divides the difference, which lies in `[0, |alignment|)`
  have hdiff : alignment ∣ offset + (-offset) % alignment - r := Int.dvd_sub hdvd hd
  have hz : offset + (-offset) % alignment - r = 0 := by
    apply Int.eq_zero_of_dvd_of_natAbs_lt_natAbs hdiff
    omega
  omega

/-- The aligned offset satisfies the exit condition `offset % alignment == 0` of the loop, so the iteration bound of `alignLoop` is never what stops it. -/
theorem alignOffset_tmod (offset alignment aligned : Int)
    (h : alignOffset offset alignment = some aligned) : aligned.tmod alignment = 0 := by
  have hne : alignment ≠ 0 := by
    intro h0
    simp [alignOffset, h0] at h
  rw [alignOffset_eq offset alignment hne] at h
  simp only [Option.some.injEq] at h
  apply Int.tmod_eq_zero_of_dvd
  rw [← h]
  have e : offset + (-offset) % alignment = -(alignment * ((-offset) / alignment)) := by
    have := Int.emod_add_ediv (-offset) alignment
    omega
  rw [e]
  exact (Int.dvd_neg).mpr (Dvd.intro _ rfl)

/-- Storing bytes keeps the length of the buffer. -/
theorem storeBytes_length (bytes : List Nat) : ∀ (buffer : Buffer) (i : Nat),
    (storeBytes buffer i bytes).length = buffer.length := by
  induction bytes with
  | nil => intro buffer i; rfl
  | cons b rest ih =>
    intro buffer i
    unfold storeBytes
    rw [ih, List.length_set]

/-- Storing bytes leaves every index outside the written range unchanged. -/
theorem storeBytes_outside (bytes : List Nat) : ∀ (buffer : Buffer) (i j : Nat),
    (j < i ∨ i + bytes.length ≤ j) → (storeBytes buffer i bytes)[j]? = buffer[j]? := by
  induction bytes with
  | nil => intro buffer i j _; rfl
  | cons b rest ih =>
    intro buffer i j h
    unfold storeBytes
    simp only [List.length_cons] at h
    rw [ih (buffer.set i b) (i + 1) j (by omega), List.getElem?_set]
    have : i ≠ j := by omega
    simp [this]

/-- Inside the written range the buffer holds the stored bytes. -/
theorem storeBytes_inside (bytes : List Nat) : ∀ (buffer : Buffer) (i k : Nat),
    i + bytes.length ≤ buffer.length → k < bytes.length →
    (storeBytes buffer i bytes)[i + k]? = bytes[k]? := by
  induction bytes with
  | nil => intro buffer i k _ hk; simp at hk
  | cons b rest ih =>
    intro buffer i k hlen hk
    unfold storeBytes
    simp only [List.length_cons] at hlen hk
    cases k with
    | zero =>
      rw [storeBytes_outside rest (buffer.set i b) (i + 1) (i + 0) (by omega), List.getElem?_set]
      have : i < buffer.length := by omega
      simp [this]
    | succ k =>
      have := ih (buffer.set i b) (i + 1) k (by rw [List.length_set]; omega) (by omega)
      have e : i + (k + 1) = i + 1 + k := by omega
      rw [e, this]
      simp

/-- Reading back four little-endian bytes gives the stored 32-bit pattern. -/
theorem load32_storeBytes (buffer : Buffer) (i p : Nat) (h : i + 4 ≤ buffer.length) :
    load32 (storeBytes buffer i (le32 p)) i = some (p % 4294967296) := by
  have h0 := storeBytes_inside (le32 p) buffer i 0 (by simpa [le32] using h) (by simp [le32])
  have h1 := storeBytes_inside (le32 p) buffer i 1 (by simpa [le32] using h) (by simp [le32])
  have h2 := storeBytes_inside (le32 p) buffer i 2 (by simpa [le32] using h) (by simp [le32])
  have h3 := storeBytes_inside (le32 p) buffer i 3 (by simpa [le32] using h) (by simp [le32])
  simp only [Nat.add_zero] at h0
  unfold load32
  rw [h0, h1, h2, h3]
  simp only [le32, List.getElem?_cons_zero, List.getElem?_cons_succ, Option.some.injEq]
  omega

/-- The two-complement pattern of an `int32_t` decodes to the same `int32_t`. -/
theorem int32OfPattern_pattern (v : Int) (h1 : -2147483648 ≤ v) (h2 : v < 2147483648) :
    int32OfPattern ((v % 4294967296).toNat % 4294967296) = v := by
  unfold int32OfPattern
  split <;> omega

/-- A buffer of length 32 is a list of 32 bytes. -/
theorem length_eq_32 (buffer : Buffer) (h : buffer.length = 32) :
    ∃ b0 b1 b2 b3 b4 b5 b6 b7 b8 b9 b10 b11 b12 b13 b14 b15 b16 b17 b18 b19 b20 b21 b22 b23
      b24 b25 b26 b27 b28 b29 b30 b31, buffer = [b0, b1, b2, b3, b4, b5, b6, b7, b8, b9, b10,
      b11, b12, b13, b14, b15, b16, b17, b18, b19, b20, b21, b22, b23, b24, b25, b26, b27,
      b28, b29, b30, b31] := by
  match buffer, h with
  | [b0, b1, b2, b3, b4, b5, b6, b7, b8, b9, b10, b11, b12, b13, b14, b15, b16, b17, b18, b19,
      b20, b21, b22, b23, b24, b25, b26, b27, b28, b29, b30, b31], _ =>
    exact ⟨b0, b1, b2, b3, b4, b5, b6, b7, b8, b9, b10, b11, b12, b13, b14, b15, b16, b17, b18,
      b19, b20, b21, b22, b23, b24, b25, b26, b27, b28, b29, b30, b31, rfl⟩

/-! ## Lemmas on the constructors -/

/-- The member loop of the struct constructor only increases the running alignment and offset, strictly so for a non-empty list of members of positive size and alignment. -/
theorem structLayout_bounds (members : List (String × PackingType)) :
    ∀ (alignment0 offset0 alignment offset : Int),
    structLayout members alignment0 offset0 = some (alignment, offset) →
    (∀ m ∈ members, 0 < m.2.size ∧ 0 < m.2.alignment) →
    alignment0 ≤ alignment ∧ offset0 ≤ offset ∧
      (members ≠ [] → 0 < alignment ∧ offset0 < offset) := by
  induction members with
  | nil =>
    intro alignment0 offset0 alignment offset h _
    simp only [structLayout, Option.some.injEq, Prod.mk.injEq] at h
    refine ⟨by omega, by omega, fun hne => absurd rfl hne⟩
  | cons member rest ih =>
    intro alignment0 offset0 alignment offset h hpos
    have hm := hpos member (List.mem_cons_self _ _)
    unfold structLayout at h
    split at h
    · exact absurd h (by simp)
    · rename_i aligned haligned
      have hge := alignOffset_ge _ _ _ haligned
      have := ih _ _ _ _ h (fun m hmem => hpos m (List.mem_cons_of_mem _ hmem))
      have hmax : member.2.alignment ≤ max alignment0 member.2.alignment := le_max_right _ _
      have hmax2 : alignment0 ≤ max alignment0 member.2.alignment := le_max_left _ _
      refine ⟨by omega, by omega, fun _ => ⟨by omega, by omega⟩⟩

/-- What a returning `Struct` constructor has computed. -/
theorem mkStruct_eq (members : List (String × PackingType)) (t : PackingType)
    (h : mkStruct members = some t) :
    ∃ alignment offset size, structLayout members 0 0 = some (alignment, offset) ∧
      roundUp offset alignment = some size ∧ t = .Struct size alignment members := by
  unfold mkStruct at h
  split at h
  · exact absurd h (by simp)
  · rename_i alignment offset hlayout
    split at h
    · exact absurd h (by simp)
    · rename_i size hsize
      simp only [Option.some.injEq] at h
      exact ⟨alignment, offset, size, hlayout, hsize, h.symm⟩

/-- What a returning `StaticArray` constructor has computed. -/
theorem mkStaticArray_eq (type : PackingType) (n : Int) (t : PackingType)
    (h : mkStaticArray type n = some t) :
    ∃ stride, roundUp type.size type.alignment = some stride ∧
      t = .StaticArray (n * stride) type.alignment type n stride := by
  unfold mkStaticArray at h
  split at h
  · exact absurd h (by simp)
  · rename_i stride hstride
    simp only [Option.some.injEq] at h
    exact ⟨stride, hstride, h.symm⟩

/-- What a returning `MatrixType` constructor has computed. -/
theorem mkMatrixType_eq (baseType : PackingType) (nRows nColumns : Int) (t : PackingType)
    (h : mkMatrixType baseType nRows nColumns = .built t) :
    ∃ vecType arrayType, (nRows = 2 ∧ vecType = vec2 baseType ∨ nRows = 3 ∧ vecType = vec3 baseType
        ∨ nRows = 4 ∧ vecType = vec4 baseType) ∧
      mkStaticArray vecType nColumns = some arrayType ∧
      t = .MatrixType arrayType.size vecType.alignment baseType nRows nColumns := by
  have hbuild : ∀ vecType, (match mkStaticArray vecType nColumns with
      | none => Construction.undefined
      | some arrayType => Construction.built
          (.MatrixType arrayType.size vecType.alignment baseType nRows nColumns)) = .built t →
      ∃ arrayType, mkStaticArray vecType nColumns = some arrayType ∧
        t = .MatrixType arrayType.size vecType.alignment baseType nRows nColumns := by
    intro vecType hb
    split at hb
    · exact absurd hb (by simp)
    · rename_i arrayType harr
      simp only [Construction.built.injEq] at hb
      exact ⟨arrayType, harr, hb.symm⟩
  unfold mkMatrixType at h
  simp only at h
  split at h
  · rename_i h2
    obtain ⟨arrayType, h1, h3⟩ := hbuild _ h
    exact ⟨_, arrayType, Or.inl ⟨h2, rfl⟩, h1, h3⟩
  · split at h
    · rename_i _ h2
      obtain ⟨arrayType, h1, h3⟩ := hbuild _ h
      exact ⟨_, arrayType, Or.inr (Or.inl ⟨h2, rfl⟩), h1, h3⟩
    · split at h
      · rename_i _ _ h2
        obtain ⟨arrayType, h1, h3⟩ := hbuild _ h
        exact ⟨_, arrayType, Or.inr (Or.inr ⟨h2, rfl⟩), h1, h3⟩
      · exact absurd h (by simp)

/-- Where the float arithmetic of `roundUp` is exact (`offset + alignment ≤ 2^24` for
the running offset and alignment after the member loop), the size of a constructed struct
is the least multiple of its alignment not below the running offset. -/
theorem mkStruct_size_multiple (members : List (String × PackingType)) (t : PackingType)
    (alignment offset : Int) (h : mkStruct members = some t)
    (hlayout : structLayout members 0 0 = some (alignment, offset))
    (h0 : 0 ≤ offset) (h1 : 0 < alignment) (h2 : offset + alignment ≤ 16777216) :
    t.size = (offset + alignment - 1) / alignment * alignment ∧ t.alignment = alignment ∧
      t.size.tmod t.alignment = 0 := by
  obtain ⟨alignment1, offset1, size, hlayout1, hsize, rfl⟩ := mkStruct_eq members t h
  rw [hlayout] at hlayout1
  simp only [Option.some.injEq, Prod.mk.injEq] at hlayout1
  obtain ⟨rfl, rfl⟩ := hlayout1
  rw [roundUp_exact _ _ h0 h1 h2] at hsize
  simp only [Option.some.injEq] at hsize
  refine ⟨hsize.symm, rfl, ?_⟩
  show size.tmod alignment = 0
  apply Int.tmod_eq_zero_of_dvd
  rw [← hsize]
  exact Dvd.intro_left _ rfl

/-! ## Unfolding lemmas for `Struct::pack` -/

/-- After its two shape checks and the alignment loop, `Struct::pack` runs the member loop and returns `startingOffset + size`. -/
theorem pack_struct_eq (size alignment : Int) (members : List (String × PackingType))
    (values : List (String × NestedData)) (offset aligned : Int) (buffer : Buffer)
    (hcount : values.length = members.length)
    (halign : alignOffset offset alignment = some aligned) :
    pack (.Struct size alignment members) offset (.map values) buffer
      = match packMembers members values aligned buffer with
        | (.ok last, buffer1) => (.ok (last + (size - (last - offset))), buffer1)
        | other => other := by
  rw [pack]
  simp only [hcount, ne_eq, not_true_eq_false, if_false, halign]

/-- One iteration of the member loop when the key is present. -/
theorem packMembers_cons_found (key : String) (type : PackingType)
    (rest : List (String × PackingType)) (values : List (String × NestedData))
    (memberValue : NestedData) (offset : Int) (buffer : Buffer)
    (hfind : mapFind values key = some memberValue) :
    packMembers ((key, type) :: rest) values offset buffer
      = match pack type offset memberValue buffer with
        | (.ok next, buffer1) => packMembers rest values next buffer1
        | (.throws e, buffer1) => (.throws (.atKey key e), buffer1)
        | (.undefined, buffer1) => (.undefined, buffer1) := by
  rw [packMembers]
  simp only [hfind]

/-- One iteration of the member loop when the key is absent. -/
theorem packMembers_cons_missing (key : String) (type : PackingType)
    (rest : List (String × PackingType)) (values : List (String × NestedData))
    (offset : Int) (buffer : Buffer) (hfind : mapFind values key = none) :
    packMembers ((key, type) :: rest) values offset buffer
      = (.throws (.missingKey key), buffer) := by
  rw [packMembers]
  simp only [hfind]

/-- The member loop over `pre ++ rest` runs over `pre` and then, if that returned, over `rest`. -/
theorem packMembers_append (pre : List (String × PackingType)) :
    ∀ (rest : List (String × PackingType)) (values : List (String × NestedData))
      (offset : Int) (buffer : Buffer),
    packMembers (pre ++ rest) values offset buffer
      = match packMembers pre values offset buffer with
        | (.ok next, buffer1) => packMembers rest values next buffer1
        | other => other := by
  induction pre with
  | nil =>
    intro rest values offset buffer
    rw [List.nil_append, packMembers]
  | cons member pre ih =>
    intro rest values offset buffer
    obtain ⟨key, type⟩ := member
    rw [List.cons_append, packMembers, packMembers]
    cases hfind : mapFind values key with
    | none => rfl
    | some memberValue =>
      simp only
      rcases hp : pack type offset memberValue buffer with ⟨outcome, buffer1⟩
      cases outcome with
      | ok next => exact ih rest values next buffer1
      | throws e => rfl
      | undefined => rfl

/-! ## Round trip and the two-field scenario (C1, C2) -/

/-- Claim C1, evaluated where the code breaks it.  The descriptor
`Struct{a: f32, inner: Struct{v: vec2(f32)}, b: f32}` is constructed with size 24.
Packing `{a: 1.0, inner: {v: [2.0, 3.0]}, b: 4.0}` at offset 0 into 24 zero bytes returns
24, but `inner` (entered at the unaligned offset 4) reports the end offset 12 although
it wrote `v` to bytes `[8, 16)`, so `b` overwrites `v[1]`: `unpack` returns
`{a: 1.0, inner: {v: [2.0, 4.0]}, b: 4.0}`. -/
theorem C1_nested_struct_round_trip_broken :
    ∃ inner outer buffer1,
      mkStruct [("v", vec2 f32)] = some inner ∧
      mkStruct [("a", f32), ("inner", inner), ("b", f32)] = some outer ∧
      outer.size = 24 ∧
      pack outer 0
        (.map [("a", .float 0x3F800000),
          ("inner", .map [("v", .vector [.float 0x40000000, .float 0x40400000])]),
          ("b", .float 0x40800000)])
        (List.replicate 24 0) = (.ok 24, buffer1) ∧
      unpack outer 0 buffer1
        = some (24, .map [("a", .float 0x3F800000),
            ("inner", .map [("v", .vector [.float 0x40000000, .float 0x40800000])]),
            ("b", .float 0x40800000)]) :=
  ⟨.Struct 8 8 [("v", vec2 f32)],
    .Struct 24 8 [("a", f32), ("inner", .Struct 8 8 [("v", vec2 f32)]), ("b", f32)],
    [0x00, 0x00, 0x80, 0x3F, 0, 0, 0, 0, 0x00, 0x00, 0x00, 0x40, 0x00, 0x00, 0x80, 0x40,
      0, 0, 0, 0, 0, 0, 0, 0],
    rfl, rfl, rfl, rfl, rfl⟩

/-- Claim C2.  `Struct{position: Vec3(Float32), scale: Vec2(Float32)}` has size 32 and
alignment 16.  Packing the mapping `{position: [1.0, 2.0, 3.0], scale: [4.0, 5.0]}` (the
floats as binary32 patterns `0x3F800000`, `0x40000000`, `0x40400000`, `0x40800000`,
`0x40A00000`) at offset 0 into any 32-byte buffer returns offset 32; afterwards bytes
`[0, 12)` and `[16, 24)` hold the little-endian encodings of the five floats and bytes
`[12, 16)` and `[24, 32)` are as they were. -/
theorem C2_position_scale_scenario (values : List (String × NestedData)) (buffer : Buffer)
    (hcount : values.length = 2)
    (hposition : mapFind values "position"
      = some (.vector [.float 0x3F800000, .float 0x40000000, .float 0x40400000]))
    (hscale : mapFind values "scale" = some (.vector [.float 0x40800000, .float 0x40A00000]))
    (hlen : buffer.length = 32) :
    ∃ t, mkStruct [("position", vec3 f32), ("scale", vec2 f32)] = some t ∧
      t.size = 32 ∧ t.alignment = 16 ∧
      pack t 0 (.map values) buffer
        = (.ok 32,
            [0x00, 0x00, 0x80, 0x3F, 0x00, 0x00, 0x00, 0x40, 0x00, 0x00, 0x40, 0x40]
              ++ (buffer.drop 12).take 4
              ++ [0x00, 0x00, 0x80, 0x40, 0x00, 0x00, 0xA0, 0x40]
              ++ buffer.drop 24) := by
  have hs : mkStruct [("position", vec3 f32), ("scale", vec2 f32)]
      = some (.Struct 32 16 [("position", vec3 f32), ("scale", vec2 f32)]) := rfl
  refine ⟨_, hs, rfl, rfl, ?_⟩
  obtain ⟨b0, b1, b2, b3, b4, b5, b6, b7, b8, b9, b10, b11, b12, b13, b14, b15, b16, b17, b18,
    b19, b20, b21, b22, b23, b24, b25, b26, b27, b28, b29, b30, b31, rfl⟩ :=
    length_eq_32 buffer hlen
  rw [pack_struct_eq 32 16 [("position", vec3 f32), ("scale", vec2 f32)] values 0 0 _ hcount rfl,
    packMembers_cons_found _ _ _ values _ 0 _ hposition]
  have h1 : pack (vec3 f32) 0
      (.vector [.float 0x3F800000, .float 0x40000000, .float 0x40400000])
      [b0, b1, b2, b3, b4, b5, b6, b7, b8, b9, b10, b11, b12, b13, b14, b15, b16, b17, b18,
        b19, b20, b21, b22, b23, b24, b25, b26, b27, b28, b29, b30, b31]
      = (.ok 12, [0x00, 0x00, 0x80, 0x3F, 0x00, 0x00, 0x00, 0x40, 0x00, 0x00, 0x40, 0x40, b12,
        b13, b14, b15, b16, b17, b18, b19, b20, b21, b22, b23, b24, b25, b26, b27, b28, b29,
        b30, b31]) := rfl
  rw [h1]
  simp only
  rw [packMembers_cons_found _ _ _ values _ 12 _ hscale]
  have h2 : pack (vec2 f32) 12 (.vector [.float 0x40800000, .float 0x40A00000])
      [0x00, 0x00, 0x80, 0x3F, 0x00, 0x00, 0x00, 0x40, 0x00, 0x00, 0x40, 0x40, b12,
        b13, b14, b15, b16, b17, b18, b19, b20, b21, b22, b23, b24, b25, b26, b27, b28, b29,
        b30, b31]
      = (.ok 24, [0x00, 0x00, 0x80, 0x3F, 0x00, 0x00, 0x00, 0x40, 0x00, 0x00, 0x40, 0x40, b12,
        b13, b14, b15, 0x00, 0x00, 0x80, 0x40, 0x00, 0x00, 0xA0, 0x40, b24, b25, b26, b27, b28,
        b29, b30, b31]) := rfl
  rw [h2]
  rfl

/-- Witness of C2: the mapping given scale first, packed into a buffer of 32 bytes `0xFF`. -/
theorem C2_witness :
    ([("scale", NestedData.vector [.float 0x40800000, .float 0x40A00000]),
      ("position", NestedData.vector [.float 0x3F800000, .float 0x40000000,
        .float 0x40400000])] : List (String × NestedData)).length = 2 ∧
    (List.replicate 32 255 : Buffer).length = 32 ∧
    ∃ t, mkStruct [("position", vec3 f32), ("scale", vec2 f32)] = some t ∧
      t.size = 32 ∧ t.alignment = 16 ∧
      pack t 0 (.map [("scale", .vector [.float 0x40800000, .float 0x40A00000]),
          ("position", .vector [.float 0x3F800000, .float 0x40000000, .float 0x40400000])])
          (List.replicate 32 255)
        = (.ok 32,
            [0x00, 0x00, 0x80, 0x3F, 0x00, 0x00, 0x00, 0x40, 0x00, 0x00, 0x40, 0x40]
              ++ ((List.replicate 32 255 : Buffer).drop 12).take 4
              ++ [0x00, 0x00, 0x80, 0x40, 0x00, 0x00, 0xA0, 0x40]
              ++ (List.replicate 32 255 : Buffer).drop 24) :=
  ⟨by decide, by decide,
    C2_position_scale_scenario
      [("scale", .vector [.float 0x40800000, .float 0x40A00000]),
        ("position", .vector [.float 0x3F800000, .float 0x40000000, .float 0x40400000])]
      (List.replicate 32 255) (by decide) rfl rfl (by decide)⟩

/-! ## Size and alignment (C3 to C6) -/

/-- Claim C3.  `Vec2(Float32)` has size 8 and alignment 8, `Vec3(Float32)` size 12 and
alignment 16, `Vec4(Float32)` size 16 and alignment 16, and `Mat4x4(Float32)` is
constructed with size 64 and alignment 16. -/
theorem C3_gpu_layout_constants :
    (vec2 f32).size = 8 ∧ (vec2 f32).alignment = 8 ∧
    (vec3 f32).size = 12 ∧ (vec3 f32).alignment = 16 ∧
    (vec4 f32).size = 16 ∧ (vec4 f32).alignment = 16 ∧
    ∃ m, mat4x4 f32 = .built m ∧ m.size = 64 ∧ m.alignment = 16 :=
  ⟨by decide, by decide, by decide, by decide, by decide, by decide,
    ⟨.MatrixType 64 16 f32 4 4, rfl, by decide, by decide⟩⟩

/-- Claim C4, evaluated where the code breaks it.  The struct with the single field
`VectorType(f32, 12582913, 3)` (size 50331652, alignment 3) is constructed with
alignment 3 and size `roundUp(50331652, 3) = 50331656`, which leaves remainder 2: the
binary32 quotient `50331652 / 3` rounds to 16777218 and the product `16777218 * 3`
rounds to 50331656. -/
theorem C4_struct_size_not_multiple :
    (mkVectorType f32 12582913 3).size = 50331652 ∧
    ∃ t, mkStruct [("v", mkVectorType f32 12582913 3)] = some t ∧
      t.alignment = 3 ∧ t.size = 50331656 ∧ t.size.tmod t.alignment = 2 :=
  ⟨by decide, .Struct 50331656 3 [("v", mkVectorType f32 12582913 3)], by rfl, by decide,
    by decide, by decide⟩

/-- Counterexample to C5 as stated: `Vec3(Float32)` has size 12 and alignment 16. -/
theorem C5_vec3_counterexample :
    (vec3 f32).size = 12 ∧ (vec3 f32).alignment = 16 ∧
    ¬ ((vec3 f32).size.tmod (vec3 f32).alignment = 0) := by
  decide

/-- Claim C5, amended.  The size is a multiple of the alignment for `Vec2` and `Vec4` over
a primitive, for every static array constructed over an element type with
`0 ≤ size`, `0 < alignment` and `size + alignment ≤ 2^24`, and for every matrix
constructed over a base type with `0 ≤ size` and `size * nRows + 16 ≤ 2^24`, provided the
size, which is the product `nElements * stride` (`nColumns * stride` for the matrix), is
a value of `int`: the `int` product that the constructor computes does not overflow. -/
theorem C5_size_multiple_of_alignment :
    (∀ p k, (p, k) ∈ primitives →
      (vec2 p).size.tmod (vec2 p).alignment = 0 ∧ (vec4 p).size.tmod (vec4 p).alignment = 0) ∧
    (∀ type n arr, mkStaticArray type n = some arr → fitsInt arr.size = true →
      0 ≤ type.size → 0 < type.alignment → type.size + type.alignment ≤ 16777216 →
      arr.size.tmod arr.alignment = 0) ∧
    (∀ base nRows nColumns m, mkMatrixType base nRows nColumns = .built m →
      fitsInt m.size = true → 0 ≤ base.size → base.size * nRows + 16 ≤ 16777216 →
      m.size.tmod m.alignment = 0) := by
  have harray : ∀ type n arr, mkStaticArray type n = some arr → 0 ≤ type.size →
      0 < type.alignment → type.size + type.alignment ≤ 16777216 →
      arr.size.tmod arr.alignment = 0 := by
    intro type n arr h h0 h1 h2
    obtain ⟨stride, hstride, rfl⟩ := mkStaticArray_eq type n arr h
    rw [roundUp_exact _ _ h0 h1 h2] at hstride
    simp only [Option.some.injEq] at hstride
    show (n * stride).tmod type.alignment = 0
    apply Int.tmod_eq_zero_of_dvd
    rw [← hstride]
    exact Dvd.intro_left (n * ((type.size + type.alignment - 1) / type.alignment)) (by ring)
  refine ⟨?_, fun type n arr h _ => harray type n arr h, ?_⟩
  · intro p k hp
    simp only [primitives, List.mem_cons, Prod.mk.injEq, List.mem_singleton, List.not_mem_nil,
      or_false] at hp
    rcases hp with ⟨rfl, rfl⟩ | ⟨rfl, rfl⟩ | ⟨rfl, rfl⟩ <;> decide
  · intro base nRows nColumns m h _ h0 h1
    obtain ⟨vecType, arrayType, hrows, harr, rfl⟩ := mkMatrixType_eq base nRows nColumns m h
    have hsame : arrayType.alignment = vecType.alignment := by
      obtain ⟨stride, -, rfl⟩ := mkStaticArray_eq vecType nColumns arrayType harr
      rfl
    show arrayType.size.tmod vecType.alignment = 0
    rw [← hsame]
    rcases hrows with ⟨hr, rfl⟩ | ⟨hr, rfl⟩ | ⟨hr, rfl⟩ <;> subst hr
    · exact harray _ _ _ harr (by show 0 ≤ base.size * _; omega)
        (by show (0 : Int) < 8; decide) (by show base.size * _ + 8 ≤ 16777216; omega)
    · exact harray _ _ _ harr (by show 0 ≤ base.size * _; omega)
        (by show (0 : Int) < 16; decide) (by show base.size * _ + 16 ≤ 16777216; omega)
    · exact harray _ _ _ harr (by show 0 ≤ base.size * _; omega)
        (by show (0 : Int) < 16; decide) (by show base.size * _ + 16 ≤ 16777216; omega)

/-- Witness of C5: `StaticArray(vec3(f32), 5)` has size 80 and alignment 16, and
`MatrixType(f32, 3, 3)` has size 48 and alignment 16. -/
theorem C5_witness :
    (f32, Kind.float) ∈ primitives ∧
    ((vec2 f32).size.tmod (vec2 f32).alignment = 0 ∧
      (vec4 f32).size.tmod (vec4 f32).alignment = 0) ∧
    mkStaticArray (vec3 f32) 5 = some (.StaticArray 80 16 (vec3 f32) 5 16) ∧
    (PackingType.StaticArray 80 16 (vec3 f32) 5 16).size.tmod
      (PackingType.StaticArray 80 16 (vec3 f32) 5 16).alignment = 0 ∧
    mkMatrixType f32 3 3 = .built (.MatrixType 48 16 f32 3 3) ∧
    (PackingType.MatrixType 48 16 f32 3 3).size.tmod
      (PackingType.MatrixType 48 16 f32 3 3).alignment = 0 :=
  ⟨by simp [primitives],
    C5_size_multiple_of_alignment.1 f32 Kind.float (by simp [primitives]),
    rfl,
    C5_size_multiple_of_alignment.2.1 (vec3 f32) 5 _ rfl (by decide) (by decide) (by decide)
      (by decide),
    rfl,
    C5_size_multiple_of_alignment.2.2 f32 3 3 _ rfl (by decide) (by decide) (by decide)⟩

/-- Counterexample to C6 as stated: a vector and a static array of zero elements are
constructed with size 0, and the constructor of the empty struct has no defined result
(its alignment is 0, `roundUp(0, 0)` converts NaN to `int`). -/
theorem C6_zero_count_counterexample :
    ¬ (0 < (mkVectorType f32 0 16).size) ∧
    mkStaticArray f32 0 = some (.StaticArray 0 4 f32 0 4) ∧
    ¬ (0 < (PackingType.StaticArray 0 4 f32 0 4).size) ∧
    structLayout [] 0 0 = some (0, 0) ∧ mkStruct [] = none :=
  ⟨by decide, rfl, by decide, rfl, rfl⟩

/-- Claim C6, amended.  The primitives have positive size and alignment, and each
constructor, applied to constituents of positive size and alignment, yields a positive
size and alignment provided the element count (`nValues`, `nElements`, `nColumns`) and
the alignment handed to `VectorType` are positive, the member list of a struct is not
empty, and the sums and products that the constructor computes are values of `int`: the
size `baseType.size * nValues` of a vector, the size `nElements * stride` of a static
array, the offset that the member loop of a struct ends at, and for a matrix the size
`baseType.size * nRows` of its column vector and its own size `nColumns * stride`. -/
theorem C6_positive_size_alignment :
    (∀ p k, (p, k) ∈ primitives → 0 < p.size ∧ 0 < p.alignment) ∧
    (∀ base n alignment, 0 < base.size → 0 < n → 0 < alignment →
      fitsInt (base.size * n) = true →
      0 < (mkVectorType base n alignment).size ∧
      0 < (mkVectorType base n alignment).alignment) ∧
    (∀ type n t, mkStaticArray type n = some t → 0 < type.size → 0 < type.alignment →
      0 < n → fitsInt t.size = true → 0 < t.size ∧ 0 < t.alignment) ∧
    (∀ members t alignment offset, mkStruct members = some t → members ≠ [] →
      (∀ m ∈ members, 0 < m.2.size ∧ 0 < m.2.alignment) →
      structLayout members 0 0 = some (alignment, offset) → fitsInt offset = true →
      0 < t.size ∧ 0 < t.alignment) ∧
    (∀ base nRows nColumns t, mkMatrixType base nRows nColumns = .built t → 0 < base.size →
      0 < nColumns → fitsInt (base.size * nRows) = true → fitsInt t.size = true →
      0 < t.size ∧ 0 < t.alignment) := by
  have harray : ∀ type n t, mkStaticArray type n = some t → 0 < type.size →
      0 < type.alignment → 0 < n → 0 < t.size ∧ 0 < t.alignment := by
    intro type n t h h0 h1 hn
    obtain ⟨stride, hstride, rfl⟩ := mkStaticArray_eq type n t h
    have hs := roundUp_pos _ _ _ h0 h1 hstride
    exact ⟨Int.mul_pos hn hs, h1⟩
  refine ⟨?_, ?_, fun type n t h h0 h1 hn _ => harray type n t h h0 h1 hn, ?_, ?_⟩
  · intro p k hp
    simp only [primitives, List.mem_cons, Prod.mk.injEq, List.mem_singleton, List.not_mem_nil,
      or_false] at hp
    rcases hp with ⟨rfl, rfl⟩ | ⟨rfl, rfl⟩ | ⟨rfl, rfl⟩ <;> decide
  · intro base n alignment h0 hn ha _
    exact ⟨Int.mul_pos h0 hn, ha⟩
  · intro members t _ _ h hne hpos _ _
    obtain ⟨alignment, offset, size, hlayout, hsize, rfl⟩ := mkStruct_eq members t h
    obtain ⟨-, -, hlast⟩ := structLayout_bounds members 0 0 alignment offset hlayout hpos
    obtain ⟨ha, ho⟩ := hlast hne
    exact ⟨roundUp_pos _ _ _ ho ha hsize, ha⟩
  · intro base nRows nColumns t h h0 hn _ _
    obtain ⟨vecType, arrayType, hrows, harr, rfl⟩ := mkMatrixType_eq base nRows nColumns t h
    have hvec : 0 < vecType.size ∧ 0 < vecType.alignment := by
      rcases hrows with ⟨-, rfl⟩ | ⟨-, rfl⟩ | ⟨-, rfl⟩
      · exact ⟨Int.mul_pos h0 (by decide), by show (0 : Int) < 8; decide⟩
      · exact ⟨Int.mul_pos h0 (by decide), by show (0 : Int) < 16; decide⟩
      · exact ⟨Int.mul_pos h0 (by decide), by show (0 : Int) < 16; decide⟩
    exact ⟨(harray _ _ _ harr hvec.1 hvec.2 hn).1, hvec.2⟩

/-- Witness of C6: the struct `{position: vec3(f32), scale: vec2(f32)}`, whose member
loop ends at offset 24, the vector `VectorType(f32, 3, 16)` of size 12, the static array
`StaticArray(vec3(f32), 5)` of size 80 and the matrix `MatrixType(f32, 3, 3)` of size
48. -/
theorem C6_witness :
    mkStruct [("position", vec3 f32), ("scale", vec2 f32)]
      = some (.Struct 32 16 [("position", vec3 f32), ("scale", vec2 f32)]) ∧
    [("position", vec3 f32), ("scale", vec2 f32)] ≠ [] ∧
    (∀ m ∈ [("position", vec3 f32), ("scale", vec2 f32)], 0 < m.2.size ∧ 0 < m.2.alignment) ∧
    (0 < (PackingType.Struct 32 16 [("position", vec3 f32), ("scale", vec2 f32)]).size ∧
      0 < (PackingType.Struct 32 16 [("position", vec3 f32), ("scale", vec2 f32)]).alignment) ∧
    fitsInt (f32.size * 3) = true ∧
    (0 < (mkVectorType f32 3 16).size ∧ 0 < (mkVectorType f32 3 16).alignment) ∧
    mkStaticArray (vec3 f32) 5 = some (.StaticArray 80 16 (vec3 f32) 5 16) ∧
    (0 < (PackingType.StaticArray 80 16 (vec3 f32) 5 16).size ∧
      0 < (PackingType.StaticArray 80 16 (vec3 f32) 5 16).alignment) ∧
    mkMatrixType f32 3 3 = .built (.MatrixType 48 16 f32 3 3) ∧
    (0 < (PackingType.MatrixType 48 16 f32 3 3).size ∧
      0 < (PackingType.MatrixType 48 16 f32 3 3).alignment) :=
  have hfields : ∀ m ∈ [("position", vec3 f32), ("scale", vec2 f32)],
      0 < m.2.size ∧ 0 < m.2.alignment := by
    intro m hm
    simp only [List.mem_cons, List.mem_singleton, List.not_mem_nil, or_false] at hm
    rcases hm with rfl | rfl <;> decide
  ⟨rfl, by simp, hfields,
    C6_positive_size_alignment.2.2.2.1 [("position", vec3 f32), ("scale", vec2 f32)] _ 16 24
      rfl (by simp) hfields rfl (by decide),
    by decide,
    C6_positive_size_alignment.2.1 f32 3 16 (by decide) (by decide) (by decide) (by decide),
    rfl,
    C6_positive_size_alignment.2.2.1 (vec3 f32) 5 _ rfl (by decide) (by decide) (by decide)
      (by decide),
    rfl,
    C6_positive_size_alignment.2.2.2.2 f32 3 3 _ rfl (by decide) (by decide) (by decide)
      (by decide)⟩

/-- Where the hypotheses `fitsInt` of C5, C6 and C13 fail: for large counts the
mathematical product is not a value of `int`, so the `int` product of the C++ constructor
overflows.  `VectorType(f32, 536870912, 4)` has the product `2^31`,
`StaticArray(VectorType(f32, 1, 3), 400000000)` has stride 6 and the product 2400000000,
and `MatrixType(f32, 4, 268435456)` has stride 16 and the product `2^32`. -/
theorem constructor_products_overflow :
    fitsInt (mkVectorType f32 536870912 4).size = false ∧
    (∃ arr, mkStaticArray (mkVectorType f32 1 3) 400000000 = some arr ∧
      arr.size = 2400000000 ∧ fitsInt arr.size = false) ∧
    (∃ m, mkMatrixType f32 4 268435456 = .built m ∧ m.size = 4294967296 ∧
      fitsInt m.size = false) :=
  ⟨by decide,
    ⟨.StaticArray 2400000000 3 (mkVectorType f32 1 3) 400000000 6, rfl, rfl, by decide⟩,
    ⟨.MatrixType 4294967296 16 f32 4 268435456, rfl, rfl, by decide⟩⟩

/-! ## Primitive descriptors (C7, C8) -/

/-- Claim C7.  For each primitive descriptor, every value and every offset whose four
bytes lie inside the buffer: `pack` throws exactly when the value is not of the matching
scalar kind; otherwise it returns `offset + 4` and the four bytes at `offset` are the
little-endian bytes of the 32-bit pattern of the scalar, and `unpack` at that offset gives
back `offset + 4` and the same scalar.  `unpack` accepts any four bytes. -/
theorem C7_primitive_pack_unpack (t : PackingType) (k : Kind) (ht : (t, k) ∈ primitives)
    (value : NestedData) (offset : Int) (buffer : Buffer)
    (h0 : 0 ≤ offset) (hlen : offset + 4 ≤ (buffer.length : Int)) :
    ((∃ e, (pack t offset value buffer).1 = .throws e) ↔ value.scalarKind ≠ some k) ∧
    (value.scalarKind = some k →
      ∃ buffer1, pack t offset value buffer = (.ok (offset + 4), buffer1) ∧
        (∀ j, j < 4 → buffer1[offset.toNat + j]? = (le32 value.pattern)[j]?) ∧
        (value.validScalar = true → unpack t offset buffer1 = some (offset + 4, value))) ∧
    (∃ v, unpack t offset buffer = some (offset + 4, v) ∧ v.scalarKind = some k) := by
  have hb : 0 ≤ offset ∧ offset + 4 ≤ (buffer.length : Int) := ⟨h0, hlen⟩
  have hn : offset.toNat + 4 ≤ buffer.length := by omega
  have hload : ∃ p, load32 buffer offset.toNat = some p := by
    have e0 : offset.toNat < buffer.length := by omega
    have e1 : offset.toNat + 1 < buffer.length := by omega
    have e2 : offset.toNat + 2 < buffer.length := by omega
    have e3 : offset.toNat + 3 < buffer.length := by omega
    unfold load32
    rw [List.getElem?_eq_getElem e0, List.getElem?_eq_getElem e1, List.getElem?_eq_getElem e2,
      List.getElem?_eq_getElem e3]
    exact ⟨_, rfl⟩
  obtain ⟨p, hp⟩ := hload
  have hstore : ∀ q j, j < 4 →
      (storeBytes buffer offset.toNat (le32 q))[offset.toNat + j]? = (le32 q)[j]? := by
    intro q j hj
    exact storeBytes_inside (le32 q) buffer offset.toNat j (by simpa [le32] using hn)
      (by simpa [le32] using hj)
  have hback : ∀ q, load32 (storeBytes buffer offset.toNat (le32 q)) offset.toNat
      = some (q % 4294967296) := fun q => load32_storeBytes buffer offset.toNat q hn
  simp only [primitives, List.mem_cons, Prod.mk.injEq, List.mem_singleton, List.not_mem_nil,
    or_false] at ht
  rcases ht with ⟨rfl, rfl⟩ | ⟨rfl, rfl⟩ | ⟨rfl, rfl⟩
  · refine ⟨?_, ?_, ?_⟩
    · cases value <;> simp [pack, i32, packScalar, hb, NestedData.scalarKind]
    · intro hk
      cases value <;> simp [NestedData.scalarKind] at hk
      rename_i v
      refine ⟨_, by simp [pack, i32, packScalar, hb], hstore _, ?_⟩
      intro hv
      simp only [NestedData.validScalar, decide_eq_true_eq] at hv
      simp only [unpack, i32, unpackScalar, h0, if_true, hback, NestedData.pattern]
      rw [int32OfPattern_pattern v hv.1 hv.2]
    · exact ⟨.int32 (int32OfPattern p), by simp only [unpack, i32, unpackScalar, h0, if_true, hp], rfl⟩
  · refine ⟨?_, ?_, ?_⟩
    · cases value <;> simp [pack, u32, packScalar, hb, NestedData.scalarKind]
    · intro hk
      cases value <;> simp [NestedData.scalarKind] at hk
      rename_i v
      refine ⟨_, by simp [pack, u32, packScalar, hb], hstore _, ?_⟩
      intro hv
      simp only [NestedData.validScalar, decide_eq_true_eq] at hv
      simp only [unpack, u32, unpackScalar, h0, if_true, hback, NestedData.pattern]
      have e : v % 4294967296 % 4294967296 = v := by omega
      rw [e]
    · exact ⟨.uint32 p, by simp only [unpack, u32, unpackScalar, h0, if_true, hp], rfl⟩
  · refine ⟨?_, ?_, ?_⟩
    · cases value <;> simp [pack, f32, packScalar, hb, NestedData.scalarKind]
    · intro hk
      cases value <;> simp [NestedData.scalarKind] at hk
      rename_i v
      refine ⟨_, by simp [pack, f32, packScalar, hb], hstore _, ?_⟩
      intro hv
      simp only [NestedData.validScalar, decide_eq_true_eq] at hv
      simp only [unpack, f32, unpackScalar, h0, if_true, hback, NestedData.pattern]
      have e : v % 4294967296 % 4294967296 = v := by omega
      rw [e]
    · exact ⟨.float p, by simp only [unpack, f32, unpackScalar, h0, if_true, hp], rfl⟩

/-- Witness of C7: `f32` packs the pattern of `1.0f` at offset 4 of an 8-byte buffer. -/
theorem C7_witness :
    (f32, Kind.float) ∈ primitives ∧ (0 : Int) ≤ 4 ∧
    (4 : Int) + 4 ≤ (([0, 0, 0, 0, 0, 0, 0, 0] : Buffer).length : Int) ∧
    (((∃ e, (pack f32 4 (.float 1065353216) [0, 0, 0, 0, 0, 0, 0, 0]).1 = .throws e) ↔
        (NestedData.float 1065353216).scalarKind ≠ some Kind.float) ∧
      ((NestedData.float 1065353216).scalarKind = some Kind.float →
        ∃ buffer1, pack f32 4 (.float 1065353216) [0, 0, 0, 0, 0, 0, 0, 0]
            = (.ok (4 + 4), buffer1) ∧
          (∀ j, j < 4 → buffer1[(4 : Int).toNat + j]?
            = (le32 (NestedData.float 1065353216).pattern)[j]?) ∧
          ((NestedData.float 1065353216).validScalar = true →
            unpack f32 4 buffer1 = some (4 + 4, .float 1065353216))) ∧
      (∃ v, unpack f32 4 [0, 0, 0, 0, 0, 0, 0, 0] = some (4 + 4, v) ∧
        v.scalarKind = some Kind.float)) :=
  ⟨by simp [primitives], by decide, by decide,
    C7_primitive_pack_unpack f32 Kind.float (by simp [primitives]) (.float 1065353216) 4
      [0, 0, 0, 0, 0, 0, 0, 0] (by decide) (by decide)⟩

/-- Claim C8.  A primitive `pack` that returns leaves the length of the buffer and every
byte outside `[offset, offset + 4)` unchanged; a primitive `pack` that throws leaves the
whole buffer unchanged. -/
theorem C8_primitive_pack_frame (t : PackingType) (k : Kind) (ht : (t, k) ∈ primitives)
    (value : NestedData) (offset : Int) (buffer : Buffer) :
    (∀ next buffer1, pack t offset value buffer = (.ok next, buffer1) →
      buffer1.length = buffer.length ∧
      ∀ i : Nat, (i < offset.toNat ∨ offset.toNat + 4 ≤ i) → buffer1[i]? = buffer[i]?) ∧
    (∀ e buffer1, pack t offset value buffer = (.throws e, buffer1) → buffer1 = buffer) := by
  have hscalar : ∀ (size : Int) (q : Nat),
      (∀ next buffer1, packScalar size offset q buffer = (.ok next, buffer1) →
        buffer1.length = buffer.length ∧
        ∀ i : Nat, (i < offset.toNat ∨ offset.toNat + 4 ≤ i) → buffer1[i]? = buffer[i]?) ∧
      (∀ e buffer1, packScalar size offset q buffer = (.throws e, buffer1) →
        buffer1 = buffer) := by
    intro size q
    unfold packScalar
    split
    · refine ⟨?_, ?_⟩
      · intro next buffer1 h
        simp only [Prod.mk.injEq, Outcome.ok.injEq] at h
        rw [← h.2]
        refine ⟨storeBytes_length _ _ _, ?_⟩
        intro i hi
        exact storeBytes_outside (le32 q) buffer offset.toNat i (by simpa [le32] using hi)
      · intro e buffer1 h
        simp at h
    · refine ⟨?_, ?_⟩
      · intro next buffer1 h
        simp at h
      · intro e buffer1 h
        simp at h
  simp only [primitives, List.mem_cons, Prod.mk.injEq, List.mem_singleton, List.not_mem_nil,
    or_false] at ht
  rcases ht with ⟨rfl, rfl⟩ | ⟨rfl, rfl⟩ | ⟨rfl, rfl⟩
  · cases value <;> simp only [pack, i32] <;> first
      | exact hscalar _ _
      | exact ⟨fun _ _ h => by simp at h, fun _ _ h => by simp at h; exact h.2.symm⟩
  · cases value <;> simp only [pack, u32] <;> first
      | exact hscalar _ _
      | exact ⟨fun _ _ h => by simp at h, fun _ _ h => by simp at h; exact h.2.symm⟩
  · cases value <;> simp only [pack, f32] <;> first
      | exact hscalar _ _
      | exact ⟨fun _ _ h => by simp at h, fun _ _ h => by simp at h; exact h.2.symm⟩

/-- Witness of C8: `i32` at offset 0 of a 4-byte buffer. -/
theorem C8_witness :
    (i32, Kind.int32_t) ∈ primitives ∧
    ((∀ next buffer1, pack i32 0 (.int32 (-2)) [9, 9, 9, 9, 7] = (.ok next, buffer1) →
      buffer1.length = ([9, 9, 9, 9, 7] : Buffer).length ∧
      ∀ i : Nat, (i < (0 : Int).toNat ∨ (0 : Int).toNat + 4 ≤ i) →
        buffer1[i]? = ([9, 9, 9, 9, 7] : Buffer)[i]?) ∧
    (∀ e buffer1, pack i32 0 (.int32 (-2)) [9, 9, 9, 9, 7] = (.throws e, buffer1) →
      buffer1 = [9, 9, 9, 9, 7])) :=
  ⟨by simp [primitives],
    C8_primitive_pack_frame i32 Kind.int32_t (by simp [primitives]) (.int32 (-2)) 0
      [9, 9, 9, 9, 7]⟩

/-! ## Shape errors (C9, C10) -/

/-- Claim C9.  Packing a sequence whose length `m` differs from the count `n` that a
vector, static array or matrix descriptor expects throws the length error carrying `n`
and `m` ("Expected n values, got m"; "columns" for a matrix), whatever the other members
of the descriptor, the offset and the buffer are. -/
theorem C9_length_mismatch (size alignment n stride nRows : Int) (inner : PackingType)
    (values : List NestedData) (offset : Int) (buffer : Buffer)
    (h : (values.length : Int) ≠ n) :
    pack (.VectorType size alignment inner n) offset (.vector values) buffer
      = (.throws (.expectedCount n "values" values.length), buffer) ∧
    pack (.StaticArray size alignment inner n stride) offset (.vector values) buffer
      = (.throws (.expectedCount n "values" values.length), buffer) ∧
    pack (.MatrixType size alignment inner nRows n) offset (.vector values) buffer
      = (.throws (.expectedCount n "columns" values.length), buffer) := by
  refine ⟨?_, ?_, ?_⟩ <;> simp [pack, h]

/-- Witness of C9: two values against descriptors that expect three. -/
theorem C9_witness :
    ((([NestedData.float 0, NestedData.float 0] : List NestedData).length : Int) ≠ 3) ∧
    (pack (.VectorType 12 16 f32 3) 0 (.vector [.float 0, .float 0]) []
      = (.throws (.expectedCount 3 "values"
          ([NestedData.float 0, NestedData.float 0] : List NestedData).length), []) ∧
    pack (.StaticArray 12 16 f32 3 4) 0 (.vector [.float 0, .float 0]) []
      = (.throws (.expectedCount 3 "values"
          ([NestedData.float 0, NestedData.float 0] : List NestedData).length), []) ∧
    pack (.MatrixType 12 16 f32 4 3) 0 (.vector [.float 0, .float 0]) []
      = (.throws (.expectedCount 3 "columns"
          ([NestedData.float 0, NestedData.float 0] : List NestedData).length), [])) :=
  ⟨by decide, C9_length_mismatch 12 16 3 4 4 f32 [.float 0, .float 0] 0 [] (by decide)⟩

/-- Counterexample to C10 as stated: the struct `{a: f32}` is handed the empty mapping,
which lacks `a`; the count check comes first and `pack` throws "Expected 1 values, got 0",
not the missing-key error. -/
theorem C10_count_checked_first_counterexample :
    mkStruct [("a", f32)] = some (.Struct 4 4 [("a", f32)]) ∧
    mapFind [] "a" = none ∧
    pack (.Struct 4 4 [("a", f32)]) 0 (.map []) [0, 0, 0, 0]
      = (.throws (.expectedCount 1 "values" 0), [0, 0, 0, 0]) ∧
    (pack (.Struct 4 4 [("a", f32)]) 0 (.map []) [0, 0, 0, 0]).1
      ≠ .throws (.missingKey "a") :=
  ⟨rfl, rfl, rfl, by decide⟩

/-- Claim C10, amended.  For a constructed struct descriptor and a mapping with exactly as
many entries as the struct declares fields: if the mapping lacks an entry for the declared
field `key` and the fields declared before `key` pack without error, then `pack` throws
the missing-key error naming `key` (and leaves the bytes of the earlier fields
written). -/
theorem C10_missing_field (members pre post : List (String × PackingType)) (key : String)
    (type t : PackingType) (values : List (String × NestedData)) (offset aligned next : Int)
    (buffer buffer1 : Buffer)
    (hbuilt : mkStruct members = some t)
    (hsplit : members = pre ++ (key, type) :: post)
    (hcount : values.length = members.length)
    (hmissing : mapFind values key = none)
    (halign : alignOffset offset t.alignment = some aligned)
    (hbefore : packMembers pre values aligned buffer = (.ok next, buffer1)) :
    pack t offset (.map values) buffer = (.throws (.missingKey key), buffer1) := by
  obtain ⟨alignment, last, size, -, -, rfl⟩ := mkStruct_eq members t hbuilt
  rw [pack_struct_eq size alignment members values offset aligned buffer hcount halign, hsplit,
    packMembers_append, hbefore]
  simp only
  rw [packMembers_cons_missing key type post values next buffer1 hmissing]

/-- Witness of C10: the struct `{a: f32, b: f32}` is handed `{a: 1.0, c: 2.0}`; `a` is
written, then the lookup of `b` fails. -/
theorem C10_witness :
    mkStruct [("a", f32), ("b", f32)] = some (.Struct 8 4 [("a", f32), ("b", f32)]) ∧
    mapFind [("a", .float 0x3F800000), ("c", .float 0x40000000)] "b" = none ∧
    pack (.Struct 8 4 [("a", f32), ("b", f32)]) 0
        (.map [("a", .float 0x3F800000), ("c", .float 0x40000000)]) [0, 0, 0, 0, 0, 0, 0, 0]
      = (.throws (.missingKey "b"), [0x00, 0x00, 0x80, 0x3F, 0, 0, 0, 0]) :=
  ⟨rfl, rfl,
    C10_missing_field [("a", f32), ("b", f32)] [("a", f32)] [] "b" f32 _
      [("a", .float 0x3F800000), ("c", .float 0x40000000)] 0 0 4 [0, 0, 0, 0, 0, 0, 0, 0]
      [0x00, 0x00, 0x80, 0x3F, 0, 0, 0, 0] rfl rfl rfl rfl rfl rfl⟩

/-! ## Lemmas on exact rounding -/

/-- For positive `m` the rounded-up quotient times `m` is the offset that the alignment
loop reaches. -/
theorem ceilMultiple_eq (n m : Int) (hm : 0 < m) :
    (n + m - 1) / m * m = n + (-n) % m := by
  have h1 := Int.emod_add_ediv (n + m - 1) m
  have h2 := Int.emod_nonneg (n + m - 1) (ne_of_gt hm)
  have h3 := Int.emod_lt_of_pos (n + m - 1) hm
  have h4 := Int.emod_add_ediv (-n) m
  have h5 := Int.emod_nonneg (-n) (ne_of_gt hm)
  have h6 := Int.emod_lt_of_pos (-n) hm
  have hc : (n + m - 1) / m * m = m * ((n + m - 1) / m) := Int.mul_comm _ _
  have hd : m ∣ (n + m - 1) / m * m - (n + (-n) % m) := by
    have e : (n + m - 1) / m * m - (n + (-n) % m) = m * ((n + m - 1) / m + (-n) / m) := by
      rw [Int.mul_add]; omega
    rw [e]
    exact Dvd.intro _ rfl
  have hz := Int.eq_zero_of_dvd_of_natAbs_lt_natAbs hd (by omega)
  omega

/-- Where the float arithmetic is exact (`n + m ≤ 2^24`), `roundUp(n, m)` is the least
multiple of `m` not below `n`, and it is the offset that the alignment loop reaches from
`n`. -/
theorem roundUp_least_multiple (n m : Int) (hn : 0 ≤ n) (hm : 0 < m)
    (h : n + m ≤ 16777216) :
    ∃ r, roundUp n m = some r ∧ alignOffset n m = some r ∧ m ∣ r ∧ n ≤ r ∧ r < n + m ∧
      ∀ k, m ∣ k → n ≤ k → r ≤ k := by
  refine ⟨n + (-n) % m, ?_, alignOffset_eq n m (ne_of_gt hm), ?_, ?_, ?_, ?_⟩
  · rw [roundUp_exact n m hn hm h, ceilMultiple_eq n m hm]
  · rw [← ceilMultiple_eq n m hm]
    exact Dvd.intro_left _ rfl
  · have := Int.emod_nonneg (-n) (ne_of_gt hm)
    omega
  · have := Int.emod_lt_of_pos (-n) hm
    omega
  · intro k hk hnk
    by_contra hlt
    have h5 := Int.emod_nonneg (-n) (ne_of_gt hm)
    have h6 := Int.emod_lt_of_pos (-n) hm
    have hd : m ∣ n + (-n) % m - k := by
      apply Int.dvd_sub _ hk
      rw [← ceilMultiple_eq n m hm]
      exact Dvd.intro_left _ rfl
    have hz := Int.eq_zero_of_dvd_of_natAbs_lt_natAbs hd (by omega)
    omega

/-! ## Lemmas on the primitives and on runs of scalars -/

/-- A primitive `pack` of a matching scalar inside the buffer. -/
theorem pack_primitive_ok (p : PackingType) (k : Kind) (hp : (p, k) ∈ primitives)
    (v : NestedData) (o : Int) (buffer : Buffer) (hk : v.scalarKind = some k)
    (h0 : 0 ≤ o) (hlen : o + 4 ≤ (buffer.length : Int)) :
    pack p o v buffer = (.ok (o + 4), storeBytes buffer o.toNat (le32 v.pattern)) := by
  have hb : 0 ≤ o ∧ o + 4 ≤ (buffer.length : Int) := ⟨h0, hlen⟩
  simp only [primitives, List.mem_cons, Prod.mk.injEq, List.mem_singleton, List.not_mem_nil,
    or_false] at hp
  rcases hp with ⟨rfl, rfl⟩ | ⟨rfl, rfl⟩ | ⟨rfl, rfl⟩ <;> cases v <;>
    simp [NestedData.scalarKind] at hk <;>
    simp [pack, i32, u32, f32, packScalar, hb]

/-- A primitive `pack` of anything but a matching scalar. -/
theorem pack_primitive_throws (p : PackingType) (k : Kind) (hp : (p, k) ∈ primitives)
    (v : NestedData) (o : Int) (buffer : Buffer) (hk : v.scalarKind ≠ some k) :
    pack p o v buffer = (.throws (.expected k), buffer) := by
  simp only [primitives, List.mem_cons, Prod.mk.injEq, List.mem_singleton, List.not_mem_nil,
    or_false] at hp
  rcases hp with ⟨rfl, rfl⟩ | ⟨rfl, rfl⟩ | ⟨rfl, rfl⟩ <;> cases v <;>
    simp [NestedData.scalarKind] at hk <;>
    simp [pack, i32, u32, f32]

/-- A primitive `unpack` inside the buffer. -/
theorem unpack_primitive_ok (p : PackingType) (k : Kind) (hp : (p, k) ∈ primitives)
    (o : Int) (buffer : Buffer) (h0 : 0 ≤ o) (hlen : o + 4 ≤ (buffer.length : Int)) :
    ∃ v, unpack p o buffer = some (o + 4, v) ∧ v.scalarKind = some k := by
  have hload : ∃ q, load32 buffer o.toNat = some q := by
    have e0 : o.toNat < buffer.length := by omega
    have e1 : o.toNat + 1 < buffer.length := by omega
    have e2 : o.toNat + 2 < buffer.length := by omega
    have e3 : o.toNat + 3 < buffer.length := by omega
    unfold load32
    rw [List.getElem?_eq_getElem e0, List.getElem?_eq_getElem e1, List.getElem?_eq_getElem e2,
      List.getElem?_eq_getElem e3]
    exact ⟨_, rfl⟩
  obtain ⟨q, hq⟩ := hload
  simp only [primitives, List.mem_cons, Prod.mk.injEq, List.mem_singleton, List.not_mem_nil,
    or_false] at hp
  rcases hp with ⟨rfl, rfl⟩ | ⟨rfl, rfl⟩ | ⟨rfl, rfl⟩
  · exact ⟨.int32 (int32OfPattern q), by simp only [unpack, i32, unpackScalar, h0, if_true, hq],
      rfl⟩
  · exact ⟨.uint32 q, by simp only [unpack, u32, unpackScalar, h0, if_true, hq], rfl⟩
  · exact ⟨.float q, by simp only [unpack, f32, unpackScalar, h0, if_true, hq], rfl⟩

/-- Two adjacent stores are one store of the concatenated bytes. -/
theorem storeBytes_append (xs : List Nat) : ∀ (buffer : Buffer) (i : Nat) (ys : List Nat),
    storeBytes (storeBytes buffer i xs) (i + xs.length) ys = storeBytes buffer i (xs ++ ys) := by
  induction xs with
  | nil => intro buffer i ys; rfl
  | cons x rest ih =>
    intro buffer i ys
    have e : i + (x :: rest).length = i + 1 + rest.length := by
      simp only [List.length_cons]; omega
    rw [e]
    exact ih (buffer.set i x) (i + 1) ys

/-- A run of `n` scalars is encoded in `4 * n` bytes. -/
theorem encodeAll_length (values : List NestedData) :
    (encodeAll values).length = 4 * values.length := by
  induction values with
  | nil => rfl
  | cons v rest ih =>
    simp only [encodeAll, List.length_append, List.length_cons, ih, le32, List.length_nil]
    omega

/-- Byte `b` of the encoding of scalar `j` of a run. -/
theorem encodeAll_getElem (values : List NestedData) : ∀ (j : Nat) (v : NestedData),
    values[j]? = some v → ∀ b, b < 4 →
    (encodeAll values)[4 * j + b]? = (le32 v.pattern)[b]? := by
  induction values with
  | nil => intro j v h; simp at h
  | cons w rest ih =>
    intro j v h b hb
    have hl : (le32 w.pattern).length = 4 := rfl
    cases j with
    | zero =>
      simp only [List.getElem?_cons_zero, Option.some.injEq] at h
      subst h
      simp only [encodeAll, Nat.mul_zero, Nat.zero_add]
      rw [List.getElem?_append_left (by omega)]
    | succ j =>
      simp only [List.getElem?_cons_succ] at h
      simp only [encodeAll]
      rw [List.getElem?_append_right (by omega), hl]
      have e : 4 * (j + 1) + b - 4 = 4 * j + b := by omega
      rw [e]
      exact ih j v h b hb

/-- The element loop of a vector over matching scalars writes their encodings one after
the other. -/
theorem packElements_scalars (p : PackingType) (k : Kind) (hp : (p, k) ∈ primitives)
    (values : List NestedData) : ∀ (i : Nat) (a : Int) (buffer : Buffer),
    (∀ v ∈ values, v.scalarKind = some k) → 0 ≤ a →
    a + 4 * (values.length : Int) ≤ (buffer.length : Int) →
    packElements (fun o v b => pack p o v b) 0 i values a buffer
      = (.ok (a + 4 * (values.length : Int)), storeBytes buffer a.toNat (encodeAll values)) := by
  induction values with
  | nil =>
    intro i a buffer _ _ _
    simp [packElements, encodeAll, storeBytes]
  | cons v rest ih =>
    intro i a buffer hall h0 hlen
    simp only [List.length_cons, Nat.cast_add, Nat.cast_one] at hlen
    unfold packElements
    rw [pack_primitive_ok p k hp v a buffer (hall v (List.mem_cons_self _ _)) h0 (by omega)]
    simp only
    rw [ih (i + 1) (a + 4 + 0) _ (fun w hw => hall w (List.mem_cons_of_mem _ hw)) (by omega)
      (by rw [storeBytes_length]; omega)]
    have e1 : (a + 4 + 0).toNat = a.toNat + (le32 v.pattern).length := by
      have : (le32 v.pattern).length = 4 := rfl
      omega
    rw [e1, storeBytes_append]
    simp only [List.length_cons, Nat.cast_add, Nat.cast_one, encodeAll]
    congr 2
    omega

/-- The element loop of a vector stops at the first value that is not a matching scalar;
the encodings of the values before it have been written. -/
theorem packElements_scalars_bad (p : PackingType) (k : Kind) (hp : (p, k) ∈ primitives)
    (pre : List NestedData) (bad : NestedData) (post : List NestedData) :
    ∀ (i : Nat) (a : Int) (buffer : Buffer),
    (∀ v ∈ pre, v.scalarKind = some k) → bad.scalarKind ≠ some k → 0 ≤ a →
    a + 4 * (pre.length : Int) ≤ (buffer.length : Int) →
    packElements (fun o v b => pack p o v b) 0 i (pre ++ bad :: post) a buffer
      = (.throws (.atIndex (i + pre.length) (.expected k)),
          storeBytes buffer a.toNat (encodeAll pre)) := by
  induction pre with
  | nil =>
    intro i a buffer _ hbad _ _
    simp only [List.nil_append, List.length_nil, Nat.add_zero, encodeAll, storeBytes]
    unfold packElements
    rw [pack_primitive_throws p k hp bad a buffer hbad]
  | cons v rest ih =>
    intro i a buffer hall hbad h0 hlen
    simp only [List.length_cons, Nat.cast_add, Nat.cast_one] at hlen
    simp only [List.cons_append]
    unfold packElements
    rw [pack_primitive_ok p k hp v a buffer (hall v (List.mem_cons_self _ _)) h0 (by omega)]
    simp only
    rw [ih (i + 1) (a + 4 + 0) _ (fun w hw => hall w (List.mem_cons_of_mem _ hw)) hbad
      (by omega) (by rw [storeBytes_length]; omega)]
    have e1 : (a + 4 + 0).toNat = a.toNat + (le32 v.pattern).length := by
      have : (le32 v.pattern).length = 4 := rfl
      omega
    rw [e1, storeBytes_append]
    simp only [List.length_cons, encodeAll]
    congr 3
    omega

/-! ## Lemmas on runs of scalars read by `unpack` -/

/-- The element loop of `unpack` over a primitive reads `count` scalars at consecutive
offsets `a + 4*j`. -/
theorem unpackElements_scalars (p : PackingType) (k : Kind) (hp : (p, k) ∈ primitives)
    (buffer : Buffer) (count : Nat) : ∀ (a : Int) (acc : List NestedData),
    0 ≤ a → a + 4 * (count : Int) ≤ (buffer.length : Int) →
    ∃ values, unpackElements (fun o b => unpack p o b) 0 buffer count a acc
        = some (a + 4 * (count : Int), acc ++ values) ∧
      values.length = count ∧
      ∀ j : Nat, j < count → ∃ cell, unpack p (a + 4 * (j : Int)) buffer
          = some (a + 4 * (j : Int) + 4, cell) ∧ cell.scalarKind = some k ∧
        values[j]? = some cell := by
  induction count with
  | zero =>
    intro a acc _ _
    exact ⟨[], by simp [unpackElements], rfl, fun j hj => absurd hj (by omega)⟩
  | succ c ih =>
    intro a acc h0 hlen
    simp only [Nat.cast_add, Nat.cast_one] at hlen
    obtain ⟨v, hv, hvk⟩ := unpack_primitive_ok p k hp a buffer h0 (by omega)
    obtain ⟨rest, hrest, hrlen, hcells⟩ := ih (a + 4 + 0) (acc ++ [v]) (by omega) (by omega)
    refine ⟨v :: rest, ?_, by simp [hrlen], ?_⟩
    · unfold unpackElements
      simp only [hv]
      rw [hrest]
      simp only [List.append_assoc, List.singleton_append, Nat.cast_add, Nat.cast_one,
        Option.some.injEq, Prod.mk.injEq, and_true]
      omega
    · intro j hj
      cases j with
      | zero =>
        refine ⟨v, ?_, hvk, by simp⟩
        simp only [Nat.cast_zero, Int.mul_zero, Int.add_zero]
        exact hv
      | succ j =>
        obtain ⟨cell, hcell, hck, hget⟩ := hcells j (by omega)
        refine ⟨cell, ?_, hck, by simpa using hget⟩
        have e : a + 4 * ((j + 1 : Nat) : Int) = a + 4 + 0 + 4 * (j : Int) := by
          push_cast; omega
        rw [e]
        exact hcell

/-- The column loop of `MatrixType::unpack` over a primitive reads `count` columns of
`nRows` scalars each from consecutive offsets. -/
theorem unpackColumns_scalars (p : PackingType) (k : Kind) (hp : (p, k) ∈ primitives)
    (buffer : Buffer) (nRows : Nat) (count : Nat) : ∀ (a : Int) (acc : List NestedData),
    0 ≤ a → a + 4 * ((nRows : Int) * (count : Int)) ≤ (buffer.length : Int) →
    ∃ columns, unpackColumns (fun o b => unpack p o b) nRows buffer count a acc
        = some (a + 4 * ((nRows : Int) * (count : Int)), acc ++ columns) ∧
      columns.length = count ∧
      ∀ i : Nat, i < count → ∃ cells, columns[i]? = some (.vector cells) ∧
        cells.length = nRows ∧
        ∀ j : Nat, j < nRows → ∃ cell,
          unpack p (a + 4 * ((i : Int) * (nRows : Int) + (j : Int))) buffer
            = some (a + 4 * ((i : Int) * (nRows : Int) + (j : Int)) + 4, cell) ∧
          cell.scalarKind = some k ∧ cells[j]? = some cell := by
  induction count with
  | zero =>
    intro a acc _ _
    exact ⟨[], by simp [unpackColumns], rfl, fun i hi => absurd hi (by omega)⟩
  | succ c ih =>
    intro a acc h0 hlen
    have hmul : (nRows : Int) * ((c + 1 : Nat) : Int) = (nRows : Int) * (c : Int) + nRows := by
      push_cast; ring
    rw [hmul] at hlen
    have hnn : (0 : Int) ≤ (nRows : Int) * (c : Int) :=
      Int.mul_nonneg (Int.ofNat_nonneg _) (Int.ofNat_nonneg _)
    obtain ⟨cells, hcellsEq, hclen, hcells⟩ :=
      unpackElements_scalars p k hp buffer nRows a [] h0 (by omega)
    obtain ⟨rest, hrest, hrlen, hcols⟩ :=
      ih (a + 4 * (nRows : Int)) (acc ++ [.vector ([] ++ cells)]) (by omega) (by omega)
    refine ⟨.vector cells :: rest, ?_, by simp [hrlen], ?_⟩
    · unfold unpackColumns
      simp only [hcellsEq]
      rw [hrest, hmul]
      simp only [List.nil_append, List.append_assoc, List.singleton_append, Option.some.injEq,
        Prod.mk.injEq, and_true]
      ring
    · intro i hi
      cases i with
      | zero =>
        refine ⟨cells, by simp, hclen, ?_⟩
        intro j hj
        obtain ⟨cell, hcell, hck, hget⟩ := hcells j hj
        refine ⟨cell, ?_, hck, hget⟩
        simp only [Nat.cast_zero, Int.zero_mul, Int.zero_add]
        exact hcell
      | succ i =>
        obtain ⟨cs, hcs, hcslen, hcsCells⟩ := hcols i (by omega)
        refine ⟨cs, by simpa using hcs, hcslen, ?_⟩
        intro j hj
        obtain ⟨cell, hcell, hck, hget⟩ := hcsCells j hj
        refine ⟨cell, ?_, hck, hget⟩
        have e : a + 4 * (((i + 1 : Nat) : Int) * (nRows : Int) + (j : Int))
            = a + 4 * (nRows : Int) + 4 * ((i : Int) * (nRows : Int) + (j : Int)) := by
          push_cast; ring
        rw [e]
        exact hcell

/-- The matrices over a primitive: stride 8 for two rows, 16 for three or four. -/
theorem mkMatrixType_primitive (p : PackingType) (k : Kind) (hp : (p, k) ∈ primitives)
    (nRows nColumns : Int) (hrows : nRows = 2 ∨ nRows = 3 ∨ nRows = 4) :
    mkMatrixType p nRows nColumns
      = .built (.MatrixType (nColumns * (if nRows = 2 then 8 else 16))
          (if nRows = 2 then 8 else 16) p nRows nColumns) := by
  simp only [primitives, List.mem_cons, Prod.mk.injEq, List.mem_singleton, List.not_mem_nil,
    or_false] at hp
  rcases hp with ⟨rfl, rfl⟩ | ⟨rfl, rfl⟩ | ⟨rfl, rfl⟩ <;> rcases hrows with rfl | rfl | rfl <;> rfl

/-! ## Lemmas on aligned offsets -/

/-- Aligning never moves an offset down. -/
theorem alignUp_ge (x m : Int) (hm : 0 < m) : x ≤ x + (-x) % m := by
  have := Int.emod_nonneg (-x) (ne_of_gt hm)
  omega

/-- Aligning moves an offset by less than the alignment. -/
theorem alignUp_lt (x m : Int) (hm : 0 < m) : x + (-x) % m < x + m := by
  have := Int.emod_lt_of_pos (-x) hm
  omega

/-- The aligned offset is a multiple of the alignment. -/
theorem alignUp_dvd (x m : Int) : m ∣ x + (-x) % m := by
  have e : x + (-x) % m = -(m * ((-x) / m)) := by
    have := Int.emod_add_ediv (-x) m
    omega
  rw [e]
  exact (Int.dvd_neg).mpr (Dvd.intro _ rfl)

/-- An aligned offset stays where it is. -/
theorem alignUp_of_dvd (x m : Int) (h : m ∣ x) : x + (-x) % m = x := by
  have : (-x) % m = 0 := Int.emod_eq_zero_of_dvd ((Int.dvd_neg).mpr h)
  omega

/-- Aligning is monotone. -/
theorem alignUp_mono (p q m : Int) (hm : 0 < m) (h : p ≤ q) :
    p + (-p) % m ≤ q + (-q) % m := by
  by_contra hcon
  have hd : m ∣ p + (-p) % m - (q + (-q) % m) := Int.dvd_sub (alignUp_dvd p m) (alignUp_dvd q m)
  have hle := Int.le_of_dvd (by omega) hd
  have h1 := alignUp_lt p m hm
  have h2 := alignUp_ge q m hm
  omega

/-- Aligning commutes with a shift by a multiple of the alignment. -/
theorem alignUp_add (a c m : Int) (h : m ∣ a) :
    a + c + (-(a + c)) % m = a + (c + (-c) % m) := by
  obtain ⟨k, rfl⟩ := h
  have e : -(m * k + c) = -c + m * (-k) := by ring
  rw [e, Int.add_mul_emod_self_left]
  ring

/-- The alignment loop in closed form, for a positive alignment. -/
theorem alignOffset_pos (offset alignment : Int) (h : 0 < alignment) :
    alignOffset offset alignment = some (offset + (-offset) % alignment) :=
  alignOffset_eq offset alignment (ne_of_gt h)

/-- The first byte of a descriptor entered at a multiple of its alignment. -/
theorem startOf_aligned (t : PackingType) (s : Int) (h : t.alignment ∣ s) :
    t.startOf s = s := by
  cases t <;> first
    | rfl
    | exact alignUp_of_dvd s _ h

/-- The returned offset of a descriptor entered at a multiple of its alignment. -/
theorem endOf_aligned (t : PackingType) (s : Int) (h : t.alignment ∣ s) :
    t.endOf s = s + t.size := by
  cases t <;> first
    | rfl
    | (show _ + _ = _; rw [show ∀ x y : Int, x + y = s + y ↔ x = s from fun x y => by omega]
       exact alignUp_of_dvd s _ h)

/-- The first byte of a field lies between the running offset of `pack` and the aligned
running offset of the constructor. -/
theorem startOf_bounds (t : PackingType) (a0 c p : Int) (hal : 0 < t.alignment)
    (hdvd : t.alignment ∣ a0) (hp : p ≤ a0 + c) :
    p ≤ t.startOf p ∧ t.startOf p ≤ a0 + (c + (-c) % t.alignment) := by
  have hc := alignUp_ge c t.alignment hal
  have hmono := alignUp_mono p (a0 + c) t.alignment hal hp
  rw [alignUp_add a0 c t.alignment hdvd] at hmono
  have hge := alignUp_ge p t.alignment hal
  cases t <;> first
    | exact ⟨le_refl _, by show p ≤ _; omega⟩
    | exact ⟨hge, hmono⟩

/-- The returned offset lies between the offset entered at and the end of the bytes. -/
theorem endOf_bounds (t : PackingType) (p : Int) (hsize : 0 ≤ t.size)
    (hstart : p ≤ t.startOf p) : p ≤ t.endOf p ∧ t.endOf p ≤ t.startOf p + t.size := by
  cases t <;> simp only [PackingType.size, PackingType.startOf, PackingType.endOf] at * <;>
    omega

/-! ## Lemmas on regular descriptors -/

/-- A value matches a primitive exactly when it is a scalar of its kind. -/
theorem matchesShape_primitive (p : PackingType) (k : Kind) (hp : (p, k) ∈ primitives)
    (v : NestedData) : matchesShape p v = true ↔ v.scalarKind = some k := by
  simp only [primitives, List.mem_cons, Prod.mk.injEq, List.mem_singleton, List.not_mem_nil,
    or_false] at hp
  rcases hp with ⟨rfl, rfl⟩ | ⟨rfl, rfl⟩ | ⟨rfl, rfl⟩ <;>
    simp [matchesShape, i32, u32, f32]

/-- The primitives have size 4 and alignment 4. -/
theorem primitive_size (p : PackingType) (k : Kind) (hp : (p, k) ∈ primitives) :
    p.size = 4 ∧ p.alignment = 4 := by
  simp only [primitives, List.mem_cons, Prod.mk.injEq, List.mem_singleton, List.not_mem_nil,
    or_false] at hp
  rcases hp with ⟨rfl, rfl⟩ | ⟨rfl, rfl⟩ | ⟨rfl, rfl⟩ <;> exact ⟨rfl, rfl⟩

/-- The member loop of the struct constructor only increases the running alignment and
offset when no member has a negative size; after a non-empty list the alignment is
positive. -/
theorem structLayout_mono (members : List (String × PackingType)) :
    ∀ (alignment0 offset0 alignment offset : Int),
    structLayout members alignment0 offset0 = some (alignment, offset) →
    (∀ m ∈ members, 0 ≤ m.2.size ∧ 0 < m.2.alignment) →
    alignment0 ≤ alignment ∧ offset0 ≤ offset ∧ (members ≠ [] → 0 < alignment) := by
  induction members with
  | nil =>
    intro alignment0 offset0 alignment offset h _
    simp only [structLayout, Option.some.injEq, Prod.mk.injEq] at h
    refine ⟨by omega, by omega, fun hne => absurd rfl hne⟩
  | cons member rest ih =>
    intro alignment0 offset0 alignment offset h hpos
    have hm := hpos member (List.mem_cons_self _ _)
    unfold structLayout at h
    split at h
    · exact absurd h (by simp)
    · rename_i aligned haligned
      have hge := alignOffset_ge _ _ _ haligned
      have := ih _ _ _ _ h (fun m hmem => hpos m (List.mem_cons_of_mem _ hmem))
      have hmax : member.2.alignment ≤ max alignment0 member.2.alignment := le_max_right _ _
      have hmax2 : alignment0 ≤ max alignment0 member.2.alignment := le_max_left _ _
      refine ⟨by omega, by omega, fun _ => by omega⟩

/-- The rounded-up multiple is a multiple and is not below the argument. -/
theorem ceilMultiple_bounds (x m : Int) (hm : 0 < m) :
    x ≤ (x + m - 1) / m * m ∧ m ∣ (x + m - 1) / m * m := by
  rw [ceilMultiple_eq x m hm]
  exact ⟨alignUp_ge x m hm, alignUp_dvd x m⟩

/-- The members of a regular static array. -/
theorem regular_array_form (type t : PackingType) (n : Int) (h0 : 0 ≤ type.size)
    (h1 : 0 < type.alignment) (h2 : type.size + type.alignment ≤ 16777216)
    (h : mkStaticArray type n = some t) :
    ∃ stride, t = .StaticArray (n * stride) type.alignment type n stride ∧
      stride = (type.size + type.alignment - 1) / type.alignment * type.alignment ∧
      type.size ≤ stride ∧ type.alignment ∣ stride := by
  obtain ⟨stride, hstride, rfl⟩ := mkStaticArray_eq type n t h
  rw [roundUp_exact _ _ h0 h1 h2] at hstride
  simp only [Option.some.injEq] at hstride
  obtain ⟨hb1, hb2⟩ := ceilMultiple_bounds type.size type.alignment h1
  exact ⟨stride, rfl, hstride.symm, by rw [← hstride]; exact hb1, by rw [← hstride]; exact hb2⟩

/-- The members of a regular struct. -/
theorem regular_struct_form (members : List (String × PackingType)) (t : PackingType)
    (alignment offset : Int)
    (hmembers : ∀ m ∈ members, 0 ≤ m.2.size ∧ 0 < m.2.alignment)
    (hlayout : structLayout members 0 0 = some (alignment, offset))
    (hexact : offset + alignment ≤ 16777216) (h : mkStruct members = some t) :
    ∃ size, t = .Struct size alignment members ∧ 0 < alignment ∧ 0 ≤ offset ∧
      offset ≤ size ∧ alignment ∣ size := by
  obtain ⟨-, hoff, hal⟩ := structLayout_mono members 0 0 alignment offset hlayout hmembers
  have hne : members ≠ [] := by
    rintro rfl
    simp [mkStruct, structLayout, roundUp] at h
  have hpos := hal hne
  obtain ⟨alignment1, offset1, size, hlayout1, hsize, rfl⟩ := mkStruct_eq members t h
  rw [hlayout] at hlayout1
  simp only [Option.some.injEq, Prod.mk.injEq] at hlayout1
  obtain ⟨rfl, rfl⟩ := hlayout1
  rw [roundUp_exact _ _ hoff hpos hexact] at hsize
  simp only [Option.some.injEq] at hsize
  obtain ⟨hb1, hb2⟩ := ceilMultiple_bounds offset alignment hpos
  exact ⟨size, rfl, hpos, hoff, by rw [← hsize]; exact hb1, by rw [← hsize]; exact hb2⟩

/-- A regular descriptor has a size that is not negative and a positive alignment. -/
theorem regular_size_alignment (t : PackingType) (h : Regular t) :
    0 ≤ t.size ∧ 0 < t.alignment := by
  induction h with
  | primitive p k hp =>
    obtain ⟨h1, h2⟩ := primitive_size p k hp
    omega
  | vector p k n alignment hp hn hal =>
    obtain ⟨h1, -⟩ := primitive_size p k hp
    refine ⟨?_, hal⟩
    show 0 ≤ p.size * n
    rw [h1]
    omega
  | array type t n _ hn hexact hmk ih =>
    obtain ⟨stride, rfl, -, hle, -⟩ := regular_array_form type t n ih.1 ih.2 hexact hmk
    exact ⟨Int.mul_nonneg hn (le_trans ih.1 hle), ih.2⟩
  | struct members t alignment offset _ _ hlayout hexact hmk ih =>
    obtain ⟨size, rfl, hpos, hoff, hle, -⟩ :=
      regular_struct_form members t alignment offset ih hlayout hexact hmk
    exact ⟨le_trans hoff hle, hpos⟩
  | matrix p k nRows nColumns t hp hn hmk =>
    have hrows : nRows = 2 ∨ nRows = 3 ∨ nRows = 4 := by
      by_contra hcon
      have h2 : nRows ≠ 2 := fun h => hcon (Or.inl h)
      have h3 : nRows ≠ 3 := fun h => hcon (Or.inr (Or.inl h))
      have h4 : nRows ≠ 4 := fun h => hcon (Or.inr (Or.inr h))
      simp [mkMatrixType, h2, h3, h4] at hmk
    rw [mkMatrixType_primitive p k hp nRows nColumns hrows] at hmk
    simp only [Construction.built.injEq] at hmk
    subst hmk
    constructor
    · show 0 ≤ nColumns * _
      split <;> omega
    · show 0 < (if nRows = 2 then (8 : Int) else 16)
      split <;> omega

/-! ## Lemmas on the loops of `pack` -/

/-- The element loop over `pre ++ rest` runs over `pre` and then, if that returned, over
`rest`. -/
theorem packElements_append (f : Int → NestedData → Buffer → Outcome Int × Buffer)
    (skip : Int) (pre : List NestedData) :
    ∀ (rest : List NestedData) (i : Nat) (a : Int) (buffer : Buffer),
    packElements f skip i (pre ++ rest) a buffer
      = match packElements f skip i pre a buffer with
        | (.ok next, buffer1) => packElements f skip (i + pre.length) rest next buffer1
        | other => other := by
  induction pre with
  | nil =>
    intro rest i a buffer
    simp [packElements]
  | cons v pre ih =>
    intro rest i a buffer
    simp only [List.cons_append, List.length_cons]
    rw [packElements, packElements]
    rcases hf : f a v buffer with ⟨outcome, buffer1⟩
    cases outcome with
    | ok next =>
      simp only
      rw [ih rest (i + 1) (next + skip) buffer1]
      have e : i + 1 + pre.length = i + (pre.length + 1) := by omega
      rw [e]
    | throws e => rfl
    | undefined => rfl

/-- The element loop of a static array whose element type packs well: entered at a
multiple of the alignment, it packs the elements at multiples of the stride. -/
theorem packElements_aligned (type : PackingType) (hT : PacksWell type)
    (hsize : 0 ≤ type.size) (stride : Int) (hle : type.size ≤ stride)
    (hdvd : type.alignment ∣ stride) (values : List NestedData) :
    ∀ (i : Nat) (a : Int) (buffer : Buffer),
    (∀ v ∈ values, matchesShape type v = true) → 0 ≤ a → type.alignment ∣ a →
    a + (values.length : Int) * stride ≤ (buffer.length : Int) →
    ∃ buffer1, packElements (fun o v b => pack type o v b) (stride - type.size) i values a buffer
        = (.ok (a + (values.length : Int) * stride), buffer1) ∧
      buffer1.length = buffer.length ∧
      ∀ j : Nat, ((j : Int) < a ∨ a + (values.length : Int) * stride ≤ (j : Int)) →
        buffer1[j]? = buffer[j]? := by
  induction values with
  | nil =>
    intro i a buffer _ _ _ _
    exact ⟨buffer, by simp [packElements], rfl, fun _ _ => rfl⟩
  | cons v rest ih =>
    intro i a buffer hall h0 ha hlen
    have hrest0 : (0 : Int) ≤ (rest.length : Int) * stride :=
      Int.mul_nonneg (Int.ofNat_nonneg _) (le_trans hsize hle)
    have hexp : (((v :: rest).length : Nat) : Int) * stride
        = stride + (rest.length : Int) * stride := by
      simp only [List.length_cons]; push_cast; ring
    rw [hexp] at hlen ⊢
    have hs := startOf_aligned type a ha
    have he := endOf_aligned type a ha
    obtain ⟨buffer1, hpack, hlen1, hframe1⟩ := hT a v buffer (hall v (List.mem_cons_self _ _))
      h0 (by rw [hs]; omega)
    rw [hs] at hframe1
    rw [he] at hpack
    obtain ⟨buffer2, hloop, hlen2, hframe2⟩ := ih (i + 1) (a + stride) buffer1
      (fun w hw => hall w (List.mem_cons_of_mem _ hw)) (by omega) (Int.dvd_add ha hdvd)
      (by rw [hlen1]; omega)
    refine ⟨buffer2, ?_, by rw [hlen2, hlen1], ?_⟩
    · rw [packElements]
      simp only [hpack]
      have e : a + type.size + (stride - type.size) = a + stride := by omega
      rw [e, hloop]
      congr 2
      omega
    · intro j hj
      rw [hframe2 j (by omega), hframe1 j (by omega)]

/-- The entry loop of a matrix column over matching scalars writes their encodings one
after the other. -/
theorem packCells_scalars (p : PackingType) (k : Kind) (hp : (p, k) ∈ primitives)
    (i : Nat) (values : List NestedData) : ∀ (j : Nat) (a : Int) (buffer : Buffer),
    (∀ v ∈ values, v.scalarKind = some k) → 0 ≤ a →
    a + 4 * (values.length : Int) ≤ (buffer.length : Int) →
    packCells (fun o v b => pack p o v b) i j values a buffer
      = (.ok (a + 4 * (values.length : Int)), storeBytes buffer a.toNat (encodeAll values)) := by
  induction values with
  | nil =>
    intro j a buffer _ _ _
    simp [packCells, encodeAll, storeBytes]
  | cons v rest ih =>
    intro j a buffer hall h0 hlen
    simp only [List.length_cons, Nat.cast_add, Nat.cast_one] at hlen
    unfold packCells
    rw [pack_primitive_ok p k hp v a buffer (hall v (List.mem_cons_self _ _)) h0 (by omega)]
    simp only
    rw [ih (j + 1) (a + 4) _ (fun w hw => hall w (List.mem_cons_of_mem _ hw)) (by omega)
      (by rw [storeBytes_length]; omega)]
    have e1 : (a + 4).toNat = a.toNat + (le32 v.pattern).length := by
      have : (le32 v.pattern).length = 4 := rfl
      omega
    rw [e1, storeBytes_append]
    simp only [List.length_cons, Nat.cast_add, Nat.cast_one, encodeAll]
    congr 2
    omega

/-- The encoding of two runs of scalars. -/
theorem encodeAll_append (xs ys : List NestedData) :
    encodeAll (xs ++ ys) = encodeAll xs ++ encodeAll ys := by
  induction xs with
  | nil => rfl
  | cons x rest ih =>
    show le32 x.pattern ++ encodeAll (rest ++ ys) = le32 x.pattern ++ encodeAll rest ++ encodeAll ys
    rw [ih, List.append_assoc]

/-- The column loop of a matrix over well-shaped columns writes the encodings of all
entries one after the other, without padding between the columns. -/
theorem packColumns_scalars (p : PackingType) (k : Kind) (hp : (p, k) ∈ primitives)
    (nRows : Nat) (columns : List NestedData) : ∀ (i : Nat) (a : Int) (buffer : Buffer),
    (∀ c ∈ columns, ∃ cells, c = .vector cells ∧ cells.length = nRows ∧
      ∀ v ∈ cells, v.scalarKind = some k) → 0 ≤ a →
    a + 4 * ((nRows : Int) * (columns.length : Int)) ≤ (buffer.length : Int) →
    packColumns (fun o v b => pack p o v b) i columns a buffer
      = (.ok (a + 4 * ((nRows : Int) * (columns.length : Int))),
          storeBytes buffer a.toNat (encodeAll (columnCells columns))) := by
  induction columns with
  | nil =>
    intro i a buffer _ _ _
    simp [packColumns, columnCells, encodeAll, storeBytes]
  | cons c rest ih =>
    intro i a buffer hall h0 hlen
    obtain ⟨cells, rfl, hclen, hcells⟩ := hall c (List.mem_cons_self _ _)
    have hmul : (nRows : Int) * (((NestedData.vector cells :: rest).length : Nat) : Int)
        = (nRows : Int) + (nRows : Int) * (rest.length : Int) := by
      simp only [List.length_cons]; push_cast; ring
    rw [hmul] at hlen ⊢
    have hnn : (0 : Int) ≤ (nRows : Int) * (rest.length : Int) :=
      Int.mul_nonneg (Int.ofNat_nonneg _) (Int.ofNat_nonneg _)
    have hcl : (cells.length : Int) = (nRows : Int) := by omega
    rw [packColumns]
    rw [packCells_scalars p k hp i cells 0 a buffer hcells h0 (by omega)]
    simp only
    rw [ih (i + 1) (a + 4 * (cells.length : Int)) _
      (fun w hw => hall w (List.mem_cons_of_mem _ hw)) (by omega)
      (by rw [storeBytes_length]; omega)]
    have e1 : (a + 4 * (cells.length : Int)).toNat = a.toNat + (encodeAll cells).length := by
      rw [encodeAll_length]; omega
    rw [e1, storeBytes_append, columnCells, encodeAll_append]
    congr 2
    omega

/-! ## `pack` on regular descriptors -/

/-- The member loop of `Struct::pack` when every field type packs well: the running
offset stays between the aligned start `a0` of the struct and the running offset of
the constructor, and only bytes of `[a0, a0 + off)` change, where `off` is the offset the
constructor ends at. -/
theorem packMembers_regular (values : List (String × NestedData)) (a0 : Int)
    (members : List (String × PackingType)) :
    ∀ (al c alEnd off p : Int) (buffer : Buffer),
    (∀ m ∈ members, PacksWell m.2) →
    (∀ m ∈ members, 0 ≤ m.2.size ∧ 0 < m.2.alignment) →
    (∀ m ∈ members, m.2.alignment ∣ a0) →
    matchesMembers members values = true →
    structLayout members al c = some (alEnd, off) →
    0 ≤ a0 → a0 ≤ p → p ≤ a0 + c → a0 + off ≤ (buffer.length : Int) →
    ∃ p1 buffer1, packMembers members values p buffer = (.ok p1, buffer1) ∧
      a0 ≤ p1 ∧ p1 ≤ a0 + off ∧ buffer1.length = buffer.length ∧
      ∀ j : Nat, ((j : Int) < a0 ∨ a0 + off ≤ (j : Int)) → buffer1[j]? = buffer[j]? := by
  induction members with
  | nil =>
    intro al c alEnd off p buffer _ _ _ _ hlayout _ hp1 hp2 _
    simp only [structLayout, Option.some.injEq, Prod.mk.injEq] at hlayout
    refine ⟨p, buffer, by rw [packMembers], hp1, by omega, rfl, fun _ _ => rfl⟩
  | cons member rest ih =>
    intro al c alEnd off p buffer hwell hpos hdvd hmatch hlayout ha0 hp1 hp2 hlen
    obtain ⟨key, ty⟩ := member
    have hty : 0 ≤ ty.size ∧ 0 < ty.alignment := hpos (key, ty) (List.mem_cons_self _ _)
    have hwellTy : PacksWell ty := hwell (key, ty) (List.mem_cons_self _ _)
    have hdvdTy : ty.alignment ∣ a0 := hdvd (key, ty) (List.mem_cons_self _ _)
    have hposRest : ∀ m ∈ rest, 0 ≤ m.2.size ∧ 0 < m.2.alignment :=
      fun m hm => hpos m (List.mem_cons_of_mem _ hm)
    rw [matchesMembers] at hmatch
    cases hfind : mapFind values key with
    | none => simp [hfind] at hmatch
    | some mv =>
      simp only [hfind, Bool.and_eq_true] at hmatch
      rw [structLayout, alignOffset_pos c ty.alignment hty.2] at hlayout
      simp only at hlayout
      obtain ⟨-, hoff, -⟩ := structLayout_mono rest _ _ _ _ hlayout hposRest
      obtain ⟨hs1, hs2⟩ := startOf_bounds ty a0 c p hty.2 hdvdTy hp2
      obtain ⟨he1, he2⟩ := endOf_bounds ty p hty.1 hs1
      obtain ⟨buffer1, hpack, hlen1, hframe1⟩ := hwellTy p mv buffer hmatch.1 (by omega)
        (by omega)
      obtain ⟨p2, buffer2, hloop, hq1, hq2, hlen2, hframe2⟩ := ih _ _ alEnd off (ty.endOf p)
        buffer1 (fun m hm => hwell m (List.mem_cons_of_mem _ hm)) hposRest
        (fun m hm => hdvd m (List.mem_cons_of_mem _ hm)) hmatch.2 hlayout ha0 (by omega)
        (by omega) (by rw [hlen1]; exact hlen)
      refine ⟨p2, buffer2, ?_, hq1, hq2, by rw [hlen2, hlen1], ?_⟩
      · rw [packMembers_cons_found key ty rest values mv p buffer hfind, hpack]
        exact hloop
      · intro j hj
        rw [hframe2 j hj, hframe1 j (by omega)]

/-- Every regular descriptor packs well: for a matching value and a buffer that holds
its `size` bytes, `pack` returns, keeps the length of the buffer and changes no byte
outside `[startOf, startOf + size)`. -/
theorem pack_regular (t : PackingType) (h : Regular t) : PacksWell t := by
  induction h with
  | primitive p k hp =>
    intro o v buffer hmatch h0 hlen
    obtain ⟨hsz, -⟩ := primitive_size p k hp
    have hs : p.startOf o = o := by
      simp only [primitives, List.mem_cons, Prod.mk.injEq, List.mem_singleton,
        List.not_mem_nil, or_false] at hp
      rcases hp with ⟨rfl, rfl⟩ | ⟨rfl, rfl⟩ | ⟨rfl, rfl⟩ <;> rfl
    have he : p.endOf o = o + 4 := by
      simp only [primitives, List.mem_cons, Prod.mk.injEq, List.mem_singleton,
        List.not_mem_nil, or_false] at hp
      rcases hp with ⟨rfl, rfl⟩ | ⟨rfl, rfl⟩ | ⟨rfl, rfl⟩ <;> rfl
    rw [hs, hsz] at hlen
    rw [hs, hsz, he]
    refine ⟨_, pack_primitive_ok p k hp v o buffer ((matchesShape_primitive p k hp v).mp hmatch)
      h0 hlen, storeBytes_length _ _ _, ?_⟩
    intro i hi
    exact storeBytes_outside (le32 v.pattern) buffer o.toNat i
      (by have : (le32 v.pattern).length = 4 := rfl; omega)
  | vector p k n alignment hp hn hal =>
    intro o v buffer hmatch h0 hlen
    obtain ⟨hsz, -⟩ := primitive_size p k hp
    have hstart : (mkVectorType p n alignment).startOf o = o + (-o) % alignment := rfl
    have hend : (mkVectorType p n alignment).endOf o = o + (-o) % alignment + p.size * n := rfl
    have hsize : (mkVectorType p n alignment).size = p.size * n := rfl
    rw [hstart, hsize, hsz] at hlen
    rw [hstart, hsize, hend, hsz]
    have hge := alignUp_ge o alignment hal
    cases v with
    | vector values =>
      simp only [mkVectorType, matchesShape, Bool.and_eq_true, decide_eq_true_eq,
        List.all_eq_true] at hmatch
      obtain ⟨hcount, hall⟩ := hmatch
      have hall2 : ∀ v ∈ values, v.scalarKind = some k :=
        fun v hv => (matchesShape_primitive p k hp v).mp (hall v hv)
      have hrun := packElements_scalars p k hp values 0 (o + (-o) % alignment) buffer hall2
        (by omega) (by rw [hcount]; exact hlen)
      refine ⟨storeBytes buffer (o + (-o) % alignment).toNat (encodeAll values), ?_,
        storeBytes_length _ _ _, ?_⟩
      · rw [mkVectorType, pack]
        simp only [hcount, ne_eq, not_true_eq_false, if_false, alignOffset_pos o alignment hal]
        rw [hrun, hcount]
      · intro i hi
        exact storeBytes_outside (encodeAll values) buffer _ i
          (by rw [encodeAll_length]; omega)
    | int32 x => simp [mkVectorType, matchesShape] at hmatch
    | uint32 x => simp [mkVectorType, matchesShape] at hmatch
    | float x => simp [mkVectorType, matchesShape] at hmatch
    | map x => simp [mkVectorType, matchesShape] at hmatch
  | array type t n hreg hn hexact hmk ih =>
    intro o v buffer hmatch h0 hlen
    obtain ⟨hsz, hal⟩ := regular_size_alignment type hreg
    obtain ⟨stride, rfl, -, hle, hdvd⟩ := regular_array_form type t n hsz hal hexact hmk
    have hstart : (PackingType.StaticArray (n * stride) type.alignment type n stride).startOf o
        = o + (-o) % type.alignment := rfl
    have hend : (PackingType.StaticArray (n * stride) type.alignment type n stride).endOf o
        = o + (-o) % type.alignment + n * stride := rfl
    have hsize : (PackingType.StaticArray (n * stride) type.alignment type n stride).size
        = n * stride := rfl
    rw [hstart, hsize] at hlen
    rw [hstart, hsize, hend]
    have hge := alignUp_ge o type.alignment hal
    cases v with
    | vector values =>
      simp only [matchesShape, Bool.and_eq_true, decide_eq_true_eq, List.all_eq_true] at hmatch
      obtain ⟨hcount, hall⟩ := hmatch
      obtain ⟨buffer1, hloop, hlen1, hframe⟩ := packElements_aligned type ih hsz stride hle hdvd
        values 0 (o + (-o) % type.alignment) buffer hall (by omega)
        (alignUp_dvd o type.alignment) (by rw [hcount]; exact hlen)
      rw [hcount] at hloop hframe
      refine ⟨buffer1, ?_, hlen1, hframe⟩
      rw [pack]
      simp only [hcount, ne_eq, not_true_eq_false, if_false, alignOffset_pos o _ hal]
      exact hloop
    | int32 x => simp [matchesShape] at hmatch
    | uint32 x => simp [matchesShape] at hmatch
    | float x => simp [matchesShape] at hmatch
    | map x => simp [matchesShape] at hmatch
  | struct members t alignment offset hreg hdvd hlayout hexact hmk ih =>
    intro o v buffer hmatch h0 hlen
    have hpos : ∀ m ∈ members, 0 ≤ m.2.size ∧ 0 < m.2.alignment :=
      fun m hm => regular_size_alignment m.2 (hreg m hm)
    obtain ⟨size, rfl, hal, hoff, hle, -⟩ :=
      regular_struct_form members t alignment offset hpos hlayout hexact hmk
    have hstart : (PackingType.Struct size alignment members).startOf o
        = o + (-o) % alignment := rfl
    have hend : (PackingType.Struct size alignment members).endOf o = o + size := rfl
    have hsize : (PackingType.Struct size alignment members).size = size := rfl
    rw [hstart, hsize] at hlen
    rw [hstart, hsize, hend]
    have hge := alignUp_ge o alignment hal
    cases v with
    | map values =>
      simp only [matchesShape, Bool.and_eq_true, decide_eq_true_eq] at hmatch
      obtain ⟨hcount, hmem⟩ := hmatch
      obtain ⟨p1, buffer1, hloop, hp1, hp2, hlen1, hframe⟩ := packMembers_regular values
        (o + (-o) % alignment) members 0 0 alignment offset (o + (-o) % alignment) buffer ih
        hpos (fun m hm => Int.dvd_trans (hdvd m hm) (alignUp_dvd o alignment)) hmem hlayout
        (by omega) (le_refl _) (by omega) (by omega)
      refine ⟨buffer1, ?_, hlen1, ?_⟩
      · rw [pack_struct_eq size alignment members values o _ buffer hcount
          (alignOffset_pos o alignment hal), hloop]
        simp only [Prod.mk.injEq, Outcome.ok.injEq, and_true]
        omega
      · intro j hj
        exact hframe j (by omega)
    | int32 x => simp [matchesShape] at hmatch
    | uint32 x => simp [matchesShape] at hmatch
    | float x => simp [matchesShape] at hmatch
    | vector x => simp [matchesShape] at hmatch
  | matrix p k nRows nColumns t hp hn hmk =>
    intro o v buffer hmatch h0 hlen
    have hrows : nRows = 2 ∨ nRows = 3 ∨ nRows = 4 := by
      by_contra hcon
      have h2 : nRows ≠ 2 := fun h => hcon (Or.inl h)
      have h3 : nRows ≠ 3 := fun h => hcon (Or.inr (Or.inl h))
      have h4 : nRows ≠ 4 := fun h => hcon (Or.inr (Or.inr h))
      simp [mkMatrixType, h2, h3, h4] at hmk
    rw [mkMatrixType_primitive p k hp nRows nColumns hrows] at hmk
    simp only [Construction.built.injEq] at hmk
    subst hmk
    generalize hA : (if nRows = 2 then (8 : Int) else 16) = A at *
    have hA4 : 4 * nRows ≤ A := by rw [← hA]; split <;> omega
    have hal : 0 < A := by omega
    have hstart : (PackingType.MatrixType (nColumns * A) A p nRows nColumns).startOf o
        = o + (-o) % A := rfl
    have hend : (PackingType.MatrixType (nColumns * A) A p nRows nColumns).endOf o
        = o + (-o) % A + nColumns * A := rfl
    have hsize : (PackingType.MatrixType (nColumns * A) A p nRows nColumns).size
        = nColumns * A := rfl
    rw [hstart, hsize] at hlen
    rw [hstart, hsize, hend]
    have hge := alignUp_ge o A hal
    have hr0 : 0 ≤ nRows := by omega
    have hbytes : 4 * (nRows * nColumns) ≤ nColumns * A := by
      have := Int.mul_le_mul_of_nonneg_left hA4 hn
      have e : nColumns * (4 * nRows) = 4 * (nRows * nColumns) := by ring
      omega
    cases v with
    | vector columns =>
      simp only [matchesShape, Bool.and_eq_true, decide_eq_true_eq, List.all_eq_true] at hmatch
      obtain ⟨hcount, hall⟩ := hmatch
      have hcols : ∀ c ∈ columns, ∃ cells, c = .vector cells ∧ cells.length = nRows.toNat ∧
          ∀ v ∈ cells, v.scalarKind = some k := by
        intro c hc
        have := hall c hc
        cases c with
        | vector cells =>
          simp only [Bool.and_eq_true, decide_eq_true_eq, List.all_eq_true] at this
          exact ⟨cells, rfl, by omega,
            fun v hv => (matchesShape_primitive p k hp v).mp (this.2 v hv)⟩
        | int32 x => simp at this
        | uint32 x => simp at this
        | float x => simp at this
        | map x => simp at this
      have hrn : ((nRows.toNat : Nat) : Int) = nRows := Int.toNat_of_nonneg hr0
      have hrun := packColumns_scalars p k hp nRows.toNat columns 0 (o + (-o) % A) buffer hcols
        (by omega) (by rw [hrn, hcount]; omega)
      refine ⟨storeBytes buffer (o + (-o) % A).toNat (encodeAll (columnCells columns)), ?_,
        storeBytes_length _ _ _, ?_⟩
      · rw [pack]
        simp only [hcount, ne_eq, not_true_eq_false, if_false, alignOffset_pos o A hal]
        rw [hrun]
      · intro i hi
        have hcl : (encodeAll (columnCells columns)).length = (4 * (nRows * nColumns)).toNat := by
          have hlenCells : ∀ cs : List NestedData, (∀ c ∈ cs, ∃ cells, c = .vector cells ∧
              cells.length = nRows.toNat ∧ ∀ v ∈ cells, v.scalarKind = some k) →
              (columnCells cs).length = nRows.toNat * cs.length := by
            intro cs
            induction cs with
            | nil => intro _; rfl
            | cons c rest ihc =>
              intro hcs
              obtain ⟨cells, rfl, hl, -⟩ := hcs c (List.mem_cons_self _ _)
              rw [columnCells, List.length_append, hl,
                ihc (fun w hw => hcs w (List.mem_cons_of_mem _ hw)), List.length_cons]
              ring
          rw [encodeAll_length, hlenCells columns hcols]
          have : ((nRows.toNat * columns.length : Nat) : Int) = nRows * nColumns := by
            push_cast; rw [hrn, hcount]
          omega
        have hnn : 0 ≤ 4 * (nRows * nColumns) := by
          have := Int.mul_nonneg hr0 hn
          omega
        exact storeBytes_outside (encodeAll (columnCells columns)) buffer _ i
          (by rw [hcl]; omega)
    | int32 x => simp [matchesShape] at hmatch
    | uint32 x => simp [matchesShape] at hmatch
    | float x => simp [matchesShape] at hmatch
    | map x => simp [matchesShape] at hmatch

/-! ## Lemmas on the loops of `unpack` -/

/-- The element loop of `unpack` for a static array whose element type unpacks well:
entered at a multiple of the alignment, it reads element `j` at `a + j * stride`. -/
theorem unpackElements_aligned (type : PackingType) (hT : UnpacksWell type)
    (hsize : 0 ≤ type.size) (stride : Int) (hle : type.size ≤ stride)
    (hdvd : type.alignment ∣ stride) (buffer : Buffer) (count : Nat) :
    ∀ (a : Int) (acc : List NestedData), 0 ≤ a → type.alignment ∣ a →
    a + (count : Int) * stride ≤ (buffer.length : Int) →
    ∃ values, unpackElements (fun o b => unpack type o b) (stride - type.size) buffer count a acc
        = some (a + (count : Int) * stride, acc ++ values) ∧
      values.length = count ∧
      ∀ j : Nat, j < count → ∃ v, unpack type (a + (j : Int) * stride) buffer
          = some (a + (j : Int) * stride + type.size, v) ∧ values[j]? = some v := by
  induction count with
  | zero =>
    intro a acc _ _ _
    exact ⟨[], by simp [unpackElements], rfl, fun j hj => absurd hj (by omega)⟩
  | succ c ih =>
    intro a acc h0 ha hlen
    have hc0 : (0 : Int) ≤ (c : Int) * stride :=
      Int.mul_nonneg (Int.ofNat_nonneg _) (le_trans hsize hle)
    have hexp : ((c + 1 : Nat) : Int) * stride = stride + (c : Int) * stride := by
      push_cast; ring
    rw [hexp] at hlen ⊢
    have hs := startOf_aligned type a ha
    have he := endOf_aligned type a ha
    obtain ⟨v, hv⟩ := hT a buffer h0 (by rw [hs]; omega)
    rw [he] at hv
    obtain ⟨rest, hrest, hrlen, hcells⟩ := ih (a + stride) (acc ++ [v]) (by omega)
      (Int.dvd_add ha hdvd) (by omega)
    refine ⟨v :: rest, ?_, by simp [hrlen], ?_⟩
    · unfold unpackElements
      simp only [hv]
      have e : a + type.size + (stride - type.size) = a + stride := by omega
      rw [e, hrest]
      simp only [List.append_assoc, List.singleton_append, Option.some.injEq, Prod.mk.injEq,
        and_true]
      omega
    · intro j hj
      cases j with
      | zero =>
        refine ⟨v, ?_, by simp⟩
        simp only [Nat.cast_zero, Int.zero_mul, Int.add_zero]
        exact hv
      | succ j =>
        obtain ⟨w, hw, hget⟩ := hcells j (by omega)
        refine ⟨w, ?_, by simpa using hget⟩
        have e : a + ((j + 1 : Nat) : Int) * stride = a + stride + (j : Int) * stride := by
          push_cast; ring
        rw [e]
        exact hw

/-- The member loop of `Struct::unpack` when every field type unpacks well; the running
offset obeys the bounds of `packMembers_regular`. -/
theorem unpackMembers_regular (buffer : Buffer) (a0 : Int)
    (members : List (String × PackingType)) :
    ∀ (al c alEnd off p : Int) (acc : List (String × NestedData)),
    (∀ m ∈ members, UnpacksWell m.2) →
    (∀ m ∈ members, 0 ≤ m.2.size ∧ 0 < m.2.alignment) →
    (∀ m ∈ members, m.2.alignment ∣ a0) →
    structLayout members al c = some (alEnd, off) →
    0 ≤ a0 → a0 ≤ p → p ≤ a0 + c → a0 + off ≤ (buffer.length : Int) →
    ∃ p1 values, unpackMembers members p buffer acc = some (p1, values) ∧
      a0 ≤ p1 ∧ p1 ≤ a0 + off := by
  induction members with
  | nil =>
    intro al c alEnd off p acc _ _ _ hlayout _ hp1 hp2 _
    simp only [structLayout, Option.some.injEq, Prod.mk.injEq] at hlayout
    exact ⟨p, acc, by rw [unpackMembers], hp1, by omega⟩
  | cons member rest ih =>
    intro al c alEnd off p acc hwell hpos hdvd hlayout ha0 hp1 hp2 hlen
    obtain ⟨key, ty⟩ := member
    have hty : 0 ≤ ty.size ∧ 0 < ty.alignment := hpos (key, ty) (List.mem_cons_self _ _)
    have hwellTy : UnpacksWell ty := hwell (key, ty) (List.mem_cons_self _ _)
    have hdvdTy : ty.alignment ∣ a0 := hdvd (key, ty) (List.mem_cons_self _ _)
    have hposRest : ∀ m ∈ rest, 0 ≤ m.2.size ∧ 0 < m.2.alignment :=
      fun m hm => hpos m (List.mem_cons_of_mem _ hm)
    rw [structLayout, alignOffset_pos c ty.alignment hty.2] at hlayout
    simp only at hlayout
    obtain ⟨-, hoff, -⟩ := structLayout_mono rest _ _ _ _ hlayout hposRest
    obtain ⟨hs1, hs2⟩ := startOf_bounds ty a0 c p hty.2 hdvdTy hp2
    obtain ⟨he1, he2⟩ := endOf_bounds ty p hty.1 hs1
    obtain ⟨v, hv⟩ := hwellTy p buffer (by omega) (by omega)
    obtain ⟨p2, values, hloop, hq1, hq2⟩ := ih _ _ alEnd off (ty.endOf p)
      (mapAssign acc key v) (fun m hm => hwell m (List.mem_cons_of_mem _ hm)) hposRest
      (fun m hm => hdvd m (List.mem_cons_of_mem _ hm)) hlayout ha0 (by omega) (by omega) hlen
    refine ⟨p2, values, ?_, hq1, hq2⟩
    rw [unpackMembers]
    simp only [hv]
    exact hloop

/-- Every regular descriptor unpacks well: from a buffer that holds its `size` bytes
`unpack` returns the offset `endOf` and a value. -/
theorem unpack_regular (t : PackingType) (h : Regular t) : UnpacksWell t := by
  induction h with
  | primitive p k hp =>
    intro o buffer h0 hlen
    obtain ⟨hsz, -⟩ := primitive_size p k hp
    have hs : p.startOf o = o := by
      simp only [primitives, List.mem_cons, Prod.mk.injEq, List.mem_singleton,
        List.not_mem_nil, or_false] at hp
      rcases hp with ⟨rfl, rfl⟩ | ⟨rfl, rfl⟩ | ⟨rfl, rfl⟩ <;> rfl
    have he : p.endOf o = o + 4 := by
      simp only [primitives, List.mem_cons, Prod.mk.injEq, List.mem_singleton,
        List.not_mem_nil, or_false] at hp
      rcases hp with ⟨rfl, rfl⟩ | ⟨rfl, rfl⟩ | ⟨rfl, rfl⟩ <;> rfl
    rw [hs, hsz] at hlen
    rw [he]
    obtain ⟨v, hv, -⟩ := unpack_primitive_ok p k hp o buffer h0 hlen
    exact ⟨v, hv⟩
  | vector p k n alignment hp hn hal =>
    intro o buffer h0 hlen
    obtain ⟨hsz, -⟩ := primitive_size p k hp
    have hstart : (mkVectorType p n alignment).startOf o = o + (-o) % alignment := rfl
    have hend : (mkVectorType p n alignment).endOf o = o + (-o) % alignment + p.size * n := rfl
    have hsize : (mkVectorType p n alignment).size = p.size * n := rfl
    rw [hstart, hsize, hsz] at hlen
    rw [hend, hsz]
    have hge := alignUp_ge o alignment hal
    have hnn : ((n.toNat : Nat) : Int) = n := Int.toNat_of_nonneg hn
    obtain ⟨values, hrun, -, -⟩ := unpackElements_scalars p k hp buffer n.toNat
      (o + (-o) % alignment) [] (by omega) (by rw [hnn]; exact hlen)
    refine ⟨.vector values, ?_⟩
    rw [mkVectorType, unpack]
    simp only [alignOffset_pos o alignment hal, hrun, hnn, List.nil_append]
  | array type t n hreg hn hexact hmk ih =>
    intro o buffer h0 hlen
    obtain ⟨hsz, hal⟩ := regular_size_alignment type hreg
    obtain ⟨stride, rfl, -, hle, hdvd⟩ := regular_array_form type t n hsz hal hexact hmk
    have hstart : (PackingType.StaticArray (n * stride) type.alignment type n stride).startOf o
        = o + (-o) % type.alignment := rfl
    have hend : (PackingType.StaticArray (n * stride) type.alignment type n stride).endOf o
        = o + (-o) % type.alignment + n * stride := rfl
    have hsize : (PackingType.StaticArray (n * stride) type.alignment type n stride).size
        = n * stride := rfl
    rw [hstart, hsize] at hlen
    rw [hend]
    have hge := alignUp_ge o type.alignment hal
    have hnn : ((n.toNat : Nat) : Int) = n := Int.toNat_of_nonneg hn
    obtain ⟨values, hrun, -, -⟩ := unpackElements_aligned type ih hsz stride hle hdvd buffer
      n.toNat (o + (-o) % type.alignment) [] (by omega) (alignUp_dvd o type.alignment)
      (by rw [hnn]; exact hlen)
    refine ⟨.vector values, ?_⟩
    rw [unpack]
    simp only [alignOffset_pos o _ hal, hrun, hnn, List.nil_append]
  | struct members t alignment offset hreg hdvd hlayout hexact hmk ih =>
    intro o buffer h0 hlen
    have hpos : ∀ m ∈ members, 0 ≤ m.2.size ∧ 0 < m.2.alignment :=
      fun m hm => regular_size_alignment m.2 (hreg m hm)
    obtain ⟨size, rfl, hal, hoff, hle, -⟩ :=
      regular_struct_form members t alignment offset hpos hlayout hexact hmk
    have hstart : (PackingType.Struct size alignment members).startOf o
        = o + (-o) % alignment := rfl
    have hend : (PackingType.Struct size alignment members).endOf o = o + size := rfl
    have hsize : (PackingType.Struct size alignment members).size = size := rfl
    rw [hstart, hsize] at hlen
    rw [hend]
    have hge := alignUp_ge o alignment hal
    obtain ⟨p1, values, hloop, -, -⟩ := unpackMembers_regular buffer (o + (-o) % alignment)
      members 0 0 alignment offset (o + (-o) % alignment) [] ih hpos
      (fun m hm => Int.dvd_trans (hdvd m hm) (alignUp_dvd o alignment)) hlayout
      (by omega) (le_refl _) (by omega) (by omega)
    refine ⟨.map values, ?_⟩
    rw [unpack]
    simp only [alignOffset_pos o alignment hal, hloop, Option.some.injEq, Prod.mk.injEq,
      and_true]
    omega
  | matrix p k nRows nColumns t hp hn hmk =>
    intro o buffer h0 hlen
    have hrows : nRows = 2 ∨ nRows = 3 ∨ nRows = 4 := by
      by_contra hcon
      have h2 : nRows ≠ 2 := fun h => hcon (Or.inl h)
      have h3 : nRows ≠ 3 := fun h => hcon (Or.inr (Or.inl h))
      have h4 : nRows ≠ 4 := fun h => hcon (Or.inr (Or.inr h))
      simp [mkMatrixType, h2, h3, h4] at hmk
    rw [mkMatrixType_primitive p k hp nRows nColumns hrows] at hmk
    simp only [Construction.built.injEq] at hmk
    subst hmk
    generalize hA : (if nRows = 2 then (8 : Int) else 16) = A at *
    have hA4 : 4 * nRows ≤ A := by rw [← hA]; split <;> omega
    have hal : 0 < A := by omega
    have hstart : (PackingType.MatrixType (nColumns * A) A p nRows nColumns).startOf o
        = o + (-o) % A := rfl
    have hend : (PackingType.MatrixType (nColumns * A) A p nRows nColumns).endOf o
        = o + (-o) % A + nColumns * A := rfl
    have hsize : (PackingType.MatrixType (nColumns * A) A p nRows nColumns).size
        = nColumns * A := rfl
    rw [hstart, hsize] at hlen
    rw [hend]
    have hge := alignUp_ge o A hal
    have hr0 : 0 ≤ nRows := by omega
    have hbytes : 4 * (nRows * nColumns) ≤ nColumns * A := by
      have := Int.mul_le_mul_of_nonneg_left hA4 hn
      have e : nColumns * (4 * nRows) = 4 * (nRows * nColumns) := by ring
      omega
    have hrn : ((nRows.toNat : Nat) : Int) = nRows := Int.toNat_of_nonneg hr0
    have hcn : ((nColumns.toNat : Nat) : Int) = nColumns := Int.toNat_of_nonneg hn
    obtain ⟨columns, hrun, -, -⟩ := unpackColumns_scalars p k hp buffer nRows.toNat
      nColumns.toNat (o + (-o) % A) [] (by omega) (by rw [hrn, hcn]; omega)
    rw [hrn, hcn] at hrun
    refine ⟨.vector columns, ?_⟩
    rw [unpack]
    simp only [alignOffset_pos o A hal, hrun, List.nil_append, Option.some.injEq,
      Prod.mk.injEq, and_true]
    show o + (-o) % A + 4 * (nRows * nColumns) + (nColumns * A
      - (o + (-o) % A + 4 * (nRows * nColumns) - (o + (-o) % A))) = o + (-o) % A + nColumns * A
    omega

/-! ## Matrices (C11 to C13) -/

/-- Claim C11, evaluated where the code breaks it.  `MatrixType(f32, 3, 2)` and
`StaticArray(vec3(f32), 2)` are both constructed with size 32 and alignment 16, and both
return offset 32 for the value `[[1.0, 2.0, 3.0], [4.0, 5.0, 6.0]]` packed at offset 0
into 32 zero bytes; but the array writes the second column at bytes `[16, 28)` (stride
16) and the matrix writes it at bytes `[12, 24)`, directly behind the first. -/
theorem C11_matrix_columns_not_padded :
    mkMatrixType f32 3 2 = .built (.MatrixType 32 16 f32 3 2) ∧
    mkStaticArray (vec3 f32) 2 = some (.StaticArray 32 16 (vec3 f32) 2 16) ∧
    pack (.StaticArray 32 16 (vec3 f32) 2 16) 0
        (.vector [.vector [.float 0x3F800000, .float 0x40000000, .float 0x40400000],
          .vector [.float 0x40800000, .float 0x40A00000, .float 0x40C00000]])
        (List.replicate 32 0)
      = (.ok 32, [0x00, 0x00, 0x80, 0x3F, 0x00, 0x00, 0x00, 0x40, 0x00, 0x00, 0x40, 0x40,
          0, 0, 0, 0,
          0x00, 0x00, 0x80, 0x40, 0x00, 0x00, 0xA0, 0x40, 0x00, 0x00, 0xC0, 0x40,
          0, 0, 0, 0]) ∧
    pack (.MatrixType 32 16 f32 3 2) 0
        (.vector [.vector [.float 0x3F800000, .float 0x40000000, .float 0x40400000],
          .vector [.float 0x40800000, .float 0x40A00000, .float 0x40C00000]])
        (List.replicate 32 0)
      = (.ok 32, [0x00, 0x00, 0x80, 0x3F, 0x00, 0x00, 0x00, 0x40, 0x00, 0x00, 0x40, 0x40,
          0x00, 0x00, 0x80, 0x40, 0x00, 0x00, 0xA0, 0x40, 0x00, 0x00, 0xC0, 0x40,
          0, 0, 0, 0, 0, 0, 0, 0]) :=
  ⟨rfl, rfl, rfl, rfl⟩

/-- Claim C12, evaluated where the code breaks it.  `MatrixType(f32, 2, 1)` has size 8.
`pack` accepts the one-column value `[[1.0, 2.0, 3.0]]`, whose column has three entries
instead of two: it returns offset 8 and has written the third scalar to bytes `[8, 12)`,
beyond `startOffset + size`.  It also accepts the short column `[[1.0]]`. -/
theorem C12_column_length_unchecked :
    mkMatrixType f32 2 1 = .built (.MatrixType 8 8 f32 2 1) ∧
    pack (.MatrixType 8 8 f32 2 1) 0
        (.vector [.vector [.float 0x3F800000, .float 0x40000000, .float 0x40400000]])
        (List.replicate 12 0)
      = (.ok 8, [0x00, 0x00, 0x80, 0x3F, 0x00, 0x00, 0x00, 0x40, 0x00, 0x00, 0x40, 0x40]) ∧
    pack (.MatrixType 8 8 f32 2 1) 0 (.vector [.vector [.float 0x3F800000]])
        (List.replicate 12 0)
      = (.ok 8, [0x00, 0x00, 0x80, 0x3F, 0, 0, 0, 0, 0, 0, 0, 0]) :=
  ⟨rfl, rfl, rfl⟩

/-- Claim C13.  Let the two `int` products of the constructor be values of `int` when
`nRows` is 2, 3 or 4: the size `base.size * nRows` of the column vector and the size
`nColumns * stride` of the static array, where `stride` is what `roundUp` returns.  Then
the `MatrixType` constructor throws `std::invalid_argument` exactly when `nRows` is not
2, 3 or 4.  When it returns, the alignment of the matrix is 8 for two rows and 16 for
three or four, and its size is the size of the static array of `nColumns` vectors
`VectorType(base, nRows, alignment)`, that is
`nColumns * roundUp(base.size * nRows, alignment)`; and it returns whenever that call of
`roundUp` has a defined result. -/
theorem C13_matrix_construction (base : PackingType) (nRows nColumns : Int)
    (hfits : (nRows = 2 ∨ nRows = 3 ∨ nRows = 4) →
      fitsInt (base.size * nRows) = true ∧
      ∀ stride, roundUp (base.size * nRows) (if nRows = 2 then 8 else 16) = some stride →
        fitsInt (nColumns * stride) = true) :
    ((∃ r, mkMatrixType base nRows nColumns = .invalidArgument r) ↔
      ¬ (nRows = 2 ∨ nRows = 3 ∨ nRows = 4)) ∧
    (∀ m, mkMatrixType base nRows nColumns = .built m →
      m.alignment = (if nRows = 2 then 8 else 16) ∧
      ∃ arr stride, mkStaticArray (mkVectorType base nRows m.alignment) nColumns = some arr ∧
        m.size = arr.size ∧
        roundUp (base.size * nRows) m.alignment = some stride ∧
        m.size = nColumns * stride) ∧
    ((nRows = 2 ∨ nRows = 3 ∨ nRows = 4) →
      ∀ stride, roundUp (base.size * nRows) (if nRows = 2 then 8 else 16) = some stride →
        mkMatrixType base nRows nColumns
          = .built (.MatrixType (nColumns * stride) (if nRows = 2 then 8 else 16) base nRows
              nColumns)) := by
  refine ⟨?_, ?_, ?_⟩
  · constructor
    · rintro ⟨r, h⟩ hrows
      rcases hrows with rfl | rfl | rfl
      · cases hm : mkStaticArray (vec2 base) nColumns <;> simp [mkMatrixType, hm] at h
      · cases hm : mkStaticArray (vec3 base) nColumns <;> simp [mkMatrixType, hm] at h
      · cases hm : mkStaticArray (vec4 base) nColumns <;> simp [mkMatrixType, hm] at h
    · intro hrows
      refine ⟨nRows, ?_⟩
      have h2 : nRows ≠ 2 := fun h => hrows (Or.inl h)
      have h3 : nRows ≠ 3 := fun h => hrows (Or.inr (Or.inl h))
      have h4 : nRows ≠ 4 := fun h => hrows (Or.inr (Or.inr h))
      simp [mkMatrixType, h2, h3, h4]
  · intro m h
    obtain ⟨vecType, arrayType, hrows, harr, rfl⟩ := mkMatrixType_eq base nRows nColumns m h
    obtain ⟨stride, hstride, harrEq⟩ := mkStaticArray_eq vecType nColumns arrayType harr
    rcases hrows with ⟨rfl, rfl⟩ | ⟨rfl, rfl⟩ | ⟨rfl, rfl⟩
    · exact ⟨rfl, arrayType, stride, harr, rfl, hstride, by rw [harrEq]; rfl⟩
    · exact ⟨rfl, arrayType, stride, harr, rfl, hstride, by rw [harrEq]; rfl⟩
    · exact ⟨rfl, arrayType, stride, harr, rfl, hstride, by rw [harrEq]; rfl⟩
  · intro hrows stride hstride
    rcases hrows with rfl | rfl | rfl
    · have h : roundUp (vec2 base).size (vec2 base).alignment = some stride := hstride
      simp only [mkMatrixType, mkStaticArray, h]
      rfl
    · have h : roundUp (vec3 base).size (vec3 base).alignment = some stride := hstride
      simp only [mkMatrixType, mkStaticArray, h]
      rfl
    · have h : roundUp (vec4 base).size (vec4 base).alignment = some stride := hstride
      simp only [mkMatrixType, mkStaticArray, h]
      rfl

/-- Witness of C13: `MatrixType(f32, 3, 3)`, whose products are 12 and 48, is constructed
with size 48 and alignment 16. -/
theorem C13_witness :
    fitsInt (f32.size * 3) = true ∧ roundUp (f32.size * 3) 16 = some 16 ∧
    fitsInt (3 * 16) = true ∧
    mkMatrixType f32 3 3 = .built (.MatrixType (3 * 16) 16 f32 3 3) :=
  have h16 : roundUp (f32.size * 3) (if (3 : Int) = 2 then 8 else 16) = some 16 := by decide
  ⟨by decide, h16, by decide,
    (C13_matrix_construction f32 3 3 (fun _ => ⟨by decide, fun stride h => by
      rw [h16] at h
      cases h
      decide⟩)).2.2 (Or.inr (Or.inl rfl)) 16 h16⟩

/-! ## Buffer bounds (C14) -/

/-- Counterexample to C14 as stated.  The struct
`{v: vec2(f32), x: f32, w: VectorType(f32, 1, 3)}` is constructed with size 16 and
alignment 8 (the largest field alignment), and `StaticArray` of two of them with size 32.
Packing a matching value at offset 0 into a buffer of 32 bytes writes the second `w` at
offset 30 (the first multiple of 3 from 28 on), past the end of the buffer. -/
theorem C14_field_alignment_counterexample :
    mkStruct [("v", vec2 f32), ("x", f32), ("w", mkVectorType f32 1 3)]
      = some (.Struct 16 8 [("v", vec2 f32), ("x", f32), ("w", mkVectorType f32 1 3)]) ∧
    mkStaticArray (.Struct 16 8 [("v", vec2 f32), ("x", f32), ("w", mkVectorType f32 1 3)]) 2
      = some (.StaticArray 32 8
          (.Struct 16 8 [("v", vec2 f32), ("x", f32), ("w", mkVectorType f32 1 3)]) 2 16) ∧
    matchesShape
      (.StaticArray 32 8
        (.Struct 16 8 [("v", vec2 f32), ("x", f32), ("w", mkVectorType f32 1 3)]) 2 16)
      (.vector [.map [("v", .vector [.float 1, .float 2]), ("x", .float 3),
          ("w", .vector [.float 4])],
        .map [("v", .vector [.float 5, .float 6]), ("x", .float 7),
          ("w", .vector [.float 8])]]) = true ∧
    (pack
      (.StaticArray 32 8
        (.Struct 16 8 [("v", vec2 f32), ("x", f32), ("w", mkVectorType f32 1 3)]) 2 16) 0
      (.vector [.map [("v", .vector [.float 1, .float 2]), ("x", .float 3),
          ("w", .vector [.float 4])],
        .map [("v", .vector [.float 5, .float 6]), ("x", .float 7),
          ("w", .vector [.float 8])]])
      (List.replicate 32 0)).1 = .undefined :=
  ⟨rfl, rfl, rfl, rfl⟩

/-- Claim C14, amended.  For every regular descriptor (vector and matrix bases
primitive, field alignments dividing the alignment of their struct, sizes below `2^24`)
and every value matching its shape, `pack` at offset 0 into a buffer of at least `size`
bytes returns `size`; in particular it returns on a buffer of exactly `size` bytes, where
any access outside `[0, size)` would be out of range.  It keeps the length of the buffer
and every byte from index `size` on. -/
theorem C14_regular_pack_in_bounds (t : PackingType) (hreg : Regular t) (v : NestedData)
    (hmatch : matchesShape t v = true) (buffer : Buffer)
    (hlen : t.size ≤ (buffer.length : Int)) :
    ∃ buffer1, pack t 0 v buffer = (.ok t.size, buffer1) ∧
      buffer1.length = buffer.length ∧
      ∀ i : Nat, t.size ≤ (i : Int) → buffer1[i]? = buffer[i]? := by
  have hs : t.startOf 0 = 0 := startOf_aligned t 0 (Int.dvd_zero _)
  have he : t.endOf 0 = 0 + t.size := endOf_aligned t 0 (Int.dvd_zero _)
  obtain ⟨buffer1, hpack, hlen1, hframe⟩ := pack_regular t hreg 0 v buffer hmatch (le_refl _)
    (by rw [hs]; omega)
  rw [he, Int.zero_add] at hpack
  rw [hs] at hframe
  exact ⟨buffer1, hpack, hlen1, fun i hi => hframe i (Or.inr (by omega))⟩

/-- Witness of C14: the struct `{position: vec3(f32), scale: vec2(f32)}` packed into a
buffer of exactly 32 bytes. -/
theorem C14_witness :
    Regular (.Struct 32 16 [("position", vec3 f32), ("scale", vec2 f32)]) ∧
    ∃ buffer1,
      pack (.Struct 32 16 [("position", vec3 f32), ("scale", vec2 f32)]) 0
          (.map [("position", .vector [.float 0x3F800000, .float 0x40000000,
              .float 0x40400000]),
            ("scale", .vector [.float 0x40800000, .float 0x40A00000])])
          (List.replicate 32 0)
        = (.ok (PackingType.Struct 32 16 [("position", vec3 f32), ("scale", vec2 f32)]).size,
            buffer1) ∧
      buffer1.length = (List.replicate 32 0 : Buffer).length ∧
      ∀ i : Nat,
        (PackingType.Struct 32 16 [("position", vec3 f32), ("scale", vec2 f32)]).size
          ≤ (i : Int) →
        buffer1[i]? = (List.replicate 32 0 : Buffer)[i]? :=
  have hreg : Regular (.Struct 32 16 [("position", vec3 f32), ("scale", vec2 f32)]) :=
    Regular.struct [("position", vec3 f32), ("scale", vec2 f32)] _ 16 24
      (by
        intro m hm
        simp only [List.mem_cons, List.mem_singleton, List.not_mem_nil, or_false] at hm
        rcases hm with rfl | rfl
        · exact Regular.vector f32 Kind.float 3 16 (by simp [primitives]) (by decide)
            (by decide)
        · exact Regular.vector f32 Kind.float 2 8 (by simp [primitives]) (by decide)
            (by decide))
      (by
        intro m hm
        simp only [List.mem_cons, List.mem_singleton, List.not_mem_nil, or_false] at hm
        rcases hm with rfl | rfl <;> decide)
      rfl (by decide) rfl
  ⟨hreg, C14_regular_pack_in_bounds _ hreg
    (.map [("position", .vector [.float 0x3F800000, .float 0x40000000, .float 0x40400000]),
      ("scale", .vector [.float 0x40800000, .float 0x40A00000])])
    rfl (List.replicate 32 0) (by decide)⟩

/-! ## Static arrays (C15) -/

/-- The list from index `i` on starts with entry `i`. -/
theorem drop_of_getElem (values : List NestedData) : ∀ (i : Nat) (v : NestedData),
    values[i]? = some v → values.drop i = v :: values.drop (i + 1) ∧ i < values.length := by
  induction values with
  | nil => intro i v h; simp at h
  | cons w rest ih =>
    intro i v h
    cases i with
    | zero =>
      simp only [List.getElem?_cons_zero, Option.some.injEq] at h
      subst h
      simp
    | succ i =>
      simp only [List.getElem?_cons_succ] at h
      obtain ⟨h1, h2⟩ := ih i v h
      simp only [List.drop_succ_cons, List.length_cons]
      exact ⟨h1, by omega⟩

/-- Counterexample to C15 as stated.  The element type `VectorType(vec3(f32), 2, 16)` has
size 24 and alignment 16, and `StaticArray` of two of them has stride 32 and size 64.  Its
`pack` at offset 0 leaves element 0 at offset 28 (the second `vec3` is aligned to 16), so
element 1 is handed to the element type at offset 36, not 32, and `pack` returns 84, not
64.  The scalars are given by their bit patterns. -/
theorem C15_vector_of_vectors_counterexample :
    0 < (mkVectorType (vec3 f32) 2 16).alignment ∧
    mkStaticArray (mkVectorType (vec3 f32) 2 16) 2
      = some (.StaticArray 64 16 (mkVectorType (vec3 f32) 2 16) 2 32) ∧
    matchesShape (.StaticArray 64 16 (mkVectorType (vec3 f32) 2 16) 2 32)
      (.vector [.vector [.vector [.float 1, .float 2, .float 3],
          .vector [.float 4, .float 5, .float 6]],
        .vector [.vector [.float 7, .float 8, .float 9],
          .vector [.float 10, .float 11, .float 12]]]) = true ∧
    (packElements (fun o v b => pack (mkVectorType (vec3 f32) 2 16) o v b) (32 - 24) 0
      [.vector [.vector [.float 1, .float 2, .float 3], .vector [.float 4, .float 5, .float 6]]]
      0 (List.replicate 96 0)).1 = .ok 36 ∧
    (pack (.StaticArray 64 16 (mkVectorType (vec3 f32) 2 16) 2 32) 0
      (.vector [.vector [.vector [.float 1, .float 2, .float 3],
          .vector [.float 4, .float 5, .float 6]],
        .vector [.vector [.float 7, .float 8, .float 9],
          .vector [.float 10, .float 11, .float 12]]])
      (List.replicate 96 0)).1 = .ok 84 :=
  ⟨by decide, rfl, rfl, rfl, rfl⟩

/-- Claim C15, amended.  Let the element type `type` be regular with
`size + alignment ≤ 2^24`, let `values` be `n` values matching it, `stride` the least
multiple of `type.alignment` not below `type.size` and `a` the offset `o ≥ 0` rounded up
to `type.alignment`, and let the buffer hold `n * stride` bytes from `a` on.  Then
`roundUp(type.size, type.alignment)` is `stride`; `StaticArray(type, n)` has this stride,
size `n * stride` and the alignment of `type`; its `pack` at `o` reaches element `i` at
offset `a + i * stride`, hands it to the `pack` of `type` there, continues at
`a + (i + 1) * stride` and returns `a + n * stride`; its `unpack` at `o` reads element `i`
with the `unpack` of `type` at `a + i * stride` and returns `a + n * stride`. -/
theorem C15_static_array_stride (type : PackingType) (hreg : Regular type)
    (hexact : type.size + type.alignment ≤ 16777216) (values : List NestedData)
    (hvalues : ∀ v ∈ values, matchesShape type v = true) (o : Int) (h0 : 0 ≤ o)
    (buffer : Buffer)
    (hlen : o + (-o) % type.alignment + (values.length : Int)
      * ((type.size + type.alignment - 1) / type.alignment * type.alignment)
      ≤ (buffer.length : Int)) :
    ∃ stride a arr,
      stride = (type.size + type.alignment - 1) / type.alignment * type.alignment ∧
      a = o + (-o) % type.alignment ∧
      roundUp type.size type.alignment = some stride ∧
      alignOffset o type.alignment = some a ∧
      mkStaticArray type values.length = some arr ∧
      arr = .StaticArray ((values.length : Int) * stride) type.alignment type values.length
        stride ∧
      (∀ (i : Nat) (v : NestedData), values[i]? = some v → ∃ bufferI bufferNext,
        packElements (fun o v b => pack type o v b) (stride - type.size) 0 (values.take i) a
            buffer = (.ok (a + (i : Int) * stride), bufferI) ∧
        pack type (a + (i : Int) * stride) v bufferI
          = (.ok (a + (i : Int) * stride + type.size), bufferNext) ∧
        pack arr o (.vector values) buffer
          = packElements (fun o v b => pack type o v b) (stride - type.size) (i + 1)
              (values.drop (i + 1)) (a + ((i : Int) + 1) * stride) bufferNext) ∧
      (∃ buffer1, pack arr o (.vector values) buffer
        = (.ok (a + (values.length : Int) * stride), buffer1)) ∧
      (∃ unpacked, unpack arr o buffer
          = some (a + (values.length : Int) * stride, .vector unpacked) ∧
        unpacked.length = values.length ∧
        ∀ i : Nat, i < values.length → ∃ v, unpack type (a + (i : Int) * stride) buffer
            = some (a + (i : Int) * stride + type.size, v) ∧ unpacked[i]? = some v) := by
  obtain ⟨hsz, hal⟩ := regular_size_alignment type hreg
  have hround := roundUp_exact type.size type.alignment hsz hal hexact
  have hmk : mkStaticArray type values.length
      = some (.StaticArray ((values.length : Int)
          * ((type.size + type.alignment - 1) / type.alignment * type.alignment))
          type.alignment type values.length
          ((type.size + type.alignment - 1) / type.alignment * type.alignment)) := by
    simp only [mkStaticArray, hround]
  obtain ⟨hle, hdvd⟩ := ceilMultiple_bounds type.size type.alignment hal
  generalize (type.size + type.alignment - 1) / type.alignment * type.alignment = stride at *
  have hst0 : 0 ≤ stride := le_trans hsz hle
  have ha0 : 0 ≤ o + (-o) % type.alignment := le_trans h0 (alignUp_ge o type.alignment hal)
  have hda := alignUp_dvd o type.alignment
  have halign : alignOffset o type.alignment = some (o + (-o) % type.alignment) :=
    alignOffset_pos o type.alignment hal
  generalize o + (-o) % type.alignment = a at *
  have hpackEq : pack (.StaticArray ((values.length : Int) * stride) type.alignment type
      values.length stride) o (.vector values) buffer
      = packElements (fun o v b => pack type o v b) (stride - type.size) 0 values a buffer := by
    rw [pack]
    simp only [ne_eq, not_true_eq_false, if_false, halign]
  have hwell := pack_regular type hreg
  refine ⟨stride, a, _, rfl, rfl, hround, halign, hmk, rfl, ?_, ?_, ?_⟩
  · intro i v hi
    obtain ⟨hdrop, hilt⟩ := drop_of_getElem values i v hi
    have hv : matchesShape type v = true := hvalues v
      (List.mem_of_mem_drop (by rw [hdrop]; exact List.mem_cons_self _ _))
    have htake : (values.take i).length = i := by
      rw [List.length_take]; omega
    have hmul : ((i : Int) + 1) * stride ≤ (values.length : Int) * stride :=
      Int.mul_le_mul_of_nonneg_right (by omega) hst0
    have hmul2 : ((i : Int) + 1) * stride = (i : Int) * stride + stride := by ring
    have hi0 : 0 ≤ (i : Int) * stride := Int.mul_nonneg (Int.ofNat_nonneg _) hst0
    obtain ⟨bufferI, hprefix, hlenI, -⟩ := packElements_aligned type hwell hsz stride hle hdvd
      (values.take i) 0 a buffer (fun w hw => hvalues w (List.mem_of_mem_take hw)) ha0 hda
      (by rw [htake]; omega)
    rw [htake] at hprefix
    have hdi : type.alignment ∣ a + (i : Int) * stride :=
      Int.dvd_add hda (Dvd.dvd.mul_left hdvd _)
    obtain ⟨bufferNext, hpackI, -, -⟩ := hwell (a + (i : Int) * stride) v bufferI hv (by omega)
      (by rw [startOf_aligned type _ hdi, hlenI]; omega)
    rw [endOf_aligned type _ hdi] at hpackI
    refine ⟨bufferI, bufferNext, hprefix, hpackI, ?_⟩
    rw [hpackEq]
    conv_lhs => rw [← List.take_append_drop i values]
    rw [packElements_append, hprefix]
    simp only [htake, Nat.zero_add]
    rw [hdrop, packElements]
    simp only [hpackI]
    congr 1
    omega
  · obtain ⟨buffer1, hloop, -, -⟩ := packElements_aligned type hwell hsz stride hle hdvd values
      0 a buffer hvalues ha0 hda hlen
    exact ⟨buffer1, by rw [hpackEq, hloop]⟩
  · have hnn : (((values.length : Nat) : Int)).toNat = values.length := by omega
    obtain ⟨unpacked, hrun, hlength, hcells⟩ := unpackElements_aligned type
      (unpack_regular type hreg) hsz stride hle hdvd buffer values.length a [] ha0 hda hlen
    refine ⟨unpacked, ?_, hlength, hcells⟩
    rw [unpack]
    simp only [halign, hnn, hrun, List.nil_append]

/-- Witness of C15: two `vec3(f32)` values in `StaticArray(vec3(f32), 2)` at offset 0 of a
32-byte buffer; the stride is 16, and `pack` and `unpack` both return 32. -/
theorem C15_witness :
    Regular (vec3 f32) ∧
    roundUp (vec3 f32).size (vec3 f32).alignment = some 16 ∧
    mkStaticArray (vec3 f32) 2 = some (.StaticArray 32 16 (vec3 f32) 2 16) ∧
    (∃ buffer1, pack (.StaticArray 32 16 (vec3 f32) 2 16) 0
      (.vector [.vector [.float 0x3F800000, .float 0x40000000, .float 0x40400000],
        .vector [.float 0x40800000, .float 0x40A00000, .float 0x40C00000]])
      (List.replicate 32 0) = (.ok 32, buffer1)) ∧
    (∃ unpacked, unpack (.StaticArray 32 16 (vec3 f32) 2 16) 0 (List.replicate 32 0)
      = some (32, .vector unpacked) ∧ unpacked.length = 2) := by
  have hreg : Regular (vec3 f32) :=
    Regular.vector f32 Kind.float 3 16 (by simp [primitives]) (by decide) (by decide)
  obtain ⟨stride, a, arr, hs, ha, hr, -, hmk, harr, -, hfinal, hunpack⟩ :=
    C15_static_array_stride (vec3 f32) hreg (by decide)
      [.vector [.float 0x3F800000, .float 0x40000000, .float 0x40400000],
        .vector [.float 0x40800000, .float 0x40A00000, .float 0x40C00000]]
      (by
        intro v hv
        simp only [List.mem_cons, List.mem_singleton, List.not_mem_nil, or_false] at hv
        rcases hv with rfl | rfl <;> rfl)
      0 (by decide) (List.replicate 32 0) (by decide)
  have hs16 : stride = 16 := hs
  have ha0 : a = 0 := ha
  subst hs16 ha0 harr
  obtain ⟨unpacked, hu, hl, -⟩ := hunpack
  exact ⟨hreg, hr, hmk, hfinal, unpacked, hu, hl⟩

/-! ## Final offsets (C16) -/

/-- On the descriptors of `Regular`, entered at a multiple of the alignment with a matching
value and a buffer that holds `size` bytes from there, `pack` and `unpack` both return
`o + size`. -/
theorem regular_final_offsets (t : PackingType) (hreg : Regular t) (v : NestedData)
    (hmatch : matchesShape t v = true) (o : Int) (h0 : 0 ≤ o) (hdvd : t.alignment ∣ o)
    (buffer : Buffer) (hlen : o + t.size ≤ (buffer.length : Int)) :
    (∃ buffer1, pack t o v buffer = (.ok (o + t.size), buffer1)) ∧
    ∃ w, unpack t o buffer = some (o + t.size, w) := by
  have hstart := startOf_aligned t o hdvd
  have hend := endOf_aligned t o hdvd
  obtain ⟨buffer1, hpack, -, -⟩ := pack_regular t hreg o v buffer hmatch h0
    (by rw [hstart]; exact hlen)
  obtain ⟨w, hunpack⟩ := unpack_regular t hreg o buffer h0 (by rw [hstart]; exact hlen)
  rw [hend] at hpack hunpack
  exact ⟨⟨buffer1, hpack⟩, w, hunpack⟩

/-- Claim C16 fails at `StaticArray(VectorType(f32, 1, 16777217), 2)`.  The constructor
computes the stride `roundUp(4, 16777217)` in binary32 as 16777216, which is not a multiple
of the alignment 16777217, and the size as 33554432.  At offset 0, a multiple of the
alignment, with the matching value `[[x], [y]]` and a buffer of at least 16777221 bytes,
`pack` succeeds: element 1 is entered at 16777216, aligned to 16777217 and written there,
and `pack` returns 33554433, which is not `0 + size`; `unpack` returns 33554433 as well. -/
theorem C16_array_final_offset_drifts (x y : Nat) (buffer : Buffer)
    (hlen : 16777221 ≤ buffer.length) :
    mkStaticArray (mkVectorType f32 1 16777217) 2
      = some (.StaticArray 33554432 16777217 (mkVectorType f32 1 16777217) 2 16777216) ∧
    matchesShape (.StaticArray 33554432 16777217 (mkVectorType f32 1 16777217) 2 16777216)
      (.vector [.vector [.float x], .vector [.float y]]) = true ∧
    (PackingType.StaticArray 33554432 16777217 (mkVectorType f32 1 16777217) 2
      16777216).alignment ∣ (0 : Int) ∧
    (∃ buffer1, pack (.StaticArray 33554432 16777217 (mkVectorType f32 1 16777217) 2 16777216)
      0 (.vector [.vector [.float x], .vector [.float y]]) buffer
        = (.ok 33554433, buffer1)) ∧
    (∃ v, unpack (.StaticArray 33554432 16777217 (mkVectorType f32 1 16777217) 2 16777216)
      0 buffer = some (33554433, v)) ∧
    (33554433 : Int)
      ≠ 0 + (PackingType.StaticArray 33554432 16777217 (mkVectorType f32 1 16777217) 2
        16777216).size := by
  have hreg : Regular (mkVectorType f32 1 16777217) :=
    Regular.vector f32 Kind.float 1 16777217 (by simp [primitives]) (by decide) (by decide)
  have hwell := pack_regular _ hreg
  have hread := unpack_regular _ hreg
  have hlen0 : (16777221 : Int) ≤ (buffer.length : Int) := by exact_mod_cast hlen
  obtain ⟨buffer1, hpack0, hlen1, -⟩ := hwell 0 (.vector [.float x]) buffer rfl (by decide)
    (by
      show (0 : Int) + (-0) % 16777217 + 4 ≤ _
      omega)
  obtain ⟨buffer2, hpack1, -, -⟩ := hwell 16777216 (.vector [.float y]) buffer1 rfl (by decide)
    (by
      show (16777216 : Int) + (-16777216) % 16777217 + 4 ≤ _
      rw [hlen1]
      omega)
  obtain ⟨v0, hunpack0⟩ := hread 0 buffer (by decide)
    (by
      show (0 : Int) + (-0) % 16777217 + 4 ≤ _
      omega)
  obtain ⟨v1, hunpack1⟩ := hread 16777216 buffer (by decide)
    (by
      show (16777216 : Int) + (-16777216) % 16777217 + 4 ≤ _
      omega)
  have hend0 : (mkVectorType f32 1 16777217).endOf 0 = 4 := by decide
  have hend1 : (mkVectorType f32 1 16777217).endOf 16777216 = 16777221 := by decide
  rw [hend0] at hpack0 hunpack0
  rw [hend1] at hpack1 hunpack1
  have halign : alignOffset 0 16777217 = some 0 := by
    rw [alignOffset_pos 0 16777217 (by decide)]
    rfl
  refine ⟨?_, rfl, ⟨0, by decide⟩, ⟨buffer2, ?_⟩, ⟨.vector [v0, v1], ?_⟩, by decide⟩
  · have hround : roundUp (mkVectorType f32 1 16777217).size
        (mkVectorType f32 1 16777217).alignment = some 16777216 := by decide
    simp only [mkStaticArray, hround]
    rfl
  · rw [pack]
    simp only [List.length_cons, List.length_nil, halign]
    simp only [packElements, hpack0]
    have e : (4 : Int) + (16777216 - (mkVectorType f32 1 16777217).size) = 16777216 := by
      decide
    rw [e]
    simp only [hpack1]
    rfl
  · rw [unpack]
    simp only [halign]
    have e2 : ((2 : Int)).toNat = 2 := rfl
    rw [e2]
    simp only [unpackElements, hunpack0]
    have e : (4 : Int) + (16777216 - (mkVectorType f32 1 16777217).size) = 16777216 := by
      decide
    rw [e]
    simp only [hunpack1]
    rfl

/-- Witness of C16's failing input: a buffer of 16777221 zero bytes. -/
theorem C16_witness :
    (∃ buffer1, pack (.StaticArray 33554432 16777217 (mkVectorType f32 1 16777217) 2 16777216)
      0 (.vector [.vector [.float 0x3F800000], .vector [.float 0x40000000]])
      (List.replicate 16777221 0) = (.ok 33554433, buffer1)) ∧
    (33554433 : Int)
      ≠ 0 + (PackingType.StaticArray 33554432 16777217 (mkVectorType f32 1 16777217) 2
        16777216).size :=
  have h := C16_array_final_offset_drifts 0x3F800000 0x40000000 (List.replicate 16777221 0)
    (by rw [List.length_replicate])
  ⟨h.2.2.2.1, h.2.2.2.2.2⟩

/-! ## A failed vector pack (C17) -/

/-- Claim C17.  Let a vector descriptor have a primitive base and let the sequence, of
the declared length, hold matching scalars at the indices below `i` and something else
at index `i`.  With the alignment loop defined and the buffer holding the first `i`
elements, `pack` throws the error of the base wrapped as "Error packing value i"; the
encodings of elements `0 .. i-1` stand at `alignedStart + 4*j`, every byte before
`alignedStart` and from `alignedStart + 4*i` on is unchanged, and the buffer differs from
the one before the call as soon as one written byte differs from the old one. -/
theorem C17_failed_vector_pack (p : PackingType) (k : Kind) (hp : (p, k) ∈ primitives)
    (size alignment n : Int) (pre : List NestedData) (bad : NestedData)
    (post : List NestedData) (offset aligned : Int) (buffer : Buffer)
    (hcount : ((pre ++ bad :: post).length : Int) = n)
    (hpre : ∀ v ∈ pre, v.scalarKind = some k) (hbad : bad.scalarKind ≠ some k)
    (halign : alignOffset offset alignment = some aligned) (h0 : 0 ≤ aligned)
    (hlen : aligned + 4 * (pre.length : Int) ≤ (buffer.length : Int)) :
    ∃ buffer1,
      pack (.VectorType size alignment p n) offset (.vector (pre ++ bad :: post)) buffer
        = (.throws (.atIndex pre.length (.expected k)), buffer1) ∧
      buffer1.length = buffer.length ∧
      (∀ j v, pre[j]? = some v → ∀ b, b < 4 →
        buffer1[aligned.toNat + 4 * j + b]? = (le32 v.pattern)[b]?) ∧
      (∀ idx : Nat, (idx < aligned.toNat ∨ aligned.toNat + 4 * pre.length ≤ idx) →
        buffer1[idx]? = buffer[idx]?) ∧
      ((∃ j v b, pre[j]? = some v ∧ b < 4 ∧
          buffer[aligned.toNat + 4 * j + b]? ≠ (le32 v.pattern)[b]?) → buffer1 ≠ buffer) := by
  have hrun := packElements_scalars_bad p k hp pre bad post 0 aligned buffer hpre hbad h0 hlen
  have hpack : pack (.VectorType size alignment p n) offset (.vector (pre ++ bad :: post))
      buffer = (.throws (.atIndex pre.length (.expected k)),
        storeBytes buffer aligned.toNat (encodeAll pre)) := by
    rw [pack]
    simp only [hcount, ne_eq, not_true_eq_false, if_false, halign]
    rw [hrun, Nat.zero_add]
  have hwritten : ∀ j v, pre[j]? = some v → ∀ b, b < 4 →
      (storeBytes buffer aligned.toNat (encodeAll pre))[aligned.toNat + 4 * j + b]?
        = (le32 v.pattern)[b]? := by
    intro j v hj b hb
    have hjlt : j < pre.length := by
      by_contra hcon
      rw [List.getElem?_eq_none (by omega)] at hj
      exact absurd hj (by simp)
    have hin := storeBytes_inside (encodeAll pre) buffer aligned.toNat (4 * j + b)
      (by rw [encodeAll_length]; omega) (by rw [encodeAll_length]; omega)
    rw [Nat.add_assoc, hin]
    exact encodeAll_getElem pre j v hj b hb
  refine ⟨_, hpack, storeBytes_length _ _ _, hwritten, ?_, ?_⟩
  · intro idx hidx
    exact storeBytes_outside (encodeAll pre) buffer aligned.toNat idx
      (by rw [encodeAll_length]; exact hidx)
  · rintro ⟨j, v, b, hj, hb, hne⟩ heq
    apply hne
    rw [← hwritten j v hj b hb, heq]

/-- Witness of C17: `vec3(f32)` is handed `[1.0, int32 7, 3.0]` at offset 4 of a 32-byte
buffer; the first element is written at 16, the second is refused. -/
theorem C17_witness :
    ∃ buffer1,
      pack (.VectorType 12 16 f32 3) 4
          (.vector ([.float 0x3F800000] ++ .int32 7 :: [.float 0x40400000]))
          (List.replicate 32 0)
        = (.throws (.atIndex ([NestedData.float 0x3F800000] : List NestedData).length
            (.expected Kind.float)), buffer1) ∧
      buffer1.length = (List.replicate 32 0 : Buffer).length ∧
      (∀ j v, ([NestedData.float 0x3F800000] : List NestedData)[j]? = some v → ∀ b, b < 4 →
        buffer1[(16 : Int).toNat + 4 * j + b]? = (le32 v.pattern)[b]?) ∧
      (∀ idx : Nat, (idx < (16 : Int).toNat ∨
          (16 : Int).toNat + 4 * ([NestedData.float 0x3F800000] : List NestedData).length
            ≤ idx) →
        buffer1[idx]? = (List.replicate 32 0 : Buffer)[idx]?) ∧
      ((∃ j v b, ([NestedData.float 0x3F800000] : List NestedData)[j]? = some v ∧ b < 4 ∧
          (List.replicate 32 0 : Buffer)[(16 : Int).toNat + 4 * j + b]?
            ≠ (le32 v.pattern)[b]?) → buffer1 ≠ List.replicate 32 0) :=
  C17_failed_vector_pack f32 Kind.float (by simp [primitives]) 12 16 3
    [.float 0x3F800000] (.int32 7) [.float 0x40400000] 4 16 (List.replicate 32 0)
    (by decide) (by simp [NestedData.scalarKind]) (by simp [NestedData.scalarKind])
    (by decide) (by decide) (by decide)

/-! ## Matrix unpack (C18) -/

/-- Claim C19, evaluated where the code breaks it.  `roundUp(16777217, 1)` is 16777216,
which is below its argument: `static_cast<float>(16777217)` is `16777216.0f`.  Likewise
`roundUp(67108868, 4)` is 67108864 although 4 divides 67108868.  The alignment loop gives
16777217 and 67108868. -/
theorem C19_roundUp_loses_precision :
    roundUp 16777217 1 = some 16777216 ∧ alignOffset 16777217 1 = some 16777217 ∧
    roundUp 67108868 4 = some 67108864 ∧ alignOffset 67108868 4 = some 67108868 := by
  decide

/-! ## Atomic shape errors (C20) -/

/-- Claim C20.  When the value handed to the `pack` of a vector, static array or matrix
is not a sequence, or the value handed to the `pack` of a struct is not a mapping, or the
number of top-level entries differs from the declared count, `pack` throws and the buffer
it leaves is the buffer it was given. -/
theorem C20_shape_errors_atomic (size alignment n stride nRows : Int) (inner : PackingType)
    (members : List (String × PackingType)) (value : NestedData) (offset : Int)
    (buffer : Buffer) :
    ((∀ values, value ≠ .vector values) →
      pack (.VectorType size alignment inner n) offset value buffer
        = (.throws (.expected .array), buffer) ∧
      pack (.StaticArray size alignment inner n stride) offset value buffer
        = (.throws (.expected .array), buffer) ∧
      pack (.MatrixType size alignment inner nRows n) offset value buffer
        = (.throws (.expected .array), buffer)) ∧
    ((∀ values, value ≠ .map values) →
      pack (.Struct size alignment members) offset value buffer
        = (.throws (.expected .object), buffer)) ∧
    (∀ values : List NestedData, value = .vector values → (values.length : Int) ≠ n →
      pack (.VectorType size alignment inner n) offset value buffer
        = (.throws (.expectedCount n "values" values.length), buffer) ∧
      pack (.StaticArray size alignment inner n stride) offset value buffer
        = (.throws (.expectedCount n "values" values.length), buffer) ∧
      pack (.MatrixType size alignment inner nRows n) offset value buffer
        = (.throws (.expectedCount n "columns" values.length), buffer)) ∧
    (∀ values : List (String × NestedData), value = .map values →
      values.length ≠ members.length →
      pack (.Struct size alignment members) offset value buffer
        = (.throws (.expectedCount members.length "values" values.length), buffer)) := by
  refine ⟨?_, ?_, ?_, ?_⟩
  · intro h
    cases value with
    | vector values => exact absurd rfl (h values)
    | int32 v => exact ⟨by simp [pack], by simp [pack], by simp [pack]⟩
    | uint32 v => exact ⟨by simp [pack], by simp [pack], by simp [pack]⟩
    | float v => exact ⟨by simp [pack], by simp [pack], by simp [pack]⟩
    | map values => exact ⟨by simp [pack], by simp [pack], by simp [pack]⟩
  · intro h
    cases value with
    | map values => exact absurd rfl (h values)
    | int32 v => simp [pack]
    | uint32 v => simp [pack]
    | float v => simp [pack]
    | vector values => simp [pack]
  · rintro values rfl h
    refine ⟨?_, ?_, ?_⟩ <;> simp [pack, h]
  · rintro values rfl h
    simp [pack, h]

/-! ## Lemmas on reading back what `pack` wrote -/

/-- Four bytes that hold the little-endian encoding of `p` load as `p mod 2^32`. -/
theorem load32_of_bytes (buffer : Buffer) (i p : Nat)
    (h : ∀ b, b < 4 → buffer[i + b]? = (le32 p)[b]?) :
    load32 buffer i = some (p % 4294967296) := by
  have h0 := h 0 (by omega)
  have h1 := h 1 (by omega)
  have h2 := h 2 (by omega)
  have h3 := h 3 (by omega)
  simp only [le32, Nat.add_zero, List.getElem?_cons_zero, List.getElem?_cons_succ] at h0 h1 h2 h3
  unfold load32
  rw [h0, h1, h2, h3]
  simp only [Option.some.injEq]
  omega

/-- A primitive reads back a valid scalar of its kind from the four bytes that encode
it. -/
theorem unpack_primitive_bytes (p : PackingType) (k : Kind) (hp : (p, k) ∈ primitives)
    (v : NestedData) (hk : v.scalarKind = some k) (hv : v.validScalar = true) (o : Int)
    (h0 : 0 ≤ o) (buffer : Buffer)
    (h : ∀ b, b < 4 → buffer[o.toNat + b]? = (le32 v.pattern)[b]?) :
    unpack p o buffer = some (o + 4, v) := by
  have hload := load32_of_bytes buffer o.toNat v.pattern h
  simp only [primitives, List.mem_cons, Prod.mk.injEq, List.mem_singleton, List.not_mem_nil,
    or_false] at hp
  rcases hp with ⟨rfl, rfl⟩ | ⟨rfl, rfl⟩ | ⟨rfl, rfl⟩
  · cases v <;> simp [NestedData.scalarKind] at hk
    rename_i x
    simp only [NestedData.validScalar, decide_eq_true_eq] at hv
    simp only [NestedData.pattern] at hload
    simp only [unpack, i32, unpackScalar, h0, if_true, hload]
    rw [int32OfPattern_pattern x hv.1 hv.2]
  · cases v <;> simp [NestedData.scalarKind] at hk
    rename_i x
    simp only [NestedData.validScalar, decide_eq_true_eq] at hv
    simp only [NestedData.pattern] at hload
    simp only [unpack, u32, unpackScalar, h0, if_true, hload]
    have e : x % 4294967296 % 4294967296 = x := by omega
    rw [e]
  · cases v <;> simp [NestedData.scalarKind] at hk
    rename_i x
    simp only [NestedData.validScalar, decide_eq_true_eq] at hv
    simp only [NestedData.pattern] at hload
    simp only [unpack, f32, unpackScalar, h0, if_true, hload]
    have e : x % 4294967296 % 4294967296 = x := by omega
    rw [e]

/-- The element loop of `unpack` over a primitive reads back a run of valid scalars from
the bytes that encode them. -/
theorem unpackElements_bytes (p : PackingType) (k : Kind) (hp : (p, k) ∈ primitives)
    (buffer : Buffer) (values : List NestedData) : ∀ (a : Int) (acc : List NestedData),
    (∀ v ∈ values, v.scalarKind = some k ∧ v.validScalar = true) → 0 ≤ a →
    (∀ j, j < 4 * values.length → buffer[a.toNat + j]? = (encodeAll values)[j]?) →
    unpackElements (fun o b => unpack p o b) 0 buffer values.length a acc
      = some (a + 4 * (values.length : Int), acc ++ values) := by
  induction values with
  | nil =>
    intro a acc _ _ _
    simp [unpackElements]
  | cons v rest ih =>
    intro a acc hall h0 hbytes
    obtain ⟨hk, hv⟩ := hall v (List.mem_cons_self _ _)
    have hfirst : unpack p a buffer = some (a + 4, v) := by
      apply unpack_primitive_bytes p k hp v hk hv a h0 buffer
      intro b hb
      rw [hbytes b (by simp only [List.length_cons]; omega)]
      have := encodeAll_getElem (v :: rest) 0 v (by simp) b hb
      simpa using this
    simp only [List.length_cons, unpackElements, hfirst]
    have hrest := ih (a + 4) (acc ++ [v]) (fun w hw => hall w (List.mem_cons_of_mem _ hw))
      (by omega) (by
        intro j hj
        have e : (a + 4).toNat + j = a.toNat + (4 + j) := by omega
        rw [e, hbytes (4 + j) (by simp only [List.length_cons]; omega)]
        show (le32 v.pattern ++ encodeAll rest)[4 + j]? = _
        rw [List.getElem?_append_right (by simp [le32])]
        simp [le32])
    rw [Int.add_zero, hrest]
    simp only [List.append_assoc, List.singleton_append, Nat.cast_add, Nat.cast_one,
      Option.some.injEq, Prod.mk.injEq, and_true]
    omega

/-- The column loop of `unpack` over a primitive reads back the columns of a matrix value
from the bytes that encode their entries one after the other. -/
theorem unpackColumns_bytes (p : PackingType) (k : Kind) (hp : (p, k) ∈ primitives)
    (buffer : Buffer) (nRows : Nat) (columns : List NestedData) :
    ∀ (a : Int) (acc : List NestedData),
    (∀ c ∈ columns, ∃ cells, c = .vector cells ∧ cells.length = nRows ∧
      ∀ v ∈ cells, v.scalarKind = some k ∧ v.validScalar = true) → 0 ≤ a →
    (∀ j, j < 4 * (nRows * columns.length) →
      buffer[a.toNat + j]? = (encodeAll (columnCells columns))[j]?) →
    unpackColumns (fun o b => unpack p o b) nRows buffer columns.length a acc
      = some (a + 4 * ((nRows : Int) * (columns.length : Int)), acc ++ columns) := by
  induction columns with
  | nil =>
    intro a acc _ _ _
    simp [unpackColumns]
  | cons c rest ih =>
    intro a acc hall h0 hbytes
    obtain ⟨cells, rfl, hclen, hcells⟩ := hall _ (List.mem_cons_self _ _)
    have hlenEnc : (encodeAll cells).length = 4 * nRows := by rw [encodeAll_length, hclen]
    have hmul : nRows * (NestedData.vector cells :: rest).length
        = nRows + nRows * rest.length := by
      simp only [List.length_cons]; ring
    rw [hmul] at hbytes
    have hfirst := unpackElements_bytes p k hp buffer cells a [] hcells h0 (by
      intro j hj
      rw [hclen] at hj
      rw [hbytes j (by omega), columnCells, encodeAll_append,
        List.getElem?_append_left (by omega)])
    rw [hclen] at hfirst
    have hrest := ih (a + 4 * (nRows : Int)) (acc ++ [.vector cells])
      (fun w hw => hall w (List.mem_cons_of_mem _ hw)) (by omega) (by
        intro j hj
        have e : (a + 4 * (nRows : Int)).toNat + j = a.toNat + (4 * nRows + j) := by omega
        rw [e, hbytes (4 * nRows + j) (by omega), columnCells, encodeAll_append,
          List.getElem?_append_right (by omega), hlenEnc]
        congr 1
        omega)
    simp only [List.length_cons, unpackColumns, hfirst, List.nil_append]
    rw [hrest]
    simp only [List.append_assoc, List.singleton_append, Nat.cast_add, Nat.cast_one,
      Option.some.injEq, Prod.mk.injEq, and_true]
    ring

/-- A scalar equals itself. -/
theorem sameData_scalar (v : NestedData) (k : Kind) (h : v.scalarKind = some k) :
    sameData v v = true := by
  cases v <;> simp [NestedData.scalarKind] at h <;> simp [sameData]

/-- A sequence of scalars equals itself. -/
theorem sameList_scalars (k : Kind) (values : List NestedData)
    (h : ∀ v ∈ values, v.scalarKind = some k) : sameList values values = true := by
  induction values with
  | nil => simp [sameList]
  | cons v rest ih =>
    rw [sameList, sameData_scalar v k (h v (List.mem_cons_self _ _)),
      ih (fun w hw => h w (List.mem_cons_of_mem _ hw))]
    rfl

/-- A sequence of columns of scalars equals itself. -/
theorem sameList_columns (k : Kind) (columns : List NestedData)
    (h : ∀ c ∈ columns, ∃ cells, c = .vector cells ∧ ∀ v ∈ cells, v.scalarKind = some k) :
    sameList columns columns = true := by
  induction columns with
  | nil => simp [sameList]
  | cons c rest ih =>
    obtain ⟨cells, rfl, hcells⟩ := h c (List.mem_cons_self _ _)
    rw [sameList, sameData, sameList_scalars k cells hcells,
      ih (fun w hw => h w (List.mem_cons_of_mem _ hw))]
    rfl

/-- The entries of a well-formed sequence are well formed. -/
theorem wellFormedList_mem (values : List NestedData) (h : wellFormedList values = true) :
    ∀ v ∈ values, v.wellFormed = true := by
  induction values with
  | nil => intro v hv; simp at hv
  | cons x rest ih =>
    rw [wellFormedList, Bool.and_eq_true] at h
    intro v hv
    rcases List.mem_cons.mp hv with rfl | hmem
    · exact h.1
    · exact ih h.2 v hmem

/-- The values of a well-formed map are well formed. -/
theorem wellFormedEntries_find (values : List (String × NestedData))
    (h : wellFormedEntries values = true) (key : String) (v : NestedData)
    (hfind : mapFind values key = some v) : v.wellFormed = true := by
  induction values with
  | nil => simp [mapFind] at hfind
  | cons e rest ih =>
    obtain ⟨k, x⟩ := e
    rw [wellFormedEntries, Bool.and_eq_true, Bool.and_eq_true] at h
    rw [mapFind] at hfind
    by_cases hk : k = key
    · simp only [hk, if_true, Option.some.injEq] at hfind
      rw [← hfind]
      exact h.1.2
    · simp only [hk, if_false] at hfind
      exact ih h.2 hfind

/-- A well-formed scalar of a given kind is a valid scalar. -/
theorem wellFormed_scalar (v : NestedData) (k : Kind) (hk : v.scalarKind = some k)
    (h : v.wellFormed = true) : v.validScalar = true := by
  cases v <;> simp [NestedData.scalarKind] at hk <;> simpa [NestedData.wellFormed] using h

/-- The element loops of a static array whose element type packs well and reads back:
from a buffer that agrees with the packed one on the `n * stride` bytes of the array, the
loop of `unpack` returns values equal to the packed ones. -/
theorem elements_read_back (type : PackingType) (hT : PacksWell type) (hR : ReadsBack type)
    (hsize : 0 ≤ type.size) (stride : Int) (hle : type.size ≤ stride)
    (hdvd : type.alignment ∣ stride) (buffer2 : Buffer) (values : List NestedData) :
    ∀ (i : Nat) (a : Int) (buffer buffer1 : Buffer) (e : Int) (acc : List NestedData),
    (∀ v ∈ values, matchesShape type v = true ∧ v.wellFormed = true) → 0 ≤ a →
    type.alignment ∣ a → a + (values.length : Int) * stride ≤ (buffer.length : Int) →
    packElements (fun o v b => pack type o v b) (stride - type.size) i values a buffer
      = (.ok e, buffer1) →
    (∀ idx : Nat, a ≤ (idx : Int) → (idx : Int) < a + (values.length : Int) * stride →
      buffer2[idx]? = buffer1[idx]?) →
    ∃ ws, unpackElements (fun o b => unpack type o b) (stride - type.size) buffer2
        values.length a acc = some (a + (values.length : Int) * stride, acc ++ ws) ∧
      sameList ws values = true := by
  induction values with
  | nil =>
    intro i a buffer buffer1 e acc _ _ _ _ _ _
    exact ⟨[], by simp [unpackElements], by simp [sameList]⟩
  | cons v rest ih =>
    intro i a buffer buffer1 e acc hall h0 ha hlen hpack hagree
    have hrest0 : (0 : Int) ≤ (rest.length : Int) * stride :=
      Int.mul_nonneg (Int.ofNat_nonneg _) (le_trans hsize hle)
    have hexp : (((v :: rest).length : Nat) : Int) * stride
        = stride + (rest.length : Int) * stride := by
      simp only [List.length_cons]; push_cast; ring
    rw [hexp] at hlen hagree ⊢
    have hs := startOf_aligned type a ha
    have he := endOf_aligned type a ha
    obtain ⟨hmv, hwv⟩ := hall v (List.mem_cons_self _ _)
    have hallRest : ∀ w ∈ rest, matchesShape type w = true ∧ w.wellFormed = true :=
      fun w hw => hall w (List.mem_cons_of_mem _ hw)
    obtain ⟨bufferA, hpackA, hlenA, hframeA⟩ := hT a v buffer hmv h0 (by rw [hs]; omega)
    have hpackA2 := hpackA
    rw [he] at hpackA2
    rw [packElements] at hpack
    simp only [hpackA2] at hpack
    have es : a + type.size + (stride - type.size) = a + stride := by omega
    rw [es] at hpack
    obtain ⟨bufferB, hloop, -, hframeB⟩ := packElements_aligned type hT hsize stride hle hdvd
      rest (i + 1) (a + stride) bufferA (fun w hw => (hallRest w hw).1) (by omega)
      (Int.dvd_add ha hdvd) (by rw [hlenA]; omega)
    rw [hloop] at hpack
    simp only [Prod.mk.injEq, Outcome.ok.injEq] at hpack
    obtain ⟨-, rfl⟩ := hpack
    obtain ⟨w, hunpack, hsame⟩ := hR a v buffer bufferA buffer2 _ hmv hwv h0
      (by rw [hs]; omega) hpackA (by
        intro idx h1 h2
        rw [hs] at h1 h2
        rw [hagree idx h1 (by omega), hframeB idx (Or.inl (by omega))])
    rw [he] at hunpack
    obtain ⟨ws, hrun, hsameRest⟩ := ih (i + 1) (a + stride) bufferA bufferB _ (acc ++ [w])
      hallRest (by omega) (Int.dvd_add ha hdvd) (by rw [hlenA]; omega) hloop (by
        intro idx h1 h2
        exact hagree idx (by omega) (by omega))
    refine ⟨w :: ws, ?_, ?_⟩
    · simp only [List.length_cons, unpackElements, hunpack]
      rw [es, hrun]
      simp only [List.append_assoc, List.singleton_append, Option.some.injEq, Prod.mk.injEq,
        and_true]
      omega
    · rw [sameList, hsame, hsameRest]
      rfl

/-- A descriptor other than a struct returns the offset behind its last byte. -/
theorem endOf_plain (t : PackingType) (h : t.isStruct = false) (o : Int) :
    t.endOf o = t.startOf o + t.size := by
  cases t <;> first
    | rfl
    | simp [PackingType.isStruct] at h

/-- Assigning under a key that the map does not hold appends the entry. -/
theorem mapAssign_fresh (values : List (String × NestedData)) (key : String) (v : NestedData)
    (h : mapFind values key = none) : mapAssign values key v = values ++ [(key, v)] := by
  induction values with
  | nil => rfl
  | cons e rest ih =>
    obtain ⟨k, x⟩ := e
    rw [mapFind] at h
    by_cases hk : k = key
    · simp [hk] at h
    · simp only [hk, if_false] at h
      rw [mapAssign]
      simp only [hk, if_false, List.cons_append, ih h]

/-- A key that is neither in the map nor the one appended is not found. -/
theorem mapFind_append_none (values : List (String × NestedData)) (key other : String)
    (v : NestedData) (h : mapFind values other = none) (hne : key ≠ other) :
    mapFind (values ++ [(key, v)]) other = none := by
  induction values with
  | nil => simp [mapFind, hne]
  | cons e rest ih =>
    obtain ⟨k, x⟩ := e
    rw [mapFind] at h
    by_cases hk : k = other
    · simp [hk] at h
    · simp only [hk, if_false] at h
      simp only [List.cons_append, mapFind, hk, if_false]
      exact ih h

/-- The member loop of `Struct::pack` changes no byte below the offset it starts at. -/
theorem packMembers_below (values : List (String × NestedData)) (a0 : Int)
    (members : List (String × PackingType)) :
    ∀ (al c alEnd off p : Int) (buffer : Buffer),
    (∀ m ∈ members, PacksWell m.2) →
    (∀ m ∈ members, 0 ≤ m.2.size ∧ 0 < m.2.alignment) →
    (∀ m ∈ members, m.2.alignment ∣ a0) →
    matchesMembers members values = true →
    structLayout members al c = some (alEnd, off) →
    0 ≤ a0 → a0 ≤ p → p ≤ a0 + c → a0 + off ≤ (buffer.length : Int) →
    ∃ p1 buffer1, packMembers members values p buffer = (.ok p1, buffer1) ∧
      ∀ j : Nat, (j : Int) < p → buffer1[j]? = buffer[j]? := by
  induction members with
  | nil =>
    intro al c alEnd off p buffer _ _ _ _ _ _ _ _ _
    exact ⟨p, buffer, by rw [packMembers], fun _ _ => rfl⟩
  | cons member rest ih =>
    intro al c alEnd off p buffer hwell hpos hdvd hmatch hlayout ha0 hp1 hp2 hlen
    obtain ⟨key, ty⟩ := member
    have hty : 0 ≤ ty.size ∧ 0 < ty.alignment := hpos (key, ty) (List.mem_cons_self _ _)
    have hwellTy : PacksWell ty := hwell (key, ty) (List.mem_cons_self _ _)
    have hdvdTy : ty.alignment ∣ a0 := hdvd (key, ty) (List.mem_cons_self _ _)
    have hposRest : ∀ m ∈ rest, 0 ≤ m.2.size ∧ 0 < m.2.alignment :=
      fun m hm => hpos m (List.mem_cons_of_mem _ hm)
    rw [matchesMembers] at hmatch
    cases hfind : mapFind values key with
    | none => simp [hfind] at hmatch
    | some mv =>
      simp only [hfind, Bool.and_eq_true] at hmatch
      rw [structLayout, alignOffset_pos c ty.alignment hty.2] at hlayout
      simp only at hlayout
      obtain ⟨-, hoff, -⟩ := structLayout_mono rest _ _ _ _ hlayout hposRest
      obtain ⟨hs1, hs2⟩ := startOf_bounds ty a0 c p hty.2 hdvdTy hp2
      obtain ⟨he1, he2⟩ := endOf_bounds ty p hty.1 hs1
      obtain ⟨buffer1, hpack, hlen1, hframe1⟩ := hwellTy p mv buffer hmatch.1 (by omega)
        (by omega)
      obtain ⟨p2, buffer2, hloop, hframe2⟩ := ih _ _ alEnd off (ty.endOf p)
        buffer1 (fun m hm => hwell m (List.mem_cons_of_mem _ hm)) hposRest
        (fun m hm => hdvd m (List.mem_cons_of_mem _ hm)) hmatch.2 hlayout ha0 (by omega)
        (by omega) (by rw [hlen1]; exact hlen)
      refine ⟨p2, buffer2, ?_, ?_⟩
      · rw [packMembers_cons_found key ty rest values mv p buffer hfind, hpack]
        exact hloop
      · intro j hj
        rw [hframe2 j (by omega), hframe1 j (Or.inl (by omega))]

/-- The member loops of a struct without struct fields and with distinct field names,
whose field types pack well and read back: from a buffer that agrees with the packed one
from the running offset to the end of the layout, the loop of `unpack` returns the offset
that the loop of `pack` returned and appends one entry per field, holding a value equal
to the packed one. -/
theorem members_read_back (values : List (String × NestedData)) (a0 : Int)
    (buffer2 : Buffer) (members : List (String × PackingType)) :
    ∀ (al c alEnd off p : Int) (buffer buffer1 : Buffer) (last : Int)
      (acc : List (String × NestedData)),
    (∀ m ∈ members, PacksWell m.2) → (∀ m ∈ members, ReadsBack m.2) →
    (∀ m ∈ members, 0 ≤ m.2.size ∧ 0 < m.2.alignment) →
    (∀ m ∈ members, m.2.alignment ∣ a0) →
    (∀ m ∈ members, m.2.isStruct = false) →
    members.Pairwise (fun m1 m2 => m1.1 ≠ m2.1) →
    (∀ m ∈ members, mapFind acc m.1 = none) →
    matchesMembers members values = true →
    wellFormedEntries values = true →
    structLayout members al c = some (alEnd, off) →
    0 ≤ a0 → a0 ≤ p → p ≤ a0 + c → a0 + off ≤ (buffer.length : Int) →
    packMembers members values p buffer = (.ok last, buffer1) →
    (∀ idx : Nat, p ≤ (idx : Int) → (idx : Int) < a0 + off → buffer2[idx]? = buffer1[idx]?) →
    ∃ news, unpackMembers members p buffer2 acc = some (last, acc ++ news) ∧
      news.length = members.length ∧ sameEntries news values = true := by
  induction members with
  | nil =>
    intro al c alEnd off p buffer buffer1 last acc _ _ _ _ _ _ _ _ _ _ _ _ _ _ hpack _
    rw [packMembers] at hpack
    simp only [Prod.mk.injEq, Outcome.ok.injEq] at hpack
    refine ⟨[], ?_, rfl, by simp [sameEntries]⟩
    rw [unpackMembers, List.append_nil, hpack.1]
  | cons member rest ih =>
    intro al c alEnd off p buffer buffer1 last acc hwell hback hpos hdvd hplain hnames hfresh
      hmatch hvalues hlayout ha0 hp1 hp2 hlen hpack hagree
    obtain ⟨key, ty⟩ := member
    have hty : 0 ≤ ty.size ∧ 0 < ty.alignment := hpos (key, ty) (List.mem_cons_self _ _)
    have hwellTy : PacksWell ty := hwell (key, ty) (List.mem_cons_self _ _)
    have hbackTy : ReadsBack ty := hback (key, ty) (List.mem_cons_self _ _)
    have hdvdTy : ty.alignment ∣ a0 := hdvd (key, ty) (List.mem_cons_self _ _)
    have hplainTy : ty.isStruct = false := hplain (key, ty) (List.mem_cons_self _ _)
    have hfreshKey : mapFind acc key = none := hfresh (key, ty) (List.mem_cons_self _ _)
    have hposRest : ∀ m ∈ rest, 0 ≤ m.2.size ∧ 0 < m.2.alignment :=
      fun m hm => hpos m (List.mem_cons_of_mem _ hm)
    rw [List.pairwise_cons] at hnames
    rw [matchesMembers] at hmatch
    cases hfind : mapFind values key with
    | none => simp [hfind] at hmatch
    | some mv =>
      simp only [hfind, Bool.and_eq_true] at hmatch
      rw [structLayout, alignOffset_pos c ty.alignment hty.2] at hlayout
      simp only at hlayout
      obtain ⟨-, hoff, -⟩ := structLayout_mono rest _ _ _ _ hlayout hposRest
      obtain ⟨hs1, hs2⟩ := startOf_bounds ty a0 c p hty.2 hdvdTy hp2
      obtain ⟨he1, he2⟩ := endOf_bounds ty p hty.1 hs1
      have hend := endOf_plain ty hplainTy p
      obtain ⟨bufferA, hpackA, hlenA, -⟩ := hwellTy p mv buffer hmatch.1 (by omega)
        (by omega)
      rw [packMembers_cons_found key ty rest values mv p buffer hfind, hpackA] at hpack
      simp only at hpack
      obtain ⟨p2, bufferB, hloop, hbelow⟩ := packMembers_below values a0 rest _ _ alEnd off
        (ty.endOf p) bufferA (fun m hm => hwell m (List.mem_cons_of_mem _ hm)) hposRest
        (fun m hm => hdvd m (List.mem_cons_of_mem _ hm)) hmatch.2 hlayout ha0 (by omega)
        (by omega) (by rw [hlenA]; exact hlen)
      rw [hloop] at hpack
      simp only [Prod.mk.injEq, Outcome.ok.injEq] at hpack
      obtain ⟨rfl, rfl⟩ := hpack
      obtain ⟨w, hunpack, hsame⟩ := hbackTy p mv buffer bufferA buffer2 _ hmatch.1
        (wellFormedEntries_find values hvalues key mv hfind) (by omega) (by omega) hpackA (by
          intro idx h1 h2
          rw [hagree idx (by omega) (by omega), hbelow idx (by omega)])
      obtain ⟨news, hrun, hcount, hsameRest⟩ := ih _ _ alEnd off (ty.endOf p) bufferA bufferB
        p2 (acc ++ [(key, w)]) (fun m hm => hwell m (List.mem_cons_of_mem _ hm))
        (fun m hm => hback m (List.mem_cons_of_mem _ hm)) hposRest
        (fun m hm => hdvd m (List.mem_cons_of_mem _ hm))
        (fun m hm => hplain m (List.mem_cons_of_mem _ hm)) hnames.2
        (fun m hm => mapFind_append_none acc key m.1 w (hfresh m (List.mem_cons_of_mem _ hm))
          (hnames.1 m hm))
        hmatch.2 hvalues hlayout ha0 (by omega) (by omega) (by rw [hlenA]; exact hlen) hloop
        (fun idx h1 h2 => hagree idx (by omega) h2)
      refine ⟨(key, w) :: news, ?_, by simp [hcount], ?_⟩
      · rw [unpackMembers]
        simp only [hunpack, mapAssign_fresh acc key w hfreshKey, hrun, List.append_assoc,
          List.singleton_append]
      · rw [sameEntries]
        simp only [hfind, hsame, hsameRest, Bool.and_self]

/-- What `fieldsApart` says about the fields. -/
theorem fieldsApart_spec (members : List (String × PackingType))
    (h : fieldsApart members = true) :
    (∀ m ∈ members, m.2.isStruct = false ∧ structsApart m.2 = true) ∧
      members.Pairwise (fun m1 m2 => m1.1 ≠ m2.1) := by
  induction members with
  | nil => exact ⟨fun m hm => by simp at hm, List.Pairwise.nil⟩
  | cons member rest ih =>
    obtain ⟨key, ty⟩ := member
    simp only [fieldsApart, Bool.and_eq_true, Bool.not_eq_true', List.all_eq_true,
      decide_eq_true_eq] at h
    obtain ⟨⟨⟨h1, h2⟩, h3⟩, h4⟩ := h
    obtain ⟨ih1, ih2⟩ := ih h4
    refine ⟨?_, List.Pairwise.cons (fun m hm => Ne.symm (h2 m hm)) ih2⟩
    intro m hm
    rcases List.mem_cons.mp hm with rfl | hmem
    · exact ⟨h1, h3⟩
    · exact ih1 m hmem

/-- The number of entries of a matrix value with columns of `nRows` entries. -/
theorem columnCells_length (nRows : Nat) (columns : List NestedData)
    (h : ∀ c ∈ columns, ∃ cells, c = .vector cells ∧ cells.length = nRows) :
    (columnCells columns).length = nRows * columns.length := by
  induction columns with
  | nil => rfl
  | cons c rest ih =>
    obtain ⟨cells, rfl, hl⟩ := h c (List.mem_cons_self _ _)
    rw [columnCells, List.length_append, hl, ih (fun w hw => h w (List.mem_cons_of_mem _ hw)),
      List.length_cons]
    ring

/-- A buffer that agrees with `storeBytes buffer i bytes` on the stored range holds
`bytes` there. -/
theorem agree_storeBytes (buffer buffer2 : Buffer) (i : Nat) (bytes : List Nat)
    (hlen : i + bytes.length ≤ buffer.length)
    (h : ∀ idx : Nat, i ≤ idx → idx < i + bytes.length →
      buffer2[idx]? = (storeBytes buffer i bytes)[idx]?) :
    ∀ j, j < bytes.length → buffer2[i + j]? = bytes[j]? := by
  intro j hj
  rw [h (i + j) (by omega) (by omega), storeBytes_inside bytes buffer i j hlen hj]

/-- Every regular descriptor in which no struct is a direct field of a struct and field
names are distinct reads back what it packed. -/
theorem reads_back_regular (t : PackingType) (h : Regular t) :
    structsApart t = true → ReadsBack t := by
  induction h with
  | primitive p k hp =>
    intro _ o v buffer buffer1 buffer2 e hmatch hwf h0 hlen hpack hagree
    obtain ⟨hsz, -⟩ := primitive_size p k hp
    have hs : p.startOf o = o := by
      simp only [primitives, List.mem_cons, Prod.mk.injEq, List.mem_singleton,
        List.not_mem_nil, or_false] at hp
      rcases hp with ⟨rfl, rfl⟩ | ⟨rfl, rfl⟩ | ⟨rfl, rfl⟩ <;> rfl
    have he : p.endOf o = o + 4 := by
      simp only [primitives, List.mem_cons, Prod.mk.injEq, List.mem_singleton,
        List.not_mem_nil, or_false] at hp
      rcases hp with ⟨rfl, rfl⟩ | ⟨rfl, rfl⟩ | ⟨rfl, rfl⟩ <;> rfl
    rw [hs, hsz] at hlen hagree
    rw [he]
    have hk := (matchesShape_primitive p k hp v).mp hmatch
    rw [pack_primitive_ok p k hp v o buffer hk h0 hlen] at hpack
    simp only [Prod.mk.injEq, Outcome.ok.injEq] at hpack
    obtain ⟨-, rfl⟩ := hpack
    have hl4 : (le32 v.pattern).length = 4 := rfl
    refine ⟨v, ?_, sameData_scalar v k hk⟩
    apply unpack_primitive_bytes p k hp v hk (wellFormed_scalar v k hk hwf) o h0 buffer2
    apply agree_storeBytes buffer buffer2 o.toNat (le32 v.pattern) (by omega)
    intro idx h1 h2
    exact hagree idx (by omega) (by omega)
  | vector p k n alignment hp hn hal =>
    intro _ o v buffer buffer1 buffer2 e hmatch hwf h0 hlen hpack hagree
    obtain ⟨hsz, -⟩ := primitive_size p k hp
    have hstart : (mkVectorType p n alignment).startOf o = o + (-o) % alignment := rfl
    have hend : (mkVectorType p n alignment).endOf o = o + (-o) % alignment + p.size * n := rfl
    have hsize : (mkVectorType p n alignment).size = p.size * n := rfl
    rw [hstart, hsize, hsz] at hlen hagree
    rw [hend, hsz]
    have hge := alignUp_ge o alignment hal
    cases v with
    | vector values =>
      simp only [mkVectorType, matchesShape, Bool.and_eq_true, decide_eq_true_eq,
        List.all_eq_true] at hmatch
      obtain ⟨hcount, hall⟩ := hmatch
      have hall2 : ∀ v ∈ values, v.scalarKind = some k :=
        fun v hv => (matchesShape_primitive p k hp v).mp (hall v hv)
      have hwfl : wellFormedList values = true := by
        simpa [NestedData.wellFormed] using hwf
      have hall3 : ∀ v ∈ values, v.scalarKind = some k ∧ v.validScalar = true :=
        fun v hv => ⟨hall2 v hv,
          wellFormed_scalar v k (hall2 v hv) (wellFormedList_mem values hwfl v hv)⟩
      have hrun := packElements_scalars p k hp values 0 (o + (-o) % alignment) buffer hall2
        (by omega) (by rw [hcount]; exact hlen)
      rw [mkVectorType, pack] at hpack
      simp only [hcount, ne_eq, not_true_eq_false, if_false, alignOffset_pos o alignment hal,
        hrun] at hpack
      simp only [Prod.mk.injEq, Outcome.ok.injEq] at hpack
      obtain ⟨-, rfl⟩ := hpack
      have hbytes := agree_storeBytes buffer buffer2 (o + (-o) % alignment).toNat
        (encodeAll values) (by rw [encodeAll_length]; omega) (by
          intro idx h1 h2
          rw [encodeAll_length] at h2
          exact hagree idx (by omega) (by omega))
      rw [encodeAll_length] at hbytes
      have hread := unpackElements_bytes p k hp buffer2 values (o + (-o) % alignment) []
        hall3 (by omega) hbytes
      have hnn : n.toNat = values.length := by omega
      refine ⟨.vector values, ?_, ?_⟩
      · rw [mkVectorType, unpack]
        simp only [alignOffset_pos o alignment hal, hnn, hread, List.nil_append,
          Option.some.injEq, Prod.mk.injEq, and_true]
        omega
      · rw [sameData]
        exact sameList_scalars k values hall2
    | int32 x => simp [mkVectorType, matchesShape] at hmatch
    | uint32 x => simp [mkVectorType, matchesShape] at hmatch
    | float x => simp [mkVectorType, matchesShape] at hmatch
    | map x => simp [mkVectorType, matchesShape] at hmatch
  | array type t n hreg hn hexact hmk ih =>
    intro hapart o v buffer buffer1 buffer2 e hmatch hwf h0 hlen hpack hagree
    obtain ⟨hsz, hal⟩ := regular_size_alignment type hreg
    obtain ⟨stride, rfl, -, hle, hdvd⟩ := regular_array_form type t n hsz hal hexact hmk
    have hstart : (PackingType.StaticArray (n * stride) type.alignment type n stride).startOf o
        = o + (-o) % type.alignment := rfl
    have hend : (PackingType.StaticArray (n * stride) type.alignment type n stride).endOf o
        = o + (-o) % type.alignment + n * stride := rfl
    have hsize : (PackingType.StaticArray (n * stride) type.alignment type n stride).size
        = n * stride := rfl
    rw [hstart, hsize] at hlen hagree
    rw [hend]
    have hge := alignUp_ge o type.alignment hal
    rw [structsApart] at hapart
    cases v with
    | vector values =>
      simp only [matchesShape, Bool.and_eq_true, decide_eq_true_eq, List.all_eq_true] at hmatch
      obtain ⟨hcount, hall⟩ := hmatch
      have hwfl : wellFormedList values = true := by
        simpa [NestedData.wellFormed] using hwf
      rw [pack] at hpack
      simp only [hcount, ne_eq, not_true_eq_false, if_false, alignOffset_pos o _ hal] at hpack
      rw [← hcount] at hlen hagree
      obtain ⟨ws, hrun, hsame⟩ := elements_read_back type (pack_regular type hreg) (ih hapart)
        hsz stride hle hdvd buffer2 values 0 (o + (-o) % type.alignment) buffer buffer1 e []
        (fun v hv => ⟨hall v hv, wellFormedList_mem values hwfl v hv⟩) (by omega)
        (alignUp_dvd o type.alignment) hlen hpack hagree
      have hnn : n.toNat = values.length := by omega
      refine ⟨.vector ws, ?_, ?_⟩
      · rw [unpack]
        simp only [alignOffset_pos o _ hal, hnn, hrun, List.nil_append, hcount]
      · rw [sameData]
        exact hsame
    | int32 x => simp [matchesShape] at hmatch
    | uint32 x => simp [matchesShape] at hmatch
    | float x => simp [matchesShape] at hmatch
    | map x => simp [matchesShape] at hmatch
  | struct members t alignment offset hreg hdvd hlayout hexact hmk ih =>
    intro hapart o v buffer buffer1 buffer2 e hmatch hwf h0 hlen hpack hagree
    have hpos : ∀ m ∈ members, 0 ≤ m.2.size ∧ 0 < m.2.alignment :=
      fun m hm => regular_size_alignment m.2 (hreg m hm)
    obtain ⟨size, rfl, hal, hoff, hle, -⟩ :=
      regular_struct_form members t alignment offset hpos hlayout hexact hmk
    have hstart : (PackingType.Struct size alignment members).startOf o
        = o + (-o) % alignment := rfl
    have hend : (PackingType.Struct size alignment members).endOf o = o + size := rfl
    have hsize : (PackingType.Struct size alignment members).size = size := rfl
    rw [hstart, hsize] at hlen hagree
    rw [hend]
    have hge := alignUp_ge o alignment hal
    rw [structsApart] at hapart
    obtain ⟨hfields, hnames⟩ := fieldsApart_spec members hapart
    cases v with
    | map values =>
      simp only [matchesShape, Bool.and_eq_true, decide_eq_true_eq] at hmatch
      obtain ⟨hcount, hmem⟩ := hmatch
      have hwfe : wellFormedEntries values = true := by
        simpa [NestedData.wellFormed] using hwf
      have hwell : ∀ m ∈ members, PacksWell m.2 := fun m hm => pack_regular m.2 (hreg m hm)
      have hdvd0 : ∀ m ∈ members, m.2.alignment ∣ o + (-o) % alignment :=
        fun m hm => Int.dvd_trans (hdvd m hm) (alignUp_dvd o alignment)
      obtain ⟨p1, bufferX, hloop, -, -, -, -⟩ := packMembers_regular values
        (o + (-o) % alignment) members 0 0 alignment offset (o + (-o) % alignment) buffer hwell
        hpos hdvd0 hmem hlayout (by omega) (le_refl _) (by omega) (by omega)
      rw [pack_struct_eq size alignment members values o _ buffer hcount
        (alignOffset_pos o alignment hal), hloop] at hpack
      simp only [Prod.mk.injEq, Outcome.ok.injEq] at hpack
      obtain ⟨-, rfl⟩ := hpack
      obtain ⟨news, hrun, hlenNews, hsame⟩ := members_read_back values (o + (-o) % alignment)
        buffer2 members 0 0 alignment offset (o + (-o) % alignment) buffer bufferX p1 [] hwell
        (fun m hm => ih m hm (hfields m hm).2) hpos hdvd0 (fun m hm => (hfields m hm).1) hnames
        (fun _ _ => rfl) hmem hwfe hlayout (by omega) (le_refl _) (by omega) (by omega) hloop
        (fun idx h1 h2 => hagree idx h1 (by omega))
      refine ⟨.map news, ?_, ?_⟩
      · rw [unpack]
        simp only [alignOffset_pos o alignment hal, hrun, List.nil_append, Option.some.injEq,
          Prod.mk.injEq, and_true]
        omega
      · rw [sameData, hsame, hlenNews, hcount]
        simp
    | int32 x => simp [matchesShape] at hmatch
    | uint32 x => simp [matchesShape] at hmatch
    | float x => simp [matchesShape] at hmatch
    | vector x => simp [matchesShape] at hmatch
  | matrix p k nRows nColumns t hp hn hmk =>
    intro _ o v buffer buffer1 buffer2 e hmatch hwf h0 hlen hpack hagree
    have hrows : nRows = 2 ∨ nRows = 3 ∨ nRows = 4 := by
      by_contra hcon
      have h2 : nRows ≠ 2 := fun h => hcon (Or.inl h)
      have h3 : nRows ≠ 3 := fun h => hcon (Or.inr (Or.inl h))
      have h4 : nRows ≠ 4 := fun h => hcon (Or.inr (Or.inr h))
      simp [mkMatrixType, h2, h3, h4] at hmk
    rw [mkMatrixType_primitive p k hp nRows nColumns hrows] at hmk
    simp only [Construction.built.injEq] at hmk
    subst hmk
    generalize hA : (if nRows = 2 then (8 : Int) else 16) = A at *
    have hA4 : 4 * nRows ≤ A := by rw [← hA]; split <;> omega
    have hal : 0 < A := by omega
    have hstart : (PackingType.MatrixType (nColumns * A) A p nRows nColumns).startOf o
        = o + (-o) % A := rfl
    have hend : (PackingType.MatrixType (nColumns * A) A p nRows nColumns).endOf o
        = o + (-o) % A + nColumns * A := rfl
    have hsize : (PackingType.MatrixType (nColumns * A) A p nRows nColumns).size
        = nColumns * A := rfl
    rw [hstart, hsize] at hlen hagree
    rw [hend]
    have hge := alignUp_ge o A hal
    have hr0 : 0 ≤ nRows := by omega
    have hbytes : 4 * (nRows * nColumns) ≤ nColumns * A := by
      have := Int.mul_le_mul_of_nonneg_left hA4 hn
      have e : nColumns * (4 * nRows) = 4 * (nRows * nColumns) := by ring
      omega
    cases v with
    | vector columns =>
      simp only [matchesShape, Bool.and_eq_true, decide_eq_true_eq, List.all_eq_true] at hmatch
      obtain ⟨hcount, hall⟩ := hmatch
      have hwfl : wellFormedList columns = true := by
        simpa [NestedData.wellFormed] using hwf
      have hcols : ∀ c ∈ columns, ∃ cells, c = .vector cells ∧ cells.length = nRows.toNat ∧
          ∀ v ∈ cells, v.scalarKind = some k ∧ v.validScalar = true := by
        intro c hc
        have := hall c hc
        have hwc := wellFormedList_mem columns hwfl c hc
        cases c with
        | vector cells =>
          simp only [Bool.and_eq_true, decide_eq_true_eq, List.all_eq_true] at this
          have hwcells : wellFormedList cells = true := by
            simpa [NestedData.wellFormed] using hwc
          exact ⟨cells, rfl, by omega, fun v hv =>
            ⟨(matchesShape_primitive p k hp v).mp (this.2 v hv),
              wellFormed_scalar v k ((matchesShape_primitive p k hp v).mp (this.2 v hv))
                (wellFormedList_mem cells hwcells v hv)⟩⟩
        | int32 x => simp at this
        | uint32 x => simp at this
        | float x => simp at this
        | map x => simp at this
      have hcols2 : ∀ c ∈ columns, ∃ cells, c = .vector cells ∧ cells.length = nRows.toNat ∧
          ∀ v ∈ cells, v.scalarKind = some k := by
        intro c hc
        obtain ⟨cells, h1, h2, h3⟩ := hcols c hc
        exact ⟨cells, h1, h2, fun v hv => (h3 v hv).1⟩
      have hrn : ((nRows.toNat : Nat) : Int) = nRows := Int.toNat_of_nonneg hr0
      have hrun := packColumns_scalars p k hp nRows.toNat columns 0 (o + (-o) % A) buffer hcols2
        (by omega) (by rw [hrn, hcount]; omega)
      rw [pack] at hpack
      simp only [hcount, ne_eq, not_true_eq_false, if_false, alignOffset_pos o A hal,
        hrun] at hpack
      simp only [Prod.mk.injEq, Outcome.ok.injEq] at hpack
      obtain ⟨-, rfl⟩ := hpack
      have hcl : (encodeAll (columnCells columns)).length
          = 4 * (nRows.toNat * columns.length) := by
        rw [encodeAll_length, columnCells_length nRows.toNat columns (fun c hc => by
          obtain ⟨cells, h1, h2, -⟩ := hcols c hc
          exact ⟨cells, h1, h2⟩)]
      have hprod : ((nRows.toNat * columns.length : Nat) : Int) = nRows * nColumns := by
        push_cast; rw [hrn, hcount]
      have hstored := agree_storeBytes buffer buffer2 (o + (-o) % A).toNat
        (encodeAll (columnCells columns)) (by rw [hcl]; omega) (by
          intro idx h1 h2
          rw [hcl] at h2
          exact hagree idx (by omega) (by omega))
      rw [hcl] at hstored
      have hread := unpackColumns_bytes p k hp buffer2 nRows.toNat columns (o + (-o) % A) []
        hcols (by omega) hstored
      have hnn : nColumns.toNat = columns.length := by omega
      refine ⟨.vector columns, ?_, ?_⟩
      · rw [unpack]
        simp only [alignOffset_pos o A hal, hnn, hread, List.nil_append, Option.some.injEq,
          Prod.mk.injEq, and_true]
        omega
      · rw [sameData]
        exact sameList_columns k columns (fun c hc => by
          obtain ⟨cells, h1, -, h3⟩ := hcols2 c hc
          exact ⟨cells, h1, h3⟩)
    | int32 x => simp [matchesShape] at hmatch
    | uint32 x => simp [matchesShape] at hmatch
    | float x => simp [matchesShape] at hmatch
    | map x => simp [matchesShape] at hmatch

/-! ## Round trip (C21) -/

/-- Counterexample to C21 as stated.  The struct
`{v: vec2(f32), x: f32, w: VectorType(f32, 1, 3)}` has size 16 and alignment 8, and
`StaticArray` of three of them has size 48.  The tree has primitive vector bases, distinct
field names and no struct inside a struct.  Packed at offset 0 into 64 zero bytes, element
1 is entered at 16 and writes its `w` at bytes `[30, 34)`, the first multiple of 3 from 28
on; element 2 is entered at 32 and writes its `v` over bytes 32 and 33.  `pack` returns 48
and `unpack` returns 48, but the `w` of element 1 reads back as the pattern
`8 + 9 * 65536` instead of 8.  The scalars are given by their bit patterns. -/
theorem C21_field_alignment_counterexample :
    mkStruct [("v", vec2 f32), ("x", f32), ("w", mkVectorType f32 1 3)]
      = some (.Struct 16 8 [("v", vec2 f32), ("x", f32), ("w", mkVectorType f32 1 3)]) ∧
    mkStaticArray (.Struct 16 8 [("v", vec2 f32), ("x", f32), ("w", mkVectorType f32 1 3)]) 3
      = some (.StaticArray 48 8
          (.Struct 16 8 [("v", vec2 f32), ("x", f32), ("w", mkVectorType f32 1 3)]) 3 16) ∧
    structsApart (.StaticArray 48 8
      (.Struct 16 8 [("v", vec2 f32), ("x", f32), ("w", mkVectorType f32 1 3)]) 3 16) = true ∧
    matchesShape
      (.StaticArray 48 8
        (.Struct 16 8 [("v", vec2 f32), ("x", f32), ("w", mkVectorType f32 1 3)]) 3 16)
      (.vector [.map [("v", .vector [.float 1, .float 2]), ("x", .float 3),
          ("w", .vector [.float 4])],
        .map [("v", .vector [.float 5, .float 6]), ("x", .float 7),
          ("w", .vector [.float 8])],
        .map [("v", .vector [.float 9, .float 10]), ("x", .float 11),
          ("w", .vector [.float 12])]]) = true ∧
    NestedData.wellFormed
      (.vector [.map [("v", .vector [.float 1, .float 2]), ("x", .float 3),
          ("w", .vector [.float 4])],
        .map [("v", .vector [.float 5, .float 6]), ("x", .float 7),
          ("w", .vector [.float 8])],
        .map [("v", .vector [.float 9, .float 10]), ("x", .float 11),
          ("w", .vector [.float 12])]]) = true ∧
    (pack
      (.StaticArray 48 8
        (.Struct 16 8 [("v", vec2 f32), ("x", f32), ("w", mkVectorType f32 1 3)]) 3 16) 0
      (.vector [.map [("v", .vector [.float 1, .float 2]), ("x", .float 3),
          ("w", .vector [.float 4])],
        .map [("v", .vector [.float 5, .float 6]), ("x", .float 7),
          ("w", .vector [.float 8])],
        .map [("v", .vector [.float 9, .float 10]), ("x", .float 11),
          ("w", .vector [.float 12])]])
      (List.replicate 64 0)).1 = .ok 48 ∧
    unpack
      (.StaticArray 48 8
        (.Struct 16 8 [("v", vec2 f32), ("x", f32), ("w", mkVectorType f32 1 3)]) 3 16) 0
      (pack
        (.StaticArray 48 8
          (.Struct 16 8 [("v", vec2 f32), ("x", f32), ("w", mkVectorType f32 1 3)]) 3 16) 0
        (.vector [.map [("v", .vector [.float 1, .float 2]), ("x", .float 3),
            ("w", .vector [.float 4])],
          .map [("v", .vector [.float 5, .float 6]), ("x", .float 7),
            ("w", .vector [.float 8])],
          .map [("v", .vector [.float 9, .float 10]), ("x", .float 11),
            ("w", .vector [.float 12])]])
        (List.replicate 64 0)).2
      = some (48, .vector [.map [("v", .vector [.float 1, .float 2]), ("x", .float 3),
          ("w", .vector [.float 4])],
        .map [("v", .vector [.float 5, .float 6]), ("x", .float 7),
          ("w", .vector [.float 589832])],
        .map [("v", .vector [.float 9, .float 10]), ("x", .float 11),
          ("w", .vector [.float 12])]]) ∧
    sameData
      (.vector [.map [("v", .vector [.float 1, .float 2]), ("x", .float 3),
          ("w", .vector [.float 4])],
        .map [("v", .vector [.float 5, .float 6]), ("x", .float 7),
          ("w", .vector [.float 589832])],
        .map [("v", .vector [.float 9, .float 10]), ("x", .float 11),
          ("w", .vector [.float 12])]])
      (.vector [.map [("v", .vector [.float 1, .float 2]), ("x", .float 3),
          ("w", .vector [.float 4])],
        .map [("v", .vector [.float 5, .float 6]), ("x", .float 7),
          ("w", .vector [.float 8])],
        .map [("v", .vector [.float 9, .float 10]), ("x", .float 11),
          ("w", .vector [.float 12])]]) = false :=
  ⟨rfl, rfl, rfl, rfl, rfl, rfl, rfl, rfl⟩

/-- Claim C21, amended.  For every regular descriptor tree (vector and matrix bases
primitive, field alignments dividing the alignment of their struct, sizes below `2^24`)
in which no struct is a direct field of a struct and the field names of every struct are
pairwise distinct, every well-formed value matching its shape and every buffer of at
least `size` bytes: `pack` at offset 0 returns `size`, and `unpack` at offset 0 of the
packed buffer returns `size` and a value equal to the packed one. -/
theorem C21_round_trip (t : PackingType) (hreg : Regular t) (hapart : structsApart t = true)
    (v : NestedData) (hmatch : matchesShape t v = true) (hwf : v.wellFormed = true)
    (buffer : Buffer) (hlen : t.size ≤ (buffer.length : Int)) :
    ∃ buffer1 w, pack t 0 v buffer = (.ok t.size, buffer1) ∧
      unpack t 0 buffer1 = some (t.size, w) ∧ sameData w v = true := by
  have hs : t.startOf 0 = 0 := startOf_aligned t 0 (Int.dvd_zero _)
  have he : t.endOf 0 = 0 + t.size := endOf_aligned t 0 (Int.dvd_zero _)
  obtain ⟨buffer1, hpack, -, -⟩ := pack_regular t hreg 0 v buffer hmatch (le_refl _)
    (by rw [hs]; omega)
  obtain ⟨w, hunpack, hsame⟩ := reads_back_regular t hreg hapart 0 v buffer buffer1 buffer1 _
    hmatch hwf (le_refl _) (by rw [hs]; omega) hpack (fun _ _ _ => rfl)
  rw [he, Int.zero_add] at hpack hunpack
  exact ⟨buffer1, w, hpack, hunpack, hsame⟩

/-- Witness of C21: two structs `{position: vec3(f32), scale: vec2(f32)}` in a static
array, the entries of the second mapping given in the other order, packed into a buffer
of exactly 64 bytes. -/
theorem C21_witness :
    Regular (.StaticArray 64 16
      (.Struct 32 16 [("position", vec3 f32), ("scale", vec2 f32)]) 2 32) ∧
    ∃ buffer1 w,
      pack (.StaticArray 64 16
          (.Struct 32 16 [("position", vec3 f32), ("scale", vec2 f32)]) 2 32) 0
          (.vector [.map [("position", .vector [.float 0x3F800000, .float 0x40000000,
                .float 0x40400000]),
              ("scale", .vector [.float 0x40800000, .float 0x40A00000])],
            .map [("scale", .vector [.float 0x40C00000, .float 0x40E00000]),
              ("position", .vector [.float 0x41000000, .float 0x41100000,
                .float 0x41200000])]])
          (List.replicate 64 0)
        = (.ok (PackingType.StaticArray 64 16
            (.Struct 32 16 [("position", vec3 f32), ("scale", vec2 f32)]) 2 32).size,
            buffer1) ∧
      unpack (.StaticArray 64 16
          (.Struct 32 16 [("position", vec3 f32), ("scale", vec2 f32)]) 2 32) 0 buffer1
        = some ((PackingType.StaticArray 64 16
            (.Struct 32 16 [("position", vec3 f32), ("scale", vec2 f32)]) 2 32).size, w) ∧
      sameData w
        (.vector [.map [("position", .vector [.float 0x3F800000, .float 0x40000000,
              .float 0x40400000]),
            ("scale", .vector [.float 0x40800000, .float 0x40A00000])],
          .map [("scale", .vector [.float 0x40C00000, .float 0x40E00000]),
            ("position", .vector [.float 0x41000000, .float 0x41100000,
              .float 0x41200000])]]) = true :=
  have hstruct : Regular (.Struct 32 16 [("position", vec3 f32), ("scale", vec2 f32)]) :=
    Regular.struct [("position", vec3 f32), ("scale", vec2 f32)] _ 16 24
      (by
        intro m hm
        simp only [List.mem_cons, List.mem_singleton, List.not_mem_nil, or_false] at hm
        rcases hm with rfl | rfl
        · exact Regular.vector f32 Kind.float 3 16 (by simp [primitives]) (by decide)
            (by decide)
        · exact Regular.vector f32 Kind.float 2 8 (by simp [primitives]) (by decide)
            (by decide))
      (by
        intro m hm
        simp only [List.mem_cons, List.mem_singleton, List.not_mem_nil, or_false] at hm
        rcases hm with rfl | rfl <;> decide)
      rfl (by decide) rfl
  have hreg : Regular (.StaticArray 64 16
      (.Struct 32 16 [("position", vec3 f32), ("scale", vec2 f32)]) 2 32) :=
    Regular.array (.Struct 32 16 [("position", vec3 f32), ("scale", vec2 f32)]) _ 2 hstruct
      (by decide) (by decide) rfl
  ⟨hreg, C21_round_trip _ hreg rfl
    (.vector [.map [("position", .vector [.float 0x3F800000, .float 0x40000000,
          .float 0x40400000]),
        ("scale", .vector [.float 0x40800000, .float 0x40A00000])],
      .map [("scale", .vector [.float 0x40C00000, .float 0x40E00000]),
        ("position", .vector [.float 0x41000000, .float 0x41100000, .float 0x41200000])]])
    rfl rfl (List.replicate 64 0) (by decide)⟩

end Packing

namespace Ply

/-! ## The point-cloud parser (C22) -/

/-- One run of the inner loop of `arrangeVertex`: the three raw values named at indices
`3 * i`, `3 * i + 1`, `3 * i + 2` of the feature order. -/
theorem readCoeff_spec (rawVertex : List (String × Nat)) (shFeatureOrder : List String)
    (i : Nat) (v0 v1 v2 : Nat)
    (h0 : (shFeatureOrder[i * 3]?).bind (mapAt rawVertex) = some v0)
    (h1 : (shFeatureOrder[i * 3 + 1]?).bind (mapAt rawVertex) = some v1)
    (h2 : (shFeatureOrder[i * 3 + 2]?).bind (mapAt rawVertex) = some v2) :
    readCoeff rawVertex shFeatureOrder i 3 0 [] = .ok [v0, v1, v2] := by
  cases hn0 : shFeatureOrder[i * 3]? with
  | none => simp [hn0] at h0
  | some n0 =>
    cases hn1 : shFeatureOrder[i * 3 + 1]? with
    | none => simp [hn1] at h1
    | some n1 =>
      cases hn2 : shFeatureOrder[i * 3 + 2]? with
      | none => simp [hn2] at h2
      | some n2 =>
        simp only [hn0, hn1, hn2, Option.some_bind] at h0 h1 h2
        simp only [readCoeff, Nat.add_zero, hn0, hn1, hn2, h0, h1, h2, Nat.zero_add,
          List.nil_append, List.singleton_append, List.cons_append]

/-- The outer loop of `arrangeVertex` returns one triple per iteration, holding the raw
values named by the feature order. -/
theorem readCoeffs_spec (rawVertex : List (String × Nat)) (shFeatureOrder : List String)
    (remaining : Nat) : ∀ (i : Nat) (acc : List (List Nat)),
    (∀ k, k < 3 * (i + remaining) →
      ((shFeatureOrder[k]?).bind (mapAt rawVertex)).isSome = true) →
    ∃ cs, readCoeffs rawVertex shFeatureOrder remaining i acc = .ok (acc ++ cs) ∧
      cs.length = remaining ∧
      ∀ m, m < remaining → ∃ coeff, cs[m]? = some coeff ∧ coeff.length = 3 ∧
        ∀ j, j < 3 →
          coeff[j]? = (shFeatureOrder[3 * (i + m) + j]?).bind (mapAt rawVertex) := by
  induction remaining with
  | zero =>
    intro i acc _
    exact ⟨[], by simp [readCoeffs], rfl, fun m hm => absurd hm (by omega)⟩
  | succ r ih =>
    intro i acc h
    obtain ⟨v0, h0⟩ := Option.isSome_iff_exists.mp (h (i * 3) (by omega))
    obtain ⟨v1, h1⟩ := Option.isSome_iff_exists.mp (h (i * 3 + 1) (by omega))
    obtain ⟨v2, h2⟩ := Option.isSome_iff_exists.mp (h (i * 3 + 2) (by omega))
    obtain ⟨cs, hrun, hlen, hcs⟩ := ih (i + 1) (acc ++ [[v0, v1, v2]]) (fun k hk =>
      h k (by omega))
    refine ⟨[v0, v1, v2] :: cs, ?_, by simp [hlen], ?_⟩
    · rw [readCoeffs, readCoeff_spec rawVertex shFeatureOrder i v0 v1 v2 h0 h1 h2]
      simp only [hrun, List.append_assoc, List.singleton_append]
    · intro m hm
      cases m with
      | zero =>
        refine ⟨[v0, v1, v2], by simp, rfl, ?_⟩
        intro j hj
        have e : 3 * (i + 0) + j = i * 3 + j := by omega
        rw [e]
        rcases (by omega : j = 0 ∨ j = 1 ∨ j = 2) with rfl | rfl | rfl
        · rw [Nat.add_zero, h0]; rfl
        · rw [h1]; rfl
        · rw [h2]; rfl
      | succ m =>
        obtain ⟨x, hx, hxl, hxj⟩ := hcs m (by omega)
        refine ⟨x, by simpa using hx, hxl, ?_⟩
        intro j hj
        rw [hxj j hj]
        have e : 3 * (i + 1 + m) + j = 3 * (i + (m + 1)) + j := by omega
        rw [e]

/-- The last loop of `arrangeVertex` appends the triples to the entry `shCoeffs`, one
after the other. -/
theorem appendCoeffs_spec (position logScale rotQuat opacityLogit : List Nat)
    (cs : List (List Nat)) : ∀ (sh : List Nat), (∀ x ∈ cs, x.length = 3) →
    ∃ out, appendCoeffs cs [("position", position), ("logScale", logScale),
        ("rotQuat", rotQuat), ("opacityLogit", opacityLogit), ("shCoeffs", sh)]
      = [("position", position), ("logScale", logScale), ("rotQuat", rotQuat),
          ("opacityLogit", opacityLogit), ("shCoeffs", out)] ∧
      out.length = sh.length + 3 * cs.length ∧
      (∀ k, k < sh.length → out[k]? = sh[k]?) ∧
      ∀ m j, m < cs.length → j < 3 →
        ∃ coeff, cs[m]? = some coeff ∧ out[sh.length + 3 * m + j]? = coeff[j]? := by
  induction cs with
  | nil =>
    intro sh _
    exact ⟨sh, rfl, by simp, fun _ _ => rfl, fun m j hm _ => absurd hm (by simp)⟩
  | cons coeff rest ih =>
    intro sh hall
    have hc : coeff.length = 3 := hall coeff (List.mem_cons_self _ _)
    obtain ⟨out, hrun, hlen, hpre, hcells⟩ := ih (sh ++ coeff)
      (fun x hx => hall x (List.mem_cons_of_mem _ hx))
    have hstep : mapAssign [("position", position), ("logScale", logScale),
        ("rotQuat", rotQuat), ("opacityLogit", opacityLogit), ("shCoeffs", sh)] "shCoeffs"
        ((mapAt [("position", position), ("logScale", logScale), ("rotQuat", rotQuat),
          ("opacityLogit", opacityLogit), ("shCoeffs", sh)] "shCoeffs").getD [] ++ coeff)
        = [("position", position), ("logScale", logScale), ("rotQuat", rotQuat),
          ("opacityLogit", opacityLogit), ("shCoeffs", sh ++ coeff)] := by
      simp [mapAssign, mapAt]
    refine ⟨out, ?_, ?_, ?_, ?_⟩
    · rw [appendCoeffs, hstep, hrun]
    · rw [hlen, List.length_append, List.length_cons, hc]
      omega
    · intro k hk
      rw [hpre k (by rw [List.length_append]; omega), List.getElem?_append_left hk]
    · intro m j hm hj
      cases m with
      | zero =>
        refine ⟨coeff, by simp, ?_⟩
        rw [hpre (sh.length + 3 * 0 + j) (by rw [List.length_append]; omega),
          List.getElem?_append_right (by omega)]
        congr 1
        omega
      | succ m =>
        simp only [List.length_cons] at hm
        obtain ⟨x, hx, hxj⟩ := hcells m j (by omega) hj
        refine ⟨x, by simpa using hx, ?_⟩
        rw [← hxj]
        congr 1
        rw [List.length_append, hc]
        omega

/-- When `nShCoeffs` returns `n` and the raw vertex holds the attribute names and the
names at the first `3 * n` indices of the feature order, `arrangeVertex` returns the five
entries, and `shCoeffs` holds the `3 * n` raw values named by the feature order. -/
theorem arrangeVertex_ok (sphericalHarmonicsDegree n : Int) (rawVertex : List (String × Nat))
    (shFeatureOrder : List String) (hn : nShCoeffs sphericalHarmonicsDegree = .ok n)
    (hcore : ∀ name ∈ ["x", "y", "z", "scale_0", "scale_1", "scale_2", "rot_0", "rot_1",
      "rot_2", "rot_3", "opacity"], (mapAt rawVertex name).isSome = true)
    (hfeatures : ∀ k, k < 3 * n.toNat →
      ((shFeatureOrder[k]?).bind (mapAt rawVertex)).isSome = true) :
    ∃ x y z s0 s1 s2 r0 r1 r2 r3 opacity shCoeffs,
      mapAt rawVertex "x" = some x ∧ mapAt rawVertex "y" = some y ∧
      mapAt rawVertex "z" = some z ∧ mapAt rawVertex "scale_0" = some s0 ∧
      mapAt rawVertex "scale_1" = some s1 ∧ mapAt rawVertex "scale_2" = some s2 ∧
      mapAt rawVertex "rot_0" = some r0 ∧ mapAt rawVertex "rot_1" = some r1 ∧
      mapAt rawVertex "rot_2" = some r2 ∧ mapAt rawVertex "rot_3" = some r3 ∧
      mapAt rawVertex "opacity" = some opacity ∧
      arrangeVertex sphericalHarmonicsDegree rawVertex shFeatureOrder
        = .ok [("position", [x, y, z]), ("logScale", [s0, s1, s2]),
            ("rotQuat", [r0, r1, r2, r3]), ("opacityLogit", [opacity]),
            ("shCoeffs", shCoeffs)] ∧
      shCoeffs.length = 3 * n.toNat ∧
      ∀ k, k < 3 * n.toNat → shCoeffs[k]? = (shFeatureOrder[k]?).bind (mapAt rawVertex) := by
  obtain ⟨x, hx⟩ := Option.isSome_iff_exists.mp (hcore "x" (by simp))
  obtain ⟨y, hy⟩ := Option.isSome_iff_exists.mp (hcore "y" (by simp))
  obtain ⟨z, hz⟩ := Option.isSome_iff_exists.mp (hcore "z" (by simp))
  obtain ⟨s0, hs0⟩ := Option.isSome_iff_exists.mp (hcore "scale_0" (by simp))
  obtain ⟨s1, hs1⟩ := Option.isSome_iff_exists.mp (hcore "scale_1" (by simp))
  obtain ⟨s2, hs2⟩ := Option.isSome_iff_exists.mp (hcore "scale_2" (by simp))
  obtain ⟨r0, hr0⟩ := Option.isSome_iff_exists.mp (hcore "rot_0" (by simp))
  obtain ⟨r1, hr1⟩ := Option.isSome_iff_exists.mp (hcore "rot_1" (by simp))
  obtain ⟨r2, hr2⟩ := Option.isSome_iff_exists.mp (hcore "rot_2" (by simp))
  obtain ⟨r3, hr3⟩ := Option.isSome_iff_exists.mp (hcore "rot_3" (by simp))
  obtain ⟨opacity, hop⟩ := Option.isSome_iff_exists.mp (hcore "opacity" (by simp))
  obtain ⟨cs, hrun, hlen, hcs⟩ := readCoeffs_spec rawVertex shFeatureOrder n.toNat 0 []
    (fun k hk => hfeatures k (by omega))
  have hthree : ∀ x ∈ cs, x.length = 3 := by
    intro coeff hmem
    obtain ⟨m, hm⟩ := List.getElem?_of_mem hmem
    have hlt : m < cs.length := by
      by_contra hge
      rw [List.getElem?_eq_none (by omega)] at hm
      exact absurd hm (by simp)
    obtain ⟨other, ho, hol, -⟩ := hcs m (by omega)
    rw [hm] at ho
    simp only [Option.some.injEq] at ho
    rw [ho]
    exact hol
  obtain ⟨out, happend, hout, -, hcells⟩ := appendCoeffs_spec [x, y, z] [s0, s1, s2]
    [r0, r1, r2, r3] [opacity] cs [] hthree
  refine ⟨x, y, z, s0, s1, s2, r0, r1, r2, r3, opacity, out, hx, hy, hz, hs0, hs1, hs2, hr0,
    hr1, hr2, hr3, hop, ?_, by rw [hout, hlen]; simp, ?_⟩
  · have hmap : mapAssign (mapAssign (mapAssign (mapAssign (mapAssign
        ([] : List (String × List Nat)) "position" [x, y, z]) "logScale" [s0, s1, s2])
        "rotQuat" [r0, r1, r2, r3]) "opacityLogit" [opacity]) "shCoeffs" []
        = [("position", [x, y, z]), ("logScale", [s0, s1, s2]), ("rotQuat", [r0, r1, r2, r3]),
          ("opacityLogit", [opacity]), ("shCoeffs", [])] := by
      simp [mapAssign]
    simp only [arrangeVertex, hn, Outcome.bind, hrun, List.nil_append, atAll, hx, hy, hz, hs0,
      hs1, hs2, hr0, hr1, hr2, hr3, hop, hmap, happend]
  · intro k hk
    obtain ⟨coeff, hc, hcj⟩ := hcells (k / 3) (k % 3) (by omega) (Nat.mod_lt _ (by omega))
    obtain ⟨other, ho, -, hoj⟩ := hcs (k / 3) (by omega)
    rw [hc] at ho
    simp only [Option.some.injEq] at ho
    subst ho
    have e1 : ([] : List Nat).length + 3 * (k / 3) + k % 3 = k := by
      simp only [List.length_nil]; omega
    have e2 : 3 * (0 + k / 3) + k % 3 = k := by omega
    rw [e1] at hcj
    rw [hcj, hoj (k % 3) (Nat.mod_lt _ (by omega)), e2]

/-- Claim C22.  `nShCoeffs` returns `(d + 1)^2` for a degree `d` in `{0, 1, 2, 3}` and
throws `std::invalid_argument` for every other degree.  For a degree in `{0, 1, 2, 3}`, a
raw vertex that holds the eleven attribute names and the first `3 * nShCoeffs` names of
the feature order, and a feature order of at least `3 * nShCoeffs` names, `arrangeVertex`
returns a map with exactly the keys `position` (the raw `x`, `y`, `z`), `logScale`
(`scale_0..2`), `rotQuat` (`rot_0..3`), `opacityLogit` (`opacity`) and `shCoeffs`, where
`shCoeffs` has `3 * (d + 1)^2` components, the `k`-th being the raw value of the `k`-th
name of the feature order.  For every other degree `arrangeVertex` throws
`std::invalid_argument` as well. -/
theorem C22_arrange_vertex (d : Int) (rawVertex : List (String × Nat))
    (shFeatureOrder : List String)
    (hcore : ∀ name ∈ ["x", "y", "z", "scale_0", "scale_1", "scale_2", "rot_0", "rot_1",
      "rot_2", "rot_3", "opacity"], (mapAt rawVertex name).isSome = true)
    (hlength : ∀ n, nShCoeffs d = .ok n → 3 * n ≤ (shFeatureOrder.length : Int))
    (hfeatures : ∀ n, nShCoeffs d = .ok n → ∀ (k : Nat) (name : String), (k : Int) < 3 * n →
      shFeatureOrder[k]? = some name → (mapAt rawVertex name).isSome = true) :
    ((d = 0 ∨ d = 1 ∨ d = 2 ∨ d = 3) →
      nShCoeffs d = .ok ((d + 1) ^ 2) ∧
      ∃ x y z s0 s1 s2 r0 r1 r2 r3 opacity shCoeffs,
        mapAt rawVertex "x" = some x ∧ mapAt rawVertex "y" = some y ∧
        mapAt rawVertex "z" = some z ∧ mapAt rawVertex "scale_0" = some s0 ∧
        mapAt rawVertex "scale_1" = some s1 ∧ mapAt rawVertex "scale_2" = some s2 ∧
        mapAt rawVertex "rot_0" = some r0 ∧ mapAt rawVertex "rot_1" = some r1 ∧
        mapAt rawVertex "rot_2" = some r2 ∧ mapAt rawVertex "rot_3" = some r3 ∧
        mapAt rawVertex "opacity" = some opacity ∧
        arrangeVertex d rawVertex shFeatureOrder
          = .ok [("position", [x, y, z]), ("logScale", [s0, s1, s2]),
              ("rotQuat", [r0, r1, r2, r3]), ("opacityLogit", [opacity]),
              ("shCoeffs", shCoeffs)] ∧
        (shCoeffs.length : Int) = 3 * (d + 1) ^ 2 ∧
        ∀ k : Nat, k < shCoeffs.length → ∃ name value, shFeatureOrder[k]? = some name ∧
          mapAt rawVertex name = some value ∧ shCoeffs[k]? = some value) ∧
    (¬ (d = 0 ∨ d = 1 ∨ d = 2 ∨ d = 3) →
      nShCoeffs d = .throws (.invalid_argument "Unsupported SH degree") ∧
      arrangeVertex d rawVertex shFeatureOrder
        = .throws (.invalid_argument "Unsupported SH degree")) := by
  constructor
  · intro hd
    have hn : nShCoeffs d = .ok ((d + 1) ^ 2) := by
      rcases hd with rfl | rfl | rfl | rfl <;> rfl
    have hpos : 0 ≤ (d + 1) ^ 2 := by positivity
    have hfeat : ∀ k, k < 3 * ((d + 1) ^ 2).toNat →
        ((shFeatureOrder[k]?).bind (mapAt rawVertex)).isSome = true := by
      intro k hk
      have hlen := hlength _ hn
      have hk2 : (k : Int) < 3 * (d + 1) ^ 2 := by omega
      have hlt : k < shFeatureOrder.length := by omega
      rw [List.getElem?_eq_getElem hlt, Option.some_bind]
      exact hfeatures _ hn k _ hk2 (List.getElem?_eq_getElem hlt)
    obtain ⟨x, y, z, s0, s1, s2, r0, r1, r2, r3, opacity, shCoeffs, hx, hy, hz, hs0, hs1, hs2,
      hr0, hr1, hr2, hr3, hop, hrun, hlen, hall⟩ :=
      arrangeVertex_ok d _ rawVertex shFeatureOrder hn hcore hfeat
    refine ⟨hn, x, y, z, s0, s1, s2, r0, r1, r2, r3, opacity, shCoeffs, hx, hy, hz, hs0, hs1,
      hs2, hr0, hr1, hr2, hr3, hop, hrun, by rw [hlen]; omega, ?_⟩
    intro k hk
    rw [hlen] at hk
    have hsome := hfeat k hk
    have hk3 := hall k hk
    cases hname : shFeatureOrder[k]? with
    | none => simp [hname] at hsome
    | some name =>
      rw [hname, Option.some_bind] at hk3 hsome
      obtain ⟨value, hvalue⟩ := Option.isSome_iff_exists.mp hsome
      exact ⟨name, value, rfl, hvalue, by rw [hk3, hvalue]⟩
  · intro hd
    have h0 : d ≠ 0 := fun h => hd (Or.inl h)
    have h1 : d ≠ 1 := fun h => hd (Or.inr (Or.inl h))
    have h2 : d ≠ 2 := fun h => hd (Or.inr (Or.inr (Or.inl h)))
    have h3 : d ≠ 3 := fun h => hd (Or.inr (Or.inr (Or.inr h)))
    have hn : nShCoeffs d = .throws (.invalid_argument "Unsupported SH degree") := by
      simp [nShCoeffs, h0, h1, h2, h3]
    exact ⟨hn, by simp only [arrangeVertex, hn, Outcome.bind]⟩

/-- Witness of C22: degree 1, a raw vertex with the eleven attributes and twelve
coefficient properties, and the feature order that the constructor builds for three
`f_rest` coefficients per colour. -/
theorem C22_witness :
    nShCoeffs 1 = .ok ((1 + 1) ^ 2) ∧
    arrangeVertex 1
      [("x", 1), ("y", 2), ("z", 3), ("f_dc_0", 10), ("f_dc_1", 11), ("f_dc_2", 12),
        ("f_rest_0", 20), ("f_rest_1", 21), ("f_rest_2", 22), ("f_rest_3", 23),
        ("f_rest_4", 24), ("f_rest_5", 25), ("f_rest_6", 26), ("f_rest_7", 27),
        ("f_rest_8", 28), ("opacity", 4), ("scale_0", 5), ("scale_1", 6), ("scale_2", 7),
        ("rot_0", 30), ("rot_1", 31), ("rot_2", 32), ("rot_3", 33)]
      ["f_dc_0", "f_dc_1", "f_dc_2", "f_rest_0", "f_rest_3", "f_rest_6", "f_rest_1",
        "f_rest_4", "f_rest_7", "f_rest_2", "f_rest_5", "f_rest_8"]
      = .ok [("position", [1, 2, 3]), ("logScale", [5, 6, 7]), ("rotQuat", [30, 31, 32, 33]),
          ("opacityLogit", [4]),
          ("shCoeffs", [10, 11, 12, 20, 23, 26, 21, 24, 27, 22, 25, 28])] :=
  have h := (C22_arrange_vertex 1
    [("x", 1), ("y", 2), ("z", 3), ("f_dc_0", 10), ("f_dc_1", 11), ("f_dc_2", 12),
      ("f_rest_0", 20), ("f_rest_1", 21), ("f_rest_2", 22), ("f_rest_3", 23),
      ("f_rest_4", 24), ("f_rest_5", 25), ("f_rest_6", 26), ("f_rest_7", 27),
      ("f_rest_8", 28), ("opacity", 4), ("scale_0", 5), ("scale_1", 6), ("scale_2", 7),
      ("rot_0", 30), ("rot_1", 31), ("rot_2", 32), ("rot_3", 33)]
    ["f_dc_0", "f_dc_1", "f_dc_2", "f_rest_0", "f_rest_3", "f_rest_6", "f_rest_1",
      "f_rest_4", "f_rest_7", "f_rest_2", "f_rest_5", "f_rest_8"]
    (by decide)
    (by
      intro n hn
      have e : n = 4 := by
        have h4 : nShCoeffs 1 = .ok 4 := rfl
        rw [h4] at hn
        exact (Outcome.ok.inj hn).symm
      subst e
      decide)
    (by
      intro n hn k name hk hname
      have e : n = 4 := by
        have h4 : nShCoeffs 1 = .ok 4 := rfl
        rw [h4] at hn
        exact (Outcome.ok.inj hn).symm
      subst e
      have hk12 : k < 12 := by omega
      interval_cases k <;> simp at hname <;> subst hname <;> decide)).1
    (Or.inr (Or.inl rfl))
  ⟨h.1, rfl⟩

end Ply
